import Mathlib

/-!
# The uWSGI subscription registry (`subscription.c`)

A shallow embedding of the subscription subsystem.  The C code works on two kinds of
heap cells, `struct uwsgi_subscribe_slot` (a pool, member of a doubly linked list) and
`struct uwsgi_subscribe_node` (a backend, member of a singly linked list owned by a pool).
Both are kept here in an explicit memory: a pointer is `Option Nat` (`none` is `NULL`),
`malloc` hands out the next unused address, `free` empties the cell, and every access to
a cell that is not allocated makes the operation undefined (`none`).  Loops over linked
lists carry a fuel bound by the number of cells ever allocated, so that a walk that does
not finish (a cyclic list) is undefined as well.

The structure declarations live in `uwsgi.h`, which is not part of the sources at hand:
the fields are the ones the code uses, counters are natural numbers, `time_t` values and
the tolerance are integers, and a character buffer is a list of bytes.  The model is the
build with `UWSGI_PCRE` defined; the PCRE entry points are parameters.
-/

namespace Subscription

/-! ## Data model -/

/-- A `struct uwsgi_subscribe_node`: one backend of a pool. -/
structure uwsgi_subscribe_node where
  name : List Nat
  len : Nat
  modifier1 : Nat
  modifier2 : Nat
  last_check : Int
  reference : Nat
  death_mark : Bool
  slot : Option Nat
  next : Option Nat
deriving DecidableEq, Repr

/-- A `struct uwsgi_subscribe_slot`: a pool.  `pattern` is the compiled regular
expression (`NULL` for a pool announced without the regexp flag); a compiled pattern is
represented by the bytes it was compiled from. -/
structure uwsgi_subscribe_slot where
  key : List Nat
  keylen : Nat
  hits : Nat
  rr : Nat
  nodes : Option Nat
  prev : Option Nat
  next : Option Nat
  pattern : Option (List Nat)
deriving DecidableEq, Repr

/-- A `struct uwsgi_subscribe_req`: the fields of an announcement read by the registry. -/
structure uwsgi_subscribe_req where
  key : List Nat
  keylen : Nat
  address : List Nat
  address_len : Nat
  modifier1 : Nat
  modifier2 : Nat
deriving DecidableEq, Repr

/-- The memory the registry lives in, together with the list head `*slot`. -/
structure Registry where
  slots : List (Option uwsgi_subscribe_slot)
  nodes : List (Option uwsgi_subscribe_node)
  head : Option Nat
deriving DecidableEq, Repr

/-- The PCRE entry points used by the registry (`uwsgi_regexp_build` returns 0 when the
pattern compiles, `uwsgi_regexp_match` returns a value `>= 0` on a match). -/
structure Pcre where
  uwsgi_regexp_build : List Nat → Nat
  uwsgi_regexp_match : Option (List Nat) → List Nat → Nat → Int

/-- Modelled from the spec: `uwsgi_strncmp` is defined outside `subscription.c`; the
registry compares keys and names "byte-for-byte": the result is 0 exactly when the two
lengths agree and the first `dlen` bytes agree. -/
def uwsgi_strncmp (src : List Nat) (slen : Nat) (dst : List Nat) (dlen : Nat) : Nat :=
  if slen ≠ dlen then 1 else if src.take dlen = dst.take dlen then 0 else 1

/-! ## Memory -/

/-- The empty registry: nothing allocated, `*slot == NULL`. -/
def Registry.empty : Registry := ⟨[], [], none⟩

/-- Content of a memory cell; `none` when the address was never allocated or was freed. -/
def cell {α : Type} (m : List (Option α)) (p : Nat) : Option α :=
  match m[p]? with
  | some (some x) => some x
  | _ => none

/-- The pool stored at address `p`. -/
def Registry.slotAt (h : Registry) (p : Nat) : Option uwsgi_subscribe_slot := cell h.slots p

/-- The node stored at address `p`. -/
def Registry.nodeAt (h : Registry) (p : Nat) : Option uwsgi_subscribe_node := cell h.nodes p

/-- A write `p->field = ...` into an allocated pool. -/
def Registry.modifySlot (h : Registry) (p : Nat)
    (f : uwsgi_subscribe_slot → uwsgi_subscribe_slot) : Option Registry :=
  match h.slotAt p with
  | some s => some { h with slots := h.slots.set p (some (f s)) }
  | none => none

/-- A write `p->field = ...` into an allocated node. -/
def Registry.modifyNode (h : Registry) (p : Nat)
    (f : uwsgi_subscribe_node → uwsgi_subscribe_node) : Option Registry :=
  match h.nodeAt p with
  | some n => some { h with nodes := h.nodes.set p (some (f n)) }
  | none => none

/-- The statement `free(p)` on a pool. -/
def Registry.freeSlot (h : Registry) (p : Nat) : Option Registry :=
  match h.slotAt p with
  | some _ => some { h with slots := h.slots.set p none }
  | none => none

/-- The statement `free(p)` on a node. -/
def Registry.freeNode (h : Registry) (p : Nat) : Option Registry :=
  match h.nodeAt p with
  | some _ => some { h with nodes := h.nodes.set p none }
  | none => none

/-- Fuel for a walk over pools. -/
def Registry.slotFuel (h : Registry) : Nat := h.slots.length + 1

/-- Fuel for a walk over nodes. -/
def Registry.nodeFuel (h : Registry) : Nat := h.nodes.length + 1

/-! ## `uwsgi_get_subscribe_slot` -/

/-- The "auto optimization" of a literal hit on `cur` (source lines 40-57): when the pool
has a `prev` with strictly fewer hits, the two are exchanged. -/
def promote (h : Registry) (cur : Nat) : Option Registry := do
  let s ← h.slotAt cur
  match s.prev with
  | none => some h
  | some pv => do
    let ps ← h.slotAt pv
    if s.hits > ps.hits then do
      let slot_parent := ps.prev
      let slot_prev := pv
      let h1 ← (match slot_parent with
        | some pa => h.modifySlot pa (fun x => { x with next := some cur })
        | none => some { h with head := some cur })
      let h2 ← h1.modifySlot slot_prev (fun x => { x with prev := some cur })
      let c2 ← h2.slotAt cur
      let h3 ← h2.modifySlot slot_prev (fun x => { x with next := c2.next })
      let h4 ← h3.modifySlot cur (fun x => { x with next := some slot_prev })
      h4.modifySlot cur (fun x => { x with prev := slot_parent })
    else some h

/-- The `while(current_slot)` loop of `uwsgi_get_subscribe_slot`. -/
def slot_loop (rx : Pcre) (key : List Nat) (keylen : Nat) (regexp : Bool) :
    Nat → Registry → Option Nat → Option (Option Nat × Registry)
  | _, h, none => some (none, h)
  | 0, _, some _ => none
  | fuel + 1, h, some cur => do
    let s ← h.slotAt cur
    if regexp then
      if rx.uwsgi_regexp_match s.pattern key keylen ≥ 0 then some (some cur, h)
      else slot_loop rx key keylen regexp fuel h s.next
    else
      if uwsgi_strncmp key keylen s.key s.keylen = 0 then do
        let h1 ← promote h cur
        some (some cur, h1)
      else slot_loop rx key keylen regexp fuel h s.next

/-- The function `uwsgi_get_subscribe_slot`: the pool found (or `NULL`) and the memory
afterwards. -/
def uwsgi_get_subscribe_slot (rx : Pcre) (h : Registry) (key : List Nat) (keylen : Nat)
    (regexp : Bool) : Option (Option Nat × Registry) :=
  if keylen > 0xff then some (none, h)
  else slot_loop rx key keylen regexp h.slotFuel h h.head

/-! ## `uwsgi_remove_subscribe_node` -/

/-- The `while(a_node)` loop of `uwsgi_remove_subscribe_node` (source lines 147-154). -/
def unlink_loop (node : Nat) : Nat → Registry → Option Nat → Option Registry
  | _, h, none => some h
  | 0, _, some _ => none
  | fuel + 1, h, some a => do
    let an ← h.nodeAt a
    if an.next = some node then do
      let nd ← h.nodeAt node
      h.modifyNode a (fun x => { x with next := nd.next })
    else unlink_loop node fuel h an.next

/-- The function `uwsgi_remove_subscribe_node`: the returned `int` and the memory
afterwards. -/
def uwsgi_remove_subscribe_node (h : Registry) (node : Nat) : Option (Nat × Registry) := do
  let nd ← h.nodeAt node
  let node_slot ← nd.slot
  let ns ← h.slotAt node_slot
  let prev_slot := ns.prev
  let next_slot := ns.next
  let h1 ← h.modifyNode node (fun x => { x with len := 0 })
  let h2 ← (if ns.nodes = some node then do
      let nd1 ← h1.nodeAt node
      h1.modifySlot node_slot (fun x => { x with nodes := nd1.next })
    else unlink_loop node h1.nodeFuel h1 ns.nodes)
  let h3 ← h2.freeNode node
  let ns3 ← h3.slotAt node_slot
  if ns3.nodes = none then do
    let h4 ← (match prev_slot with
      | some p => h3.modifySlot p (fun x => { x with next := next_slot })
      | none => some h3)
    let h5 ← (match next_slot with
      | some n => h4.modifySlot n (fun x => { x with prev := prev_slot })
      | none => some h4)
    let h6 ← h5.freeSlot node_slot
    if prev_slot = none ∧ next_slot = none then some (1, { h6 with head := none })
    else some (1, h6)
  else some (0, h3)

/-! ## `uwsgi_get_subscribe_node` -/

/-- The code after the `while` loop of `uwsgi_get_subscribe_node` (source lines 104-108). -/
def node_wrap (h : Registry) (cur : Nat) : Option (Option Nat × Registry) := do
  let h1 ← h.modifySlot cur (fun x => { x with rr := 0 })
  let s ← h1.slotAt cur
  match s.nodes with
  | some n => do
    let h2 ← h1.modifyNode n (fun x => { x with reference := x.reference + 1 })
    some (some n, h2)
  | none => some (none, h1)

/-- The `while(current_slot && node)` loop of `uwsgi_get_subscribe_node` (source lines
81-103), followed by the code after it. -/
def node_loop (current tolerance : Int) (cur : Nat) :
    Nat → Registry → Option Nat → Nat → Option (Option Nat × Registry)
  | _, h, none, _ => node_wrap h cur
  | 0, _, some _, _ => none
  | fuel + 1, h, some node, rr_pos => do
    let nd ← h.nodeAt node
    let h1 ← (if current - nd.last_check > tolerance then
        h.modifyNode node (fun x => { x with death_mark := true })
      else some h)
    let nd1 ← h1.nodeAt node
    if nd1.death_mark ∧ nd1.reference = 0 then do
      let r ← uwsgi_remove_subscribe_node h1 node
      if r.1 = 1 then some (none, r.2)
      else node_loop current tolerance cur fuel r.2 nd1.next rr_pos
    else do
      let s ← h1.slotAt cur
      if rr_pos = s.rr then do
        let h2 ← h1.modifySlot cur (fun x => { x with rr := x.rr + 1 })
        let h3 ← h2.modifyNode node (fun x => { x with reference := x.reference + 1 })
        some (some node, h3)
      else node_loop current tolerance cur fuel h1 nd1.next (rr_pos + 1)

/-- The function `uwsgi_get_subscribe_node`; `current` is the value of `time(NULL)` and
`tolerance` the value of `uwsgi.subscription_tolerance`. -/
def uwsgi_get_subscribe_node (rx : Pcre) (tolerance : Int) (h : Registry) (key : List Nat)
    (keylen : Nat) (regexp : Bool) (current : Int) : Option (Option Nat × Registry) :=
  if keylen > 0xff then some (none, h)
  else do
    let r ← uwsgi_get_subscribe_slot rx h key keylen regexp
    match r.1 with
    | some cur => do
      let h1 ← r.2.modifySlot cur (fun x => { x with hits := x.hits + 1 })
      let s ← h1.slotAt cur
      node_loop current tolerance cur h1.nodeFuel h1 s.nodes 0
    | none => some (none, r.2)

/-! ## `uwsgi_add_subscribe_node` -/

/-- The `while(node)` loop of `uwsgi_add_subscribe_node` over the nodes of the pool `cur`
(source lines 197-206) followed by the creation of a new node when no name matched
(source lines 208-222). -/
def add_loop (usr : uwsgi_subscribe_req) (now : Int) (cur : Nat) :
    Nat → Registry → Option Nat → Option Nat → Option (Option Nat × Registry)
  | _, h, none, old_node => do
    let node := h.nodes.length
    let h1 : Registry := { h with nodes := h.nodes ++ [some
      { name := usr.address.take usr.address_len, len := usr.address_len,
        modifier1 := usr.modifier1, modifier2 := usr.modifier2, reference := 0,
        death_mark := false, last_check := now, slot := some cur, next := none }] }
    let h2 ← (match old_node with
      | some o => h1.modifyNode o (fun x => { x with next := some node })
      | none => some h1)
    some (some node, h2)
  | 0, _, some _, _ => none
  | fuel + 1, h, some node, _ => do
    let nd ← h.nodeAt node
    if uwsgi_strncmp nd.name nd.len usr.address usr.address_len = 0 then do
      let h1 ← h.modifyNode node (fun x => { x with death_mark := false, last_check := now })
      some (some node, h1)
    else add_loop usr now cur fuel h nd.next (some node)

/-- The first `while(a_slot)` loop of the regexp branch (source lines 261-267): the first
pool whose `keylen` exceeds `keylen`. -/
def longer_loop (keylen : Nat) : Nat → Registry → Option Nat → Option (Option Nat)
  | _, _, none => some none
  | 0, _, some _ => none
  | fuel + 1, h, some a => do
    let s ← h.slotAt a
    if s.keylen > keylen then some (some a) else longer_loop keylen fuel h s.next

/-- The loop that walks to the last pool (source lines 280-283 and 297-300); the result
is `old_slot`. -/
def last_loop : Nat → Registry → Option Nat → Option Nat → Option (Option Nat)
  | _, _, none, old_slot => some old_slot
  | 0, _, some _, _ => none
  | fuel + 1, h, some a, _ => do
    let s ← h.slotAt a
    last_loop fuel h s.next (some a)

/-- Appending the new pool `cur` after the last pool (source lines 279-291 and 296-308). -/
def link_last (h : Registry) (cur : Nat) : Option Registry := do
  let old_slot ← last_loop h.slotFuel h h.head none
  let h1 ← (match old_slot with
    | some o => h.modifySlot o (fun x => { x with next := some cur })
    | none => some h)
  let h2 ← h1.modifySlot cur (fun x => { x with prev := old_slot })
  h2.modifySlot cur (fun x => { x with next := none })

/-- Linking the new pattern pool `cur` in front of `old_slot` (source lines 270-276). -/
def link_before (h : Registry) (cur old_slot : Nat) : Option Registry := do
  let os ← h.slotAt old_slot
  let h1 ← h.modifySlot cur (fun x => { x with prev := os.prev })
  let h2 ← h1.modifySlot old_slot (fun x => { x with prev := some cur })
  let c2 ← h2.slotAt cur
  let h3 ← (match c2.prev with
    | some _ => do
      let o2 ← h2.slotAt old_slot
      let p ← o2.prev
      h2.modifySlot p (fun x => { x with next := some cur })
    | none => some h2)
  h3.modifySlot cur (fun x => { x with next := some old_slot })

/-- The number of bytes that `memcpy(current_slot->key, usr->key, usr->keylen)` (source
line 228) can store without reaching a field that is used afterwards.  The key buffer is
declared in `uwsgi.h`, outside this file; this file treats every `keylen` up to `0xff` as
legal and writes `key[keylen] = 0` (line 229), so it relies on the `0x100` bytes
`key[0] .. key[0xff]`. -/
def key_room : Nat := 0x100

/-- The `else` branch of `uwsgi_add_subscribe_node` (source lines 226-320): a new pool
with one node.  The pool is allocated and the key copied into it before the pattern is
compiled: a copy of more than `key_room` bytes runs past the key buffer, which is
undefined (the model stops); when the pattern does not compile the pool is freed again
(line 238), which leaves a freed cell behind and every allocated pool and node as it was.
The fields `nodes`, `prev` and `next` of the new pool are written by every path before
they are read.  The pool keeps the first `keylen` bytes of the announced key; the
terminating zero byte written after them (line 229) is not represented. -/
def new_slot (rx : Pcre) (h : Registry) (usr : uwsgi_subscribe_req) (regexp : Bool)
    (now : Int) : Option (Option Nat × Registry) :=
  let key := usr.key.take usr.keylen
  if usr.keylen > key_room then none
  else if regexp ∧ rx.uwsgi_regexp_build key ≠ 0 then do
    let h0 : Registry := { h with
      slots := h.slots ++ [some
        { key := key, keylen := usr.keylen, hits := 0, rr := 0, nodes := none,
          prev := none, next := none, pattern := none }] }
    let hf ← h0.freeSlot h.slots.length
    some (none, hf)
  else do
    let cur := h.slots.length
    let node := h.nodes.length
    let h1 : Registry := { h with
      slots := h.slots ++ [some
        { key := key, keylen := usr.keylen, hits := 0, rr := 0, nodes := some node,
          prev := none, next := none, pattern := if regexp then some key else none }],
      nodes := h.nodes ++ [some
        { name := usr.address.take usr.address_len, len := usr.address_len,
          modifier1 := usr.modifier1, modifier2 := usr.modifier2, reference := 0,
          death_mark := false, last_check := now, slot := some cur, next := none }] }
    let h2 ← (if regexp then do
        let old_slot ← longer_loop usr.keylen h1.slotFuel h1 h1.head
        match old_slot with
        | some o => link_before h1 cur o
        | none => link_last h1 cur
      else link_last h1 cur)
    let c ← h2.slotAt cur
    if h2.head = none ∨ c.prev = none then some (some node, { h2 with head := some cur })
    else some (some node, h2)

/-- The function `uwsgi_add_subscribe_node`; `now` is the value of `time(NULL)`. -/
def uwsgi_add_subscribe_node (rx : Pcre) (h : Registry) (usr : uwsgi_subscribe_req)
    (regexp : Bool) (now : Int) : Option (Option Nat × Registry) := do
  let r ← uwsgi_get_subscribe_slot rx h usr.key usr.keylen false
  if usr.address_len > 0xff then some (none, r.2)
  else
    match r.1 with
    | some cur => do
      let s ← r.2.slotAt cur
      add_loop usr now cur r.2.nodeFuel r.2 s.nodes none
    | none => new_slot rx r.2 usr regexp now

/-- Modelled from the spec: `release(node_handle)` is performed by the callers of the
registry, outside `subscription.c`; it "decrements the handle's reference". -/
def release (h : Registry) (node : Nat) : Option Registry :=
  h.modifyNode node (fun x => { x with reference := x.reference - 1 })

/-! ## The registry as a sequence of pools -/

/-- The `next` pointer stored in the pool at `a` (undefined when `a` is not allocated). -/
def Registry.slotNext (h : Registry) (a : Nat) : Option (Option Nat) :=
  (h.slotAt a).map (fun s => s.next)

/-- The `next` pointer stored in the node at `a` (undefined when `a` is not allocated). -/
def Registry.nodeNext (h : Registry) (a : Nat) : Option (Option Nat) :=
  (h.nodeAt a).map (fun n => n.next)

/-- The addresses met when following the pointers `nx` from `p`; undefined when a cell on
the way is not allocated or the walk does not end within the fuel. -/
def walk (nx : Nat → Option (Option Nat)) : Nat → Option Nat → Option (List Nat)
  | _, none => some []
  | 0, some _ => none
  | fuel + 1, some a => do
    let q ← nx a
    let l ← walk nx fuel q
    some (a :: l)

/-- The pools reachable from the registry head, in order. -/
def Registry.pools (h : Registry) : Option (List Nat) := walk h.slotNext h.slotFuel h.head

/-- The node list of the pool at address `a`, in order. -/
def Registry.poolNodes (h : Registry) (a : Nat) : Option (List Nat) := do
  let s ← h.slotAt a
  walk h.nodeNext h.nodeFuel s.nodes

/-- An operation on the registry. -/
inductive Op where
  | announce (usr : uwsgi_subscribe_req) (regexp : Bool) (now : Int)
  | select (key : List Nat) (keylen : Nat) (regexp : Bool) (now : Int)
  | release (node : Nat)
  | remove (node : Nat)
deriving DecidableEq, Repr

/-- One operation: the node handed back (if any) and the memory afterwards. -/
def Op.exec (rx : Pcre) (tolerance : Int) (h : Registry) : Op → Option (Option Nat × Registry)
  | .announce usr regexp now => uwsgi_add_subscribe_node rx h usr regexp now
  | .select key keylen regexp now => uwsgi_get_subscribe_node rx tolerance h key keylen regexp now
  | .release node => (Subscription.release h node).map (fun h1 => (none, h1))
  | .remove node => (uwsgi_remove_subscribe_node h node).map (fun r => (none, r.2))

/-- A sequence of operations: the nodes handed back, in order, and the final memory. -/
def run (rx : Pcre) (tolerance : Int) : Registry → List Op → Option (List (Option Nat) × Registry)
  | h, [] => some ([], h)
  | h, op :: ops => do
    let r ← op.exec rx tolerance h
    let rs ← run rx tolerance r.2 ops
    some (r.1 :: rs.1, rs.2)

/-- A stand-in for PCRE used in concrete runs: every pattern compiles and a pattern
matches exactly the subject equal to it. -/
def sample_pcre : Pcre where
  uwsgi_regexp_build := fun _ => 0
  uwsgi_regexp_match := fun p key keylen =>
    match p with
    | some q => if q = key.take keylen then 0 else -1
    | none => -2

/-- The announcement of address `a` under key `k`. -/
def mkreq (k a : List Nat) : uwsgi_subscribe_req :=
  { key := k, keylen := k.length, address := a, address_len := a.length,
    modifier1 := 0, modifier2 := 0 }

/-- A select of key `k` at time `t` followed by the release of node `n`. -/
def select_release (k : List Nat) (t : Int) (n : Nat) : List Op :=
  [.select k k.length false t, .release n]


/-! ## Well-formed registries -/

/-- A pool with its list links erased: what remains is the key, the counters, the node
list head and the pattern. -/
def uwsgi_subscribe_slot.core (s : uwsgi_subscribe_slot) : uwsgi_subscribe_slot :=
  { s with prev := none, next := none }

/-- Following the pointers `nx` from `p` visits exactly the addresses `l` and arrives at
the pointer `q`. -/
def Seg (nx : Nat → Option (Option Nat)) : Option Nat → List Nat → Option Nat → Prop
  | p, [], q => p = q
  | p, a :: l, q => p = some a ∧ ∃ r, nx a = some r ∧ Seg nx r l q

/-- The `prev` pointers along the pools `l` are the predecessors in `l`; `pv` is the
expected `prev` of the first pool. -/
def PrevLinks (h : Registry) : Option Nat → List Nat → Prop
  | _, [] => True
  | pv, a :: l => (h.slotAt a).map (fun s => s.prev) = some pv ∧ PrevLinks h (some a) l

/-- Decision procedure for `PrevLinks`. -/
def PrevLinks.decide (h : Registry) : (pv : Option Nat) → (l : List Nat) →
    Decidable (PrevLinks h pv l)
  | _, [] => isTrue True.intro
  | pv, a :: l =>
    have : Decidable (PrevLinks h (some a) l) := PrevLinks.decide h (some a) l
    inferInstanceAs
      (Decidable ((h.slotAt a).map (fun s => s.prev) = some pv ∧ PrevLinks h (some a) l))

instance (h : Registry) (pv : Option Nat) (l : List Nat) : Decidable (PrevLinks h pv l) :=
  PrevLinks.decide h pv l

/-- The pool at `a` owns a non-empty list of nodes, each of which points back to `a`
through its `slot` field. -/
def PoolOK (h : Registry) (a : Nat) : Prop :=
  ∃ ns ∈ h.poolNodes a, ns ≠ [] ∧
    ∀ n ∈ ns, (h.nodeAt n).map (fun nd => nd.slot) = some (some a)

/-- The intended shape of the registry: the pools reachable from the head form a proper
doubly linked list (each `prev` is the predecessor, the head has no `prev`), and every
pool owns a non-empty list of its own nodes. -/
def WellFormed (h : Registry) : Prop :=
  ∃ l ∈ h.pools, PrevLinks h none l ∧ ∀ a ∈ l, PoolOK h a

instance (h : Registry) (a : Nat) : Decidable (PoolOK h a) := by
  unfold PoolOK; infer_instance

instance (h : Registry) : Decidable (WellFormed h) := by
  unfold WellFormed; infer_instance

/-- The pool at `a` is allocated and `uwsgi_strncmp` finds its key equal to `key`. -/
def Registry.hasKey (h : Registry) (key : List Nat) (keylen : Nat) (a : Nat) : Bool :=
  match h.slotAt a with
  | some s => uwsgi_strncmp key keylen s.key s.keylen == 0
  | none => false

/-- The node at `n` is allocated and `uwsgi_strncmp` finds its name equal to `name`. -/
def Registry.hasName (h : Registry) (name : List Nat) (len : Nat) (n : Nat) : Bool :=
  match h.nodeAt n with
  | some nd => uwsgi_strncmp nd.name nd.len name len == 0
  | none => false

/-- Two memories that agree on every node and on every pool up to the list links. -/
def SameCore (h h1 : Registry) : Prop :=
  h1.nodes = h.nodes ∧ h1.slots.length = h.slots.length ∧
    ∀ a, (h1.slotAt a).map uwsgi_subscribe_slot.core = (h.slotAt a).map uwsgi_subscribe_slot.core

/-! ## Concrete registries and requests -/

/-- The registry after announcing keys `[1]` and `[2]` (one node each) and selecting key
`[2]` once, with the handle released: the second pool has more hits than the first. -/
def hot_tail : Registry where
  slots := [
    some { key := [1], keylen := 1, hits := 0, rr := 0, nodes := some 0, prev := none,
           next := some 1, pattern := none },
    some { key := [2], keylen := 1, hits := 1, rr := 1, nodes := some 1, prev := some 0,
           next := none, pattern := none }]
  nodes := [
    some { name := [1], len := 1, modifier1 := 0, modifier2 := 0, last_check := 0,
           reference := 0, death_mark := false, slot := some 0, next := none },
    some { name := [1], len := 1, modifier1 := 0, modifier2 := 0, last_check := 0,
           reference := 0, death_mark := false, slot := some 1, next := none }]
  head := some 0

/-- An announcement under key `k` whose address is 256 bytes long. -/
def long_name_req (k : List Nat) : uwsgi_subscribe_req :=
  { key := k, keylen := k.length, address := List.replicate 256 0, address_len := 256,
    modifier1 := 0, modifier2 := 0 }

/-- The registry after announcing keys `[1]` and `[2]`, one node each. -/
def two_pools : Registry where
  slots := [
    some { key := [1], keylen := 1, hits := 0, rr := 0, nodes := some 0, prev := none,
           next := some 1, pattern := none },
    some { key := [2], keylen := 1, hits := 0, rr := 0, nodes := some 1, prev := some 0,
           next := none, pattern := none }]
  nodes := [
    some { name := [1], len := 1, modifier1 := 0, modifier2 := 0, last_check := 0,
           reference := 0, death_mark := false, slot := some 0, next := none },
    some { name := [1], len := 1, modifier1 := 0, modifier2 := 0, last_check := 0,
           reference := 0, death_mark := false, slot := some 1, next := none }]
  head := some 0

/-- An announcement of address `[1]` under a key of 256 bytes. -/
def long_key_req : uwsgi_subscribe_req :=
  { key := List.replicate 256 0, keylen := 256, address := [1], address_len := 1,
    modifier1 := 0, modifier2 := 0 }

/-- Three announcements (keys `[1]`, `[2]`, `[3]`, one node each), two selects of key
`[2]` and three selects of key `[3]`, every handle released. -/
def stale_prev_ops : List Op :=
  [.announce (mkreq [1] [1]) false 0, .announce (mkreq [2] [1]) false 0,
   .announce (mkreq [3] [1]) false 0] ++
  select_release [2] 0 1 ++ select_release [2] 0 1 ++
  select_release [3] 0 2 ++ select_release [3] 0 2 ++ select_release [3] 0 2

/-- A registry with one pool of key `k` at address 0 that owns one node of name `a` at
address 0. -/
def one_node (k a : List Nat) (last_check : Int) (hits rr reference : Nat)
    (death_mark : Bool) : Registry where
  slots := [
    some { key := k, keylen := k.length, hits := hits, rr := rr, nodes := some 0,
           prev := none, next := none, pattern := none }]
  nodes := [
    some { name := a, len := a.length, modifier1 := 0, modifier2 := 0,
           last_check := last_check, reference := reference, death_mark := death_mark,
           slot := some 0, next := none }]
  head := some 0

/-- The pool of `one_node` after its node was selected twice and marked dead while the
first handle was still held. -/
def marked_node : Registry := one_node [107] [1] 0 2 0 2 true

/-- A pool pointer that is `NULL` or the address of an allocated pool. -/
def PtrOK (h : Registry) (p : Option Nat) : Prop :=
  ∀ x, p = some x → ∃ s, h.slotAt x = some s

/-- The memory `g1` agrees with `g` outside the pool `cur`: every other pool is the same
up to its list links, and every node that does not belong to `cur` is the same. -/
def FrameOutside (cur : Nat) (g g1 : Registry) : Prop :=
  (∀ a, a ≠ cur →
    (g1.slotAt a).map uwsgi_subscribe_slot.core = (g.slotAt a).map uwsgi_subscribe_slot.core) ∧
  (∀ n nd, g.nodeAt n = some nd → nd.slot ≠ some cur → g1.nodeAt n = some nd)

/-- The pool `cur` is allocated with content `sc`, its node list is `l`, every node of
the list points back to `cur`, and the list links of the pool are `NULL` or allocated. -/
def PoolInv (g : Registry) (cur : Nat) (sc : uwsgi_subscribe_slot) (l : List Nat) : Prop :=
  g.slotAt cur = some sc ∧ Seg g.nodeNext sc.nodes l none ∧
    (∀ n ∈ l, (g.nodeAt n).map (fun x => x.slot) = some (some cur)) ∧
    PtrOK g sc.prev ∧ PtrOK g sc.next

/-- A node that a select at time `current` must not remove: it is in use, or it is
neither death-marked nor stale. -/
def Guarded (current tolerance : Int) (nd : uwsgi_subscribe_node) : Prop :=
  0 < nd.reference ∨ (nd.death_mark = false ∧ current - nd.last_check ≤ tolerance)

instance (current tolerance : Int) (nd : uwsgi_subscribe_node) :
    Decidable (Guarded current tolerance nd) := by
  unfold Guarded; infer_instance

/-- Every guarded node that is in the node list of the pool `a` in `g` is still allocated
in `g1`, still points back to `a`, has not lost references, is still guarded and is still
in the node list of `a`. -/
def KeepsRef (current tolerance : Int) (a : Nat) (g g1 : Registry) : Prop :=
  ∀ n nd, g.nodeAt n = some nd → Guarded current tolerance nd →
    (∃ ns ∈ g.poolNodes a, n ∈ ns) →
    ∃ nd1, g1.nodeAt n = some nd1 ∧ nd1.slot = nd.slot ∧ nd.reference ≤ nd1.reference ∧
      Guarded current tolerance nd1 ∧ ∃ ns1 ∈ g1.poolNodes a, n ∈ ns1

/-- A step that allocates and frees nothing, leaves every pool other than `cur` and the
links and node list head of `cur` alone, and changes nodes of `cur` only in fields other
than `slot` and `next`, without lowering a reference or taking away a guard. -/
def Benign (current tolerance : Int) (cur : Nat) (g g1 : Registry) : Prop :=
  g1.nodes.length = g.nodes.length ∧
  (∀ a, a ≠ cur → g1.slotAt a = g.slotAt a) ∧
  (∀ sc, g.slotAt cur = some sc → ∃ sc1, g1.slotAt cur = some sc1 ∧ sc1.nodes = sc.nodes ∧
    sc1.prev = sc.prev ∧ sc1.next = sc.next) ∧
  (∀ n nd, g.nodeAt n = some nd → ∃ nd1, g1.nodeAt n = some nd1 ∧ nd1.slot = nd.slot ∧
    nd1.next = nd.next ∧ nd.reference ≤ nd1.reference ∧ (nd.slot ≠ some cur → nd1 = nd) ∧
    (Guarded current tolerance nd → Guarded current tolerance nd1))

/-- One pool with two nodes announced at time 0; the first node was selected once and its
handle is still held (reference 1), the second node is idle. -/
def busy_and_idle : Registry where
  slots := [
    some { key := [107], keylen := 1, hits := 1, rr := 1, nodes := some 0, prev := none,
           next := none, pattern := none }]
  nodes := [
    some { name := [1], len := 1, modifier1 := 0, modifier2 := 0, last_check := 0,
           reference := 1, death_mark := false, slot := some 0, next := some 1 },
    some { name := [2], len := 1, modifier1 := 0, modifier2 := 0, last_check := 0,
           reference := 0, death_mark := false, slot := some 0, next := none }]
  head := some 0

/-- Pattern announcements of the keys `xy` and `abc` (one node each), one pattern-mode
select of the subject `abc` whose handle is released, then the pattern announcement of
`abc` again. -/
def pattern_order_ops : List Op :=
  [.announce (mkreq [120, 121] [1]) true 0, .announce (mkreq [97, 98, 99] [1]) true 0,
   .select [97, 98, 99] 3 true 0, .release 1,
   .announce (mkreq [97, 98, 99] [1]) true 0]

/-- Literal announcements of the keys `[1]` and `[3, 3, 3]`, a pattern announcement of
`[2, 2]`, a literal announcement of `[2, 2]`, then one literal select of `[2, 2]` whose
handle is released. -/
def mixed_mode_ops : List Op :=
  [.announce (mkreq [1] [1]) false 0, .announce (mkreq [3, 3, 3] [1]) false 0,
   .announce (mkreq [2, 2] [1]) true 0, .announce (mkreq [2, 2] [1]) false 0,
   .select [2, 2] 2 false 0, .release 3]

/-- Literal announcements of the keys `[0]`, `[1]`, `[2]`, `[3]`, two selects of `[1]` and
of `[3]`, a new announcement of `[0]` followed by two selects of `[0]`, the removal of
node 0, one more announcement of `[0]` and the removal of node 3; every handle handed out
by a select is released. -/
def duplicate_key_ops : List Op :=
  [.announce (mkreq [0] [1]) false 0, .announce (mkreq [1] [1]) false 0,
   .announce (mkreq [2] [1]) false 0, .announce (mkreq [3] [1]) false 0] ++
  select_release [1] 0 1 ++ select_release [1] 0 1 ++
  select_release [3] 0 3 ++ select_release [3] 0 3 ++
  [.announce (mkreq [0] [1]) false 0] ++
  select_release [0] 0 4 ++ select_release [0] 0 4 ++
  [.remove 0, .announce (mkreq [0] [1]) false 0, .remove 3]

/-- The operations of `duplicate_key_ops` with the name `[9]` in the last announcement of
key `[0]`. -/
def twin_key_ops : List Op :=
  [.announce (mkreq [0] [1]) false 0, .announce (mkreq [1] [1]) false 0,
   .announce (mkreq [2] [1]) false 0, .announce (mkreq [3] [1]) false 0] ++
  select_release [1] 0 1 ++ select_release [1] 0 1 ++
  select_release [3] 0 3 ++ select_release [3] 0 3 ++
  [.announce (mkreq [0] [1]) false 0] ++
  select_release [0] 0 4 ++ select_release [0] 0 4 ++
  [.remove 0, .announce (mkreq [0] [9]) false 0, .remove 3]

/-- Two nodes announced for key `[107]` at time 0, the first one announced again at
time 11. -/
def late_stale_ops : List Op :=
  [.announce (mkreq [107] [1]) false 0, .announce (mkreq [107] [2]) false 0,
   .announce (mkreq [107] [1]) false 11]

/-! ## `uwsgi_send_subscription` -/

/-- The arguments of the call `send_udp_message(224, cmd, udp_address, subscrbuf,
ssb_size - 4)` that ends `uwsgi_send_subscription`: `body` is the content of `subscrbuf`
from offset 4 on, as far as it was written, and `size` the last argument. -/
structure udp_message where
  modifier1 : Nat
  modifier2 : Nat
  addr : List Nat
  body : List Nat
  size : Nat
deriving DecidableEq, Repr

/-- The bytes stored through `ssb` by `ustrlen = n; *ssb++ = (uint8_t) (ustrlen & 0xff);
*ssb++ = (uint8_t) ((ustrlen >> 8) & 0xff); memcpy(ssb, src, ustrlen); ssb += ustrlen;`
where `ustrlen` is a `uint16_t` (source lines 340-344 and the like).  The buffer `src` is
given by its content; `memcpy` reads its first `ustrlen` bytes. -/
def ssb_put (n : Nat) (src : List Nat) : List Nat :=
  let ustrlen := n % 2 ^ 16
  [ustrlen &&& 0xff, (ustrlen >>> 8) &&& 0xff] ++ src.take ustrlen

/-- The bytes of the C string literal `"key"`. -/
def str_key : List Nat := [107, 101, 121]

/-- The bytes of the C string literal `"address"`. -/
def str_address : List Nat := [97, 100, 100, 114, 101, 115, 115]

/-- The bytes of the C string literal `"modifier1"`. -/
def str_modifier1 : List Nat := [109, 111, 100, 105, 102, 105, 101, 114, 49]

/-- The function `uwsgi_send_subscription` (source lines 326-380).  `name` is the content of
the C string `uwsgi.sockets->name` (so `strlen` is its length), `modifier1` is `none` for a
`NULL` pointer.  `ssb_size` is computed in unbounded arithmetic: the sum stays below
`2 ^ 32` whenever the three lengths are below `2 ^ 16`.  The result is the message handed
to `send_udp_message`. -/
def uwsgi_send_subscription (udp_address key : List Nat) (keysize : Nat) (name : List Nat)
    (modifier1 : Option (List Nat)) (modifier1_len : Nat) (cmd : Nat) : udp_message :=
  let ssb_size := 4 + (2 + 3) + (2 + keysize) + (2 + 7) + (2 + name.length)
  let ssb_size := if modifier1.isSome then ssb_size + ((2 + 9) + (2 + modifier1_len)) else ssb_size
  let ssb := ssb_put 3 str_key ++ ssb_put keysize key ++ ssb_put 7 str_address ++
    ssb_put name.length name
  let ssb := match modifier1 with
    | some m => ssb ++ ssb_put 9 str_modifier1 ++ ssb_put modifier1_len m
    | none => ssb
  { modifier1 := 224, modifier2 := cmd, addr := udp_address, body := ssb, size := ssb_size - 4 }

/-- Modelled from the spec: a length as two bytes, low byte first ("16-bit
little-endian"). -/
def len16 (n : Nat) : List Nat := [n % 256, n / 256]

/-- Modelled from the spec: one key-value pair of the announcement body,
`[len16-LE][bytes][len16-LE][bytes]`. -/
def wire_pair (k v : List Nat) : List Nat := len16 k.length ++ k ++ len16 v.length ++ v

/-- Modelled from the spec: reads one length-prefixed string from the front of `b`; the
result is the string and the rest of `b`. -/
def read_item : List Nat → Option (List Nat × List Nat)
  | lo :: hi :: rest =>
    if lo + 256 * hi ≤ rest.length then some (rest.take (lo + 256 * hi), rest.drop (lo + 256 * hi))
    else none
  | _ => none

/-- Modelled from the spec: "The body is a sequence of key-value pairs" (section 6.2);
a body that ends inside a pair is malformed. -/
def read_pairs : Nat → List Nat → Option (List (List Nat × List Nat))
  | _, [] => some []
  | 0, _ :: _ => none
  | fuel + 1, b => do
    let k ← read_item b
    let v ← read_item k.2
    let ps ← read_pairs fuel v.2
    some ((k.1, v.1) :: ps)

/-- Modelled from the spec: the decoded announcement `(key, name, modifier1)`. -/
structure announcement where
  key : List Nat
  address : List Nat
  modifier1 : Option (List Nat)
deriving DecidableEq, Repr

/-- Modelled from the spec: decoding of an announcement body (section 6.2): the recognized
keys are `key`, `address` and `modifier1`, unknown keys are ignored, `key` and `address`
are required and `modifier1` is optional. -/
def decode_announcement (b : List Nat) : Option announcement := do
  let ps ← read_pairs b.length b
  let key ← ps.lookup str_key
  let address ← ps.lookup str_address
  some { key := key, address := address, modifier1 := ps.lookup str_modifier1 }

/-- An announcement of address `[1]` under a key of 65535 bytes, the largest length a
`uint16_t` holds. -/
def huge_key_req : uwsgi_subscribe_req :=
  { key := List.replicate 65535 0, keylen := 65535, address := [1], address_len := 1,
    modifier1 := 0, modifier2 := 0 }

/-- A stand-in for PCRE in which no pattern compiles. -/
def failing_pcre : Pcre where
  uwsgi_regexp_build := fun _ => 1
  uwsgi_regexp_match := fun _ _ _ => -1

/-- Reference bookkeeping of a call that goes from memory `h` to memory `h1` and hands out
the node `N` (`none` when it hands out nothing): every node allocated afterwards was
allocated before, and its reference is the one before, plus one for the node handed out. -/
def RefStep (N : Option Nat) (h h1 : Registry) : Prop :=
  ∀ n nd1, h1.nodeAt n = some nd1 → ∃ nd, h.nodeAt n = some nd ∧
    nd1.reference = nd.reference + (if N = some n then 1 else 0)

/-- The node at `n` is allocated and guarded against removal by a select at time
`current`: it is referenced, or neither death-marked nor stale. -/
def Registry.guarded (h : Registry) (current tolerance : Int) (n : Nat) : Bool :=
  match h.nodeAt n with
  | some nd => decide (Guarded current tolerance nd)
  | none => false

/-! ## The node lists of the pools -/

/-- Two memories in which every pool has the same node list head and every node the same
`slot` and `next`: they hold the same node lists. -/
def SameLists (h h1 : Registry) : Prop :=
  h1.nodes.length = h.nodes.length ∧
  (∀ a, (h1.slotAt a).map (fun s => s.nodes) = (h.slotAt a).map (fun s => s.nodes)) ∧
  (∀ n, (h1.nodeAt n).map (fun x => (x.slot, x.next)) =
    (h.nodeAt n).map (fun x => (x.slot, x.next)))

/-- The shape of the node lists, which does not depend on the links between the pools:
every allocated pool owns a non-empty list of nodes that point back to it, and every
allocated node is in the node list of the pool that its `slot` field names. -/
def NodeLists (h : Registry) : Prop :=
  (∀ a < h.slots.length, (h.slotAt a).isSome = true → PoolOK h a) ∧
  (∀ n < h.nodes.length, ∀ nd ∈ h.nodeAt n, ∃ a ∈ nd.slot, ∃ ns ∈ h.poolNodes a, n ∈ ns)

instance (h : Registry) : Decidable (NodeLists h) := by
  unfold NodeLists; infer_instance

/-- Announcements of the keys `[1]`, `[2]`, `[3]` and of two more nodes under `[2]`, all
at time 0, and two selects of `[2]`: the first returns node 1, whose handle is kept, the
second promotes the pool of `[2]` and returns node 3, whose handle is released. -/
def held_stale_ops : List Op :=
  [.announce (mkreq [1] [1]) false 0, .announce (mkreq [2] [1]) false 0,
   .announce (mkreq [3] [1]) false 0, .announce (mkreq [2] [2]) false 0,
   .announce (mkreq [2] [3]) false 0,
   .select [2] 1 false 0, .select [2] 1 false 0, .release 3]

/-- The memory after `held_stale_ops`: the registry is the pools 1, 0, 2 and pool 2 still
has `prev == 1`; pool 1 holds the nodes 1, 3, 4, of which node 1 is referenced. -/
def held_stale : Registry where
  slots := [
    some { key := [1], keylen := 1, hits := 0, rr := 0, nodes := some 0, prev := some 1,
           next := some 2, pattern := none },
    some { key := [2], keylen := 1, hits := 2, rr := 2, nodes := some 1, prev := none,
           next := some 0, pattern := none },
    some { key := [3], keylen := 1, hits := 0, rr := 0, nodes := some 2, prev := some 1,
           next := none, pattern := none }]
  nodes := [
    some { name := [1], len := 1, modifier1 := 0, modifier2 := 0, last_check := 0,
           reference := 0, death_mark := false, slot := some 0, next := none },
    some { name := [1], len := 1, modifier1 := 0, modifier2 := 0, last_check := 0,
           reference := 1, death_mark := false, slot := some 1, next := some 3 },
    some { name := [1], len := 1, modifier1 := 0, modifier2 := 0, last_check := 0,
           reference := 0, death_mark := false, slot := some 2, next := none },
    some { name := [2], len := 1, modifier1 := 0, modifier2 := 0, last_check := 0,
           reference := 0, death_mark := false, slot := some 1, next := some 4 },
    some { name := [3], len := 1, modifier1 := 0, modifier2 := 0, last_check := 0,
           reference := 0, death_mark := false, slot := some 1, next := none }]
  head := some 1

/-! ## Memory lemmas -/

theorem cell_lt {α : Type} {m : List (Option α)} {p : Nat} {x : α} (hc : cell m p = some x) :
    p < m.length := by
  unfold cell at hc
  by_contra hlt
  rw [List.getElem?_eq_none (by omega)] at hc
  simp at hc

theorem cell_set_self {α : Type} (m : List (Option α)) (p : Nat) (v : Option α)
    (hp : p < m.length) : cell (m.set p v) p = v := by
  unfold cell
  rw [List.getElem?_set_self hp]
  cases v <;> rfl

theorem cell_set_other {α : Type} (m : List (Option α)) (p q : Nat) (v : Option α)
    (hne : q ≠ p) : cell (m.set p v) q = cell m q := by
  unfold cell
  rw [List.getElem?_set_ne (Ne.symm hne)]

theorem cell_append_old {α : Type} (m : List (Option α)) (v : Option α) (q : Nat)
    (hq : q < m.length) : cell (m ++ [v]) q = cell m q := by
  unfold cell
  rw [List.getElem?_append_left hq]

theorem cell_append_new {α : Type} (m : List (Option α)) (v : Option α) :
    cell (m ++ [v]) m.length = v := by
  unfold cell
  rw [List.getElem?_append_right (le_refl _)]
  cases v <;> simp

theorem cell_append_some {α : Type} (m : List (Option α)) (v : Option α) (q : Nat) (x : α)
    (hq : cell m q = some x) : cell (m ++ [v]) q = some x := by
  rw [cell_append_old m v q (cell_lt hq), hq]

theorem modifySlot_some {h : Registry} {p : Nat} {f : uwsgi_subscribe_slot → uwsgi_subscribe_slot}
    {s : uwsgi_subscribe_slot} (hs : h.slotAt p = some s) :
    h.modifySlot p f = some { h with slots := h.slots.set p (some (f s)) } := by
  unfold Registry.modifySlot
  rw [hs]

theorem modifySlot_inv {h h1 : Registry} {p : Nat}
    {f : uwsgi_subscribe_slot → uwsgi_subscribe_slot} (hm : h.modifySlot p f = some h1) :
    ∃ s, h.slotAt p = some s ∧ h1 = { h with slots := h.slots.set p (some (f s)) } := by
  unfold Registry.modifySlot at hm
  cases hs : h.slotAt p with
  | none => rw [hs] at hm; simp at hm
  | some s => rw [hs] at hm; exact ⟨s, rfl, by simpa using hm.symm⟩

theorem modifySlot_slotAt {h h1 : Registry} {p : Nat}
    {f : uwsgi_subscribe_slot → uwsgi_subscribe_slot} (hm : h.modifySlot p f = some h1)
    (q : Nat) : h1.slotAt q = if q = p then (h.slotAt p).map f else h.slotAt q := by
  obtain ⟨s, hs, rfl⟩ := modifySlot_inv hm
  by_cases hq : q = p
  · subst hq
    simp only [Registry.slotAt, if_true]
    rw [cell_set_self _ _ _ (cell_lt hs)]
    simp only [Registry.slotAt] at hs
    rw [hs]; rfl
  · simp only [Registry.slotAt, if_neg hq]
    exact cell_set_other _ _ _ _ hq

theorem modifySlot_nodes {h h1 : Registry} {p : Nat}
    {f : uwsgi_subscribe_slot → uwsgi_subscribe_slot} (hm : h.modifySlot p f = some h1) :
    h1.nodes = h.nodes := by
  obtain ⟨s, _, rfl⟩ := modifySlot_inv hm; rfl

theorem modifySlot_head {h h1 : Registry} {p : Nat}
    {f : uwsgi_subscribe_slot → uwsgi_subscribe_slot} (hm : h.modifySlot p f = some h1) :
    h1.head = h.head := by
  obtain ⟨s, _, rfl⟩ := modifySlot_inv hm; rfl

theorem modifySlot_length {h h1 : Registry} {p : Nat}
    {f : uwsgi_subscribe_slot → uwsgi_subscribe_slot} (hm : h.modifySlot p f = some h1) :
    h1.slots.length = h.slots.length := by
  obtain ⟨s, _, rfl⟩ := modifySlot_inv hm; simp

theorem modifySlot_nodeAt {h h1 : Registry} {p : Nat}
    {f : uwsgi_subscribe_slot → uwsgi_subscribe_slot} (hm : h.modifySlot p f = some h1)
    (q : Nat) : h1.nodeAt q = h.nodeAt q := by
  simp only [Registry.nodeAt, modifySlot_nodes hm]

theorem modifyNode_some {h : Registry} {p : Nat} {f : uwsgi_subscribe_node → uwsgi_subscribe_node}
    {n : uwsgi_subscribe_node} (hn : h.nodeAt p = some n) :
    h.modifyNode p f = some { h with nodes := h.nodes.set p (some (f n)) } := by
  unfold Registry.modifyNode
  rw [hn]

theorem modifyNode_inv {h h1 : Registry} {p : Nat}
    {f : uwsgi_subscribe_node → uwsgi_subscribe_node} (hm : h.modifyNode p f = some h1) :
    ∃ n, h.nodeAt p = some n ∧ h1 = { h with nodes := h.nodes.set p (some (f n)) } := by
  unfold Registry.modifyNode at hm
  cases hs : h.nodeAt p with
  | none => rw [hs] at hm; simp at hm
  | some s => rw [hs] at hm; exact ⟨s, rfl, by simpa using hm.symm⟩

theorem modifyNode_nodeAt {h h1 : Registry} {p : Nat}
    {f : uwsgi_subscribe_node → uwsgi_subscribe_node} (hm : h.modifyNode p f = some h1)
    (q : Nat) : h1.nodeAt q = if q = p then (h.nodeAt p).map f else h.nodeAt q := by
  obtain ⟨s, hs, rfl⟩ := modifyNode_inv hm
  by_cases hq : q = p
  · subst hq
    simp only [Registry.nodeAt, if_true]
    rw [cell_set_self _ _ _ (cell_lt hs)]
    simp only [Registry.nodeAt] at hs
    rw [hs]; rfl
  · simp only [Registry.nodeAt, if_neg hq]
    exact cell_set_other _ _ _ _ hq

theorem modifyNode_slots {h h1 : Registry} {p : Nat}
    {f : uwsgi_subscribe_node → uwsgi_subscribe_node} (hm : h.modifyNode p f = some h1) :
    h1.slots = h.slots := by
  obtain ⟨s, _, rfl⟩ := modifyNode_inv hm; rfl

theorem modifyNode_head {h h1 : Registry} {p : Nat}
    {f : uwsgi_subscribe_node → uwsgi_subscribe_node} (hm : h.modifyNode p f = some h1) :
    h1.head = h.head := by
  obtain ⟨s, _, rfl⟩ := modifyNode_inv hm; rfl

theorem modifyNode_length {h h1 : Registry} {p : Nat}
    {f : uwsgi_subscribe_node → uwsgi_subscribe_node} (hm : h.modifyNode p f = some h1) :
    h1.nodes.length = h.nodes.length := by
  obtain ⟨s, _, rfl⟩ := modifyNode_inv hm; simp

theorem modifyNode_slotAt {h h1 : Registry} {p : Nat}
    {f : uwsgi_subscribe_node → uwsgi_subscribe_node} (hm : h.modifyNode p f = some h1)
    (q : Nat) : h1.slotAt q = h.slotAt q := by
  simp only [Registry.slotAt, modifyNode_slots hm]

theorem SameCore.core_refl (h : Registry) : SameCore h h := ⟨rfl, rfl, fun _ => rfl⟩

theorem SameCore.core_trans {h h1 h2 : Registry} (h01 : SameCore h h1) (h12 : SameCore h1 h2) :
    SameCore h h2 :=
  ⟨h12.1.trans h01.1, h12.2.1.trans h01.2.1, fun a => (h12.2.2 a).trans (h01.2.2 a)⟩

theorem SameCore.of_head (h : Registry) (p : Option Nat) : SameCore h { h with head := p } :=
  ⟨rfl, rfl, fun _ => rfl⟩

theorem modifySlot_sameCore {h h1 : Registry} {p : Nat}
    {f : uwsgi_subscribe_slot → uwsgi_subscribe_slot} (hm : h.modifySlot p f = some h1)
    (hf : ∀ s, (f s).core = s.core) : SameCore h h1 := by
  refine ⟨modifySlot_nodes hm, modifySlot_length hm, fun a => ?_⟩
  rw [modifySlot_slotAt hm]
  split
  · next e =>
    subst e
    cases h.slotAt a with
    | none => rfl
    | some s => simp [hf]
  · rfl


/-- The steps of `promote`, one hypothesis per statement. -/
theorem promote_inv {h h' : Registry} {cur : Nat} (hp : promote h cur = some h') :
    ∃ s, h.slotAt cur = some s ∧
      ((s.prev = none ∧ h' = h) ∨
       ∃ pv ps, s.prev = some pv ∧ h.slotAt pv = some ps ∧
        ((¬ s.hits > ps.hits ∧ h' = h) ∨
         (s.hits > ps.hits ∧ ∃ h1 h2 c2 h3 h4,
            (match ps.prev with
              | some pa => h.modifySlot pa (fun x => { x with next := some cur })
              | none => some { h with head := some cur }) = some h1 ∧
            h1.modifySlot pv (fun x => { x with prev := some cur }) = some h2 ∧
            h2.slotAt cur = some c2 ∧
            h2.modifySlot pv (fun x => { x with next := c2.next }) = some h3 ∧
            h3.modifySlot cur (fun x => { x with next := some pv }) = some h4 ∧
            h4.modifySlot cur (fun x => { x with prev := ps.prev }) = some h'))) := by
  unfold promote at hp
  simp only [Option.bind_eq_bind, Option.bind_eq_some] at hp
  obtain ⟨s, hs, hp⟩ := hp
  refine ⟨s, hs, ?_⟩
  split at hp
  · next hpv =>
    left
    exact ⟨hpv, by simpa using hp.symm⟩
  · next pv hpv =>
    right
    simp only [Option.bind_eq_some] at hp
    obtain ⟨ps, hps, hp⟩ := hp
    refine ⟨pv, ps, hpv, hps, ?_⟩
    split at hp
    · next hgt =>
      right
      simp only [Option.bind_eq_some] at hp
      obtain ⟨h1, e1, h2, e2, c2, e3, h3, e4, h4, e5, e6⟩ := hp
      exact ⟨hgt, h1, h2, c2, h3, h4, e1, e2, e3, e4, e5, e6⟩
    · next hgt =>
      left
      exact ⟨hgt, by simpa using hp.symm⟩

theorem promote_sameCore {h h' : Registry} {cur : Nat} (hp : promote h cur = some h') :
    SameCore h h' := by
  obtain ⟨s, -, hcase⟩ := promote_inv hp
  rcases hcase with ⟨-, rfl⟩ | ⟨pv, ps, -, -, hcase⟩
  · exact SameCore.core_refl _
  · rcases hcase with ⟨-, rfl⟩ | ⟨-, h1, h2, c2, h3, h4, e1, e2, -, e4, e5, e6⟩
    · exact SameCore.core_refl _
    · have s1 : SameCore h h1 := by
        split at e1
        · exact modifySlot_sameCore e1 (fun _ => rfl)
        · injection e1 with e1; subst e1; exact SameCore.of_head _ _
      exact s1.core_trans ((modifySlot_sameCore e2 (fun _ => rfl)).core_trans
        ((modifySlot_sameCore e4 (fun _ => rfl)).core_trans
          ((modifySlot_sameCore e5 (fun _ => rfl)).core_trans
            (modifySlot_sameCore e6 (fun _ => rfl)))))

theorem slot_loop_sameCore (rx : Pcre) (key : List Nat) (keylen : Nat) (regexp : Bool) :
    ∀ (fuel : Nat) (h : Registry) (p : Option Nat) (r : Option Nat × Registry),
      slot_loop rx key keylen regexp fuel h p = some r → SameCore h r.2 := by
  intro fuel
  induction fuel with
  | zero =>
    intro h p r hr
    cases p with
    | none => simp [slot_loop] at hr; subst hr; exact SameCore.core_refl _
    | some a => simp [slot_loop] at hr
  | succ fuel ih =>
    intro h p r hr
    cases p with
    | none => simp [slot_loop] at hr; subst hr; exact SameCore.core_refl _
    | some a =>
      simp only [slot_loop, Option.bind_eq_bind, Option.bind_eq_some] at hr
      obtain ⟨s, hs, hr⟩ := hr
      split at hr
      · split at hr
        · injection hr with hr; subst hr; exact SameCore.core_refl _
        · exact ih _ _ _ hr
      · split at hr
        · simp only [Option.bind_eq_some] at hr
          obtain ⟨h1, hp, hr⟩ := hr
          injection hr with hr; subst hr
          exact promote_sameCore hp
        · exact ih _ _ _ hr

theorem get_slot_sameCore {rx : Pcre} {h : Registry} {key : List Nat} {keylen : Nat}
    {regexp : Bool} {r : Option Nat × Registry}
    (hr : uwsgi_get_subscribe_slot rx h key keylen regexp = some r) : SameCore h r.2 := by
  unfold uwsgi_get_subscribe_slot at hr
  split at hr
  · injection hr with hr; subst hr; exact SameCore.core_refl _
  · exact slot_loop_sameCore rx key keylen regexp _ _ _ _ hr

/-! ## Linked lists in memory -/

theorem walk_seg (nx : Nat → Option (Option Nat)) :
    ∀ (fuel : Nat) (p : Option Nat) (l : List Nat), walk nx fuel p = some l → Seg nx p l none := by
  intro fuel
  induction fuel with
  | zero =>
    intro p l hw
    cases p with
    | none => simp [walk] at hw; subst hw; rfl
    | some a => simp [walk] at hw
  | succ fuel ih =>
    intro p l hw
    cases p with
    | none => simp [walk] at hw; subst hw; rfl
    | some a =>
      simp only [walk, Option.bind_eq_bind, Option.bind_eq_some] at hw
      obtain ⟨q, hq, l1, hl1, e⟩ := hw
      injection e with e; subst e
      exact ⟨rfl, q, hq, ih _ _ hl1⟩

theorem seg_walk (nx : Nat → Option (Option Nat)) :
    ∀ (l : List Nat) (fuel : Nat) (p : Option Nat), Seg nx p l none → l.length ≤ fuel →
      walk nx fuel p = some l := by
  intro l
  induction l with
  | nil =>
    intro fuel p hs _
    have : p = none := hs
    subst this
    cases fuel <;> rfl
  | cons a l ih =>
    intro fuel p hs hlen
    obtain ⟨rfl, r, hr, hrest⟩ := hs
    cases fuel with
    | zero => simp at hlen
    | succ fuel =>
      simp only [walk, Option.bind_eq_bind, hr, Option.some_bind]
      rw [ih fuel r hrest (by simpa using hlen)]
      rfl

theorem walk_length (nx : Nat → Option (Option Nat)) :
    ∀ (fuel : Nat) (p : Option Nat) (l : List Nat), walk nx fuel p = some l → l.length ≤ fuel := by
  intro fuel
  induction fuel with
  | zero =>
    intro p l hw
    cases p with
    | none => simp [walk] at hw; subst hw; simp
    | some a => simp [walk] at hw
  | succ fuel ih =>
    intro p l hw
    cases p with
    | none => simp [walk] at hw; subst hw; simp
    | some a =>
      simp only [walk, Option.bind_eq_bind, Option.bind_eq_some] at hw
      obtain ⟨q, _, l1, hl1, e⟩ := hw
      injection e with e; subst e
      have := ih _ _ hl1
      simp; omega

theorem Seg.congr {nx nx' : Nat → Option (Option Nat)} :
    ∀ {l : List Nat} {p q : Option Nat}, (∀ a ∈ l, nx' a = nx a) → Seg nx p l q →
      Seg nx' p l q := by
  intro l
  induction l with
  | nil => intro p q _ hs; exact hs
  | cons a l ih =>
    intro p q hag hs
    obtain ⟨rfl, r, hr, hrest⟩ := hs
    refine ⟨rfl, r, ?_, ih (fun b hb => hag b (List.mem_cons_of_mem _ hb)) hrest⟩
    rw [hag a (List.mem_cons_self _ _)]; exact hr

theorem seg_append {nx : Nat → Option (Option Nat)} :
    ∀ {l1 l2 : List Nat} {p q : Option Nat},
      Seg nx p (l1 ++ l2) q ↔ ∃ m, Seg nx p l1 m ∧ Seg nx m l2 q := by
  intro l1
  induction l1 with
  | nil =>
    intro l2 p q
    constructor
    · intro hs; exact ⟨p, rfl, hs⟩
    · rintro ⟨m, hm, hs⟩
      have : p = m := hm
      subst this; exact hs
  | cons a l1 ih =>
    intro l2 p q
    constructor
    · rintro ⟨rfl, r, hr, hrest⟩
      obtain ⟨m, h1, h2⟩ := ih.mp hrest
      exact ⟨m, ⟨rfl, r, hr, h1⟩, h2⟩
    · rintro ⟨m, ⟨rfl, r, hr, h1⟩, h2⟩
      exact ⟨rfl, r, hr, ih.mpr ⟨m, h1, h2⟩⟩

theorem Seg.alloc {nx : Nat → Option (Option Nat)} :
    ∀ {l : List Nat} {p q : Option Nat}, Seg nx p l q → ∀ a ∈ l, ∃ r, nx a = some r := by
  intro l
  induction l with
  | nil => intro p q _ a ha; simp at ha
  | cons b l ih =>
    intro p q hs a ha
    obtain ⟨rfl, r, hr, hrest⟩ := hs
    rcases List.mem_cons.mp ha with rfl | ha
    · exact ⟨r, hr⟩
    · exact ih hrest a ha

theorem Seg.det {nx : Nat → Option (Option Nat)} :
    ∀ {l l' : List Nat} {p : Option Nat}, Seg nx p l none → Seg nx p l' none → l = l' := by
  intro l
  induction l with
  | nil =>
    intro l' p hs hs'
    have : p = none := hs
    subst this
    cases l' with
    | nil => rfl
    | cons b l' => exact absurd hs'.1 (by simp)
  | cons a l ih =>
    intro l' p hs hs'
    obtain ⟨rfl, r, hr, hrest⟩ := hs
    cases l' with
    | nil =>
      have : some a = none := hs'
      simp at this
    | cons b l' =>
      obtain ⟨e, r', hr', hrest'⟩ := hs'
      injection e with e; subst e
      rw [hr] at hr'; injection hr' with hr'; subst hr'
      rw [ih hrest hrest']

theorem Seg.nodup {nx : Nat → Option (Option Nat)} :
    ∀ {l : List Nat} {p : Option Nat}, Seg nx p l none → l.Nodup := by
  intro l
  induction l with
  | nil => intro p _; exact List.nodup_nil
  | cons a l ih =>
    intro p hs
    obtain ⟨rfl, r, hr, hrest⟩ := hs
    refine List.nodup_cons.mpr ⟨?_, ih hrest⟩
    intro hmem
    obtain ⟨l1, l2, rfl⟩ := List.append_of_mem hmem
    obtain ⟨m, _, h2⟩ := seg_append.mp hrest
    obtain ⟨rfl, r2, hr2, hrest2⟩ := h2
    rw [hr] at hr2; injection hr2 with hr2; subst hr2
    have := Seg.det hrest hrest2
    have hl := congrArg List.length this
    simp at hl
    omega

theorem length_le_of_nodup {l : List Nat} {n : Nat} (hn : l.Nodup) (hlt : ∀ a ∈ l, a < n) :
    l.length ≤ n := by
  have hsub : l ⊆ List.range n := fun a ha => List.mem_range.mpr (hlt a ha)
  have := (List.subperm_of_subset hn hsub).length_le
  simpa using this

/-! ## The literal lookup on a well-formed registry -/

theorem modifySlot_ex {h : Registry} {p : Nat} {s : uwsgi_subscribe_slot}
    (f : uwsgi_subscribe_slot → uwsgi_subscribe_slot) (hs : h.slotAt p = some s) :
    ∃ h1, h.modifySlot p f = some h1 ∧
      (∀ x, h1.slotAt x = if x = p then some (f s) else h.slotAt x) ∧
      h1.head = h.head ∧ h1.nodes = h.nodes := by
  refine ⟨_, modifySlot_some hs, fun x => ?_, rfl, rfl⟩
  rw [modifySlot_slotAt (modifySlot_some hs), hs]; rfl

theorem modifyNode_ex {h : Registry} {p : Nat} {n : uwsgi_subscribe_node}
    (f : uwsgi_subscribe_node → uwsgi_subscribe_node) (hn : h.nodeAt p = some n) :
    ∃ h1, h.modifyNode p f = some h1 ∧
      (∀ x, h1.nodeAt x = if x = p then some (f n) else h.nodeAt x) ∧
      h1.head = h.head ∧ h1.slots = h.slots := by
  refine ⟨_, modifyNode_some hn, fun x => ?_, rfl, rfl⟩
  rw [modifyNode_nodeAt (modifyNode_some hn), hn]; rfl

/-- The exchange performed by `promote`, cell by cell. -/
theorem promote_exchange {h : Registry} {cur q : Nat} {sc sq : uwsgi_subscribe_slot}
    (hc : h.slotAt cur = some sc) (hq : h.slotAt q = some sq) (hprev : sc.prev = some q)
    (hgt : sc.hits > sq.hits) (hne : cur ≠ q)
    (hpa : ∀ a, sq.prev = some a → a ≠ cur ∧ a ≠ q ∧ ∃ sa, h.slotAt a = some sa) :
    ∃ h', promote h cur = some h' ∧
      h'.head = (if sq.prev = none then some cur else h.head) ∧
      ∀ x, h'.slotAt x =
        if x = cur then some { sc with next := some q, prev := sq.prev }
        else if x = q then some { sq with prev := some cur, next := sc.next }
        else if sq.prev = some x then (h.slotAt x).map (fun s => { s with next := some cur })
        else h.slotAt x := by
  have step1 : ∃ h1, (match sq.prev with
        | some pa => h.modifySlot pa (fun x => { x with next := some cur })
        | none => some { h with head := some cur }) = some h1 ∧
      h1.head = (if sq.prev = none then some cur else h.head) ∧
      ∀ x, h1.slotAt x = if sq.prev = some x
        then (h.slotAt x).map (fun s => { s with next := some cur }) else h.slotAt x := by
    cases hpv : sq.prev with
    | none => exact ⟨_, rfl, by simp, fun x => by simp [Registry.slotAt]⟩
    | some a =>
      obtain ⟨_, _, sa, hsa⟩ := hpa a hpv
      obtain ⟨h1, e1, hs1, hh1, _⟩ := modifySlot_ex (fun x => { x with next := some cur }) hsa
      refine ⟨h1, e1, by simpa using hh1, fun x => ?_⟩
      rw [hs1 x]
      by_cases hx : x = a
      · subst hx; simp [hsa]
      · have : ¬ a = x := fun e => hx e.symm
        simp [hx, this]
  obtain ⟨h1, e1, hh1, hs1⟩ := step1
  have hq1 : h1.slotAt q = some sq := by
    rw [hs1 q]; split
    · next e => exact absurd rfl (hpa q e).2.1
    · exact hq
  have hc1 : h1.slotAt cur = some sc := by
    rw [hs1 cur]; split
    · next e => exact absurd rfl (hpa cur e).1
    · exact hc
  obtain ⟨h2, e2, hs2, hh2, _⟩ := modifySlot_ex (fun x => { x with prev := some cur }) hq1
  have hc2 : h2.slotAt cur = some sc := by rw [hs2 cur, if_neg hne]; exact hc1
  have hq2 : h2.slotAt q = some { sq with prev := some cur } := by rw [hs2 q, if_pos rfl]
  obtain ⟨h3, e3, hs3, hh3, _⟩ := modifySlot_ex (fun x => { x with next := sc.next }) hq2
  have hc3 : h3.slotAt cur = some sc := by rw [hs3 cur, if_neg hne]; exact hc2
  obtain ⟨h4, e4, hs4, hh4, _⟩ := modifySlot_ex (fun x => { x with next := some q }) hc3
  have hc4 : h4.slotAt cur = some { sc with next := some q } := by rw [hs4 cur, if_pos rfl]
  obtain ⟨h5, e5, hs5, hh5, _⟩ := modifySlot_ex (fun x => { x with prev := sq.prev }) hc4
  refine ⟨h5, ?_, ?_, fun x => ?_⟩
  · unfold promote
    simp only [Option.bind_eq_bind, hc, Option.some_bind, hprev, hq, hgt, if_true, e1, e2, hc2,
      e3, e4, e5]
  · rw [hh5, hh4, hh3, hh2, hh1]
  · rw [hs5 x]
    by_cases hxc : x = cur
    · simp [hxc]
    · rw [if_neg hxc, if_neg hxc, hs4 x, if_neg hxc, hs3 x]
      by_cases hxq : x = q
      · simp [hxq]
      · rw [if_neg hxq, if_neg hxq, hs2 x, if_neg hxq, hs1 x]

theorem slotNext_some {h : Registry} {a : Nat} {r : Option Nat} (hr : h.slotNext a = some r) :
    ∃ s, h.slotAt a = some s ∧ s.next = r := by
  unfold Registry.slotNext at hr
  cases hs : h.slotAt a with
  | none => rw [hs] at hr; simp at hr
  | some s => rw [hs] at hr; exact ⟨s, rfl, by simpa using hr⟩

theorem nodeNext_some {h : Registry} {a : Nat} {r : Option Nat} (hr : h.nodeNext a = some r) :
    ∃ n, h.nodeAt a = some n ∧ n.next = r := by
  unfold Registry.nodeNext at hr
  cases hs : h.nodeAt a with
  | none => rw [hs] at hr; simp at hr
  | some s => rw [hs] at hr; exact ⟨s, rfl, by simpa using hr⟩

/-- A list of pools that ends is what `Registry.pools` computes. -/
theorem pools_of_seg {h : Registry} {l : List Nat} (hseg : Seg h.slotNext h.head l none) :
    h.pools = some l := by
  unfold Registry.pools
  apply seg_walk _ _ _ _ hseg
  have hlen : l.length ≤ h.slots.length := by
    apply length_le_of_nodup (Seg.nodup hseg)
    intro a ha
    obtain ⟨r, hr⟩ := Seg.alloc hseg a ha
    obtain ⟨s, hs, _⟩ := slotNext_some hr
    exact cell_lt hs
  unfold Registry.slotFuel; omega

theorem seg_of_pools {h : Registry} {l : List Nat} (hp : h.pools = some l) :
    Seg h.slotNext h.head l none :=
  walk_seg _ _ _ _ hp

/-- A list of nodes that ends is what `Registry.poolNodes` computes. -/
theorem poolNodes_of_seg {h : Registry} {a : Nat} {s : uwsgi_subscribe_slot} {ns : List Nat}
    (hs : h.slotAt a = some s) (hseg : Seg h.nodeNext s.nodes ns none) :
    h.poolNodes a = some ns := by
  unfold Registry.poolNodes
  simp only [Option.bind_eq_bind, hs, Option.some_bind]
  apply seg_walk _ _ _ _ hseg
  have hlen : ns.length ≤ h.nodes.length := by
    apply length_le_of_nodup (Seg.nodup hseg)
    intro n hn
    obtain ⟨r, hr⟩ := Seg.alloc hseg n hn
    obtain ⟨nd, hnd, _⟩ := nodeNext_some hr
    exact cell_lt hnd
  unfold Registry.nodeFuel; omega

theorem seg_of_poolNodes {h : Registry} {a : Nat} {ns : List Nat}
    (hp : h.poolNodes a = some ns) :
    ∃ s, h.slotAt a = some s ∧ Seg h.nodeNext s.nodes ns none := by
  unfold Registry.poolNodes at hp
  simp only [Option.bind_eq_bind, Option.bind_eq_some] at hp
  obtain ⟨s, hs, hw⟩ := hp
  exact ⟨s, hs, walk_seg _ _ _ _ hw⟩

theorem prevLinks_head {h : Registry} {pv : Option Nat} {a : Nat} {l : List Nat}
    (hp : PrevLinks h pv (a :: l)) : (h.slotAt a).map (fun s => s.prev) = some pv := hp.1

theorem prevLinks_adjacent {h : Registry} :
    ∀ {pre : List Nat} {pv : Option Nat} {a b : Nat} {post : List Nat},
      PrevLinks h pv (pre ++ a :: b :: post) →
        (h.slotAt b).map (fun s => s.prev) = some (some a) := by
  intro pre
  induction pre with
  | nil => intro pv a b post hp; exact hp.2.1
  | cons c pre ih => intro pv a b post hp; exact ih hp.2

/-- Position of a pool in a list: it is the first one, or it has a predecessor. -/
theorem mem_first_or_adjacent {cur : Nat} :
    ∀ {l : List Nat}, cur ∈ l →
      (∃ post, l = cur :: post) ∨ ∃ pre q post, l = pre ++ q :: cur :: post := by
  intro l
  induction l with
  | nil => intro hm; simp at hm
  | cons a l ih =>
    intro hm
    by_cases hac : a = cur
    · left; exact ⟨l, by rw [hac]⟩
    · right
      have hm' : cur ∈ l := by
        rcases List.mem_cons.mp hm with e | e
        · exact absurd e.symm hac
        · exact e
      rcases ih hm' with ⟨post, rfl⟩ | ⟨pre, q, post, rfl⟩
      · exact ⟨[], a, post, rfl⟩
      · exact ⟨a :: pre, q, post, rfl⟩

/-- On a proper doubly linked list `promote` always succeeds; it leaves the memory alone
when the pool is the first one or its predecessor has at least as many hits, and
otherwise the list of pools afterwards is the list before with the pool and its
predecessor exchanged. -/
theorem promote_pools {h : Registry} {l : List Nat} {cur : Nat}
    (hseg : Seg h.slotNext h.head l none) (hprev : PrevLinks h none l) (hcur : cur ∈ l) :
    ∃ h', promote h cur = some h' ∧
      ((∃ post, l = cur :: post ∧ h' = h) ∨
       ∃ pre q post sc sq, l = pre ++ q :: cur :: post ∧ h.slotAt cur = some sc ∧
         h.slotAt q = some sq ∧
         ((sc.hits ≤ sq.hits ∧ h' = h) ∨
          (sq.hits < sc.hits ∧ Seg h'.slotNext h'.head (pre ++ cur :: q :: post) none))) := by
  have hnd := Seg.nodup hseg
  rcases mem_first_or_adjacent hcur with ⟨post, rfl⟩ | ⟨pre, q, post, rfl⟩
  · -- the pool is the head
    obtain ⟨sc, hs, hpn⟩ := Option.map_eq_some'.mp (prevLinks_head hprev)
    refine ⟨h, ?_, Or.inl ⟨post, rfl, rfl⟩⟩
    unfold promote
    simp only [Option.bind_eq_bind, hs, Option.some_bind, hpn]
  · obtain ⟨sc, hs, hpq⟩ := Option.map_eq_some'.mp (prevLinks_adjacent hprev)
    obtain ⟨m, hpre, hrest⟩ := seg_append.mp hseg
    obtain ⟨rfl, r1, hr1, hrest1⟩ := hrest
    obtain ⟨sq, hsq, hsqn⟩ := slotNext_some hr1
    subst hsqn
    obtain ⟨e, r2, hr2, hpost⟩ := hrest1
    obtain ⟨sc', hsc', hscn⟩ := slotNext_some hr2
    rw [hs] at hsc'; injection hsc' with hsc'; subst hsc'
    subst hscn
    by_cases hgt : sc.hits > sq.hits
    · -- the exchange
      have hne : cur ≠ q := by
        rintro rfl
        simp [List.nodup_append] at hnd
      have hpost_ne : ∀ x ∈ post, x ≠ cur ∧ x ≠ q := by
        intro x hx
        constructor <;> (rintro rfl; simp [List.nodup_append, hx] at hnd)
      rcases List.eq_nil_or_concat' pre with rfl | ⟨L, a, rfl⟩
      · -- the predecessor is the head
        obtain ⟨sq', hsq', hpn⟩ := Option.map_eq_some'.mp (prevLinks_head hprev)
        rw [hsq] at hsq'; injection hsq' with hsq'; subst hsq'
        obtain ⟨h', hp, hh', hs'⟩ := promote_exchange hs hsq hpq hgt hne
          (fun a ha => by rw [hpn] at ha; simp at ha)
        refine ⟨h', hp, Or.inr ⟨[], q, post, sc, sq, rfl, hs, hsq, Or.inr ⟨hgt, ?_⟩⟩⟩
        rw [hh', if_pos hpn]
        refine ⟨rfl, some q, ?_, rfl, sc.next, ?_, ?_⟩
        · simp [Registry.slotNext, hs']
        · simp [Registry.slotNext, hs', hne.symm]
        · refine Seg.congr (fun x hx => ?_) hpost
          obtain ⟨h1, h2⟩ := hpost_ne x hx
          simp [Registry.slotNext, hs', h1, h2, hpn]
      · -- the predecessor has a predecessor
        have hpa : (h.slotAt q).map (fun s => s.prev) = some (some a) := by
          have hprev' : PrevLinks h none (L ++ a :: q :: cur :: post) := by
            simpa using hprev
          exact prevLinks_adjacent hprev'
        rw [hsq] at hpa
        have hpa' : sq.prev = some a := by simpa using hpa
        obtain ⟨m, hL, hLa⟩ := seg_append.mp hpre
        obtain ⟨rfl, ra, hra, hra'⟩ := hLa
        have hra2 : ra = some q := hra'
        subst hra2
        obtain ⟨sa, hsa, hsan⟩ := slotNext_some hra
        have hac : a ≠ cur := by
          rintro rfl
          simp [List.nodup_append] at hnd
        have haq : a ≠ q := by
          rintro rfl
          simp [List.nodup_append] at hnd
        have hL_ne : ∀ x ∈ L, x ≠ cur ∧ x ≠ q ∧ x ≠ a := by
          intro x hx
          refine ⟨?_, ?_, ?_⟩ <;> (rintro rfl; simp [List.nodup_append, hx] at hnd)
        have hpost_a : ∀ x ∈ post, x ≠ a := by
          intro x hx
          rintro rfl
          simp [List.nodup_append, hx] at hnd
        obtain ⟨h', hp, hh', hs'⟩ := promote_exchange hs hsq hpq hgt hne
          (fun b hb => by
            rw [hpa'] at hb; injection hb with hb; subst hb
            exact ⟨hac, haq, sa, hsa⟩)
        refine ⟨h', hp, Or.inr ⟨L ++ [a], q, post, sc, sq, rfl, hs, hsq, Or.inr ⟨hgt, ?_⟩⟩⟩
        have hhead : h'.head = h.head := by rw [hh', hpa']; simp
        rw [hhead, List.append_assoc]
        refine seg_append.mpr ⟨some a, ?_, ?_⟩
        · refine Seg.congr (fun x hx => ?_) hL
          obtain ⟨h1, h2, h3⟩ := hL_ne x hx
          have : ¬ a = x := fun e => h3 e.symm
          simp [Registry.slotNext, hs', h1, h2, hpa', this]
        · refine ⟨rfl, some cur, ?_, rfl, some q, ?_, rfl, sc.next, ?_, ?_⟩
          · simp [Registry.slotNext, hs', hac, haq, hpa', hsa]
          · simp [Registry.slotNext, hs']
          · simp [Registry.slotNext, hs', hne.symm]
          · refine Seg.congr (fun x hx => ?_) hpost
            obtain ⟨h1, h2⟩ := hpost_ne x hx
            have : ¬ a = x := fun e => hpost_a x hx e.symm
            simp [Registry.slotNext, hs', h1, h2, hpa', this]
    · refine ⟨h, ?_, Or.inr ⟨pre, q, post, sc, sq, rfl, hs, hsq, Or.inl ⟨by omega, rfl⟩⟩⟩
      unfold promote
      simp only [Option.bind_eq_bind, hs, Option.some_bind, hpq, hsq, hgt, if_false]

/-- On a list of pools that ends, the literal lookup stops at the first pool whose key
compares equal and promotes it. -/
theorem slot_loop_literal (rx : Pcre) (key : List Nat) (keylen : Nat) (h : Registry) :
    ∀ (l : List Nat) (fuel : Nat) (p : Option Nat), Seg h.slotNext p l none → l.length ≤ fuel →
      slot_loop rx key keylen false fuel h p =
        match l.find? (h.hasKey key keylen) with
        | some cur => (promote h cur).map (fun h1 => (some cur, h1))
        | none => some (none, h) := by
  intro l
  induction l with
  | nil =>
    intro fuel p hs _
    have : p = none := hs
    subst this
    cases fuel <;> rfl
  | cons a l ih =>
    intro fuel p hs hlen
    obtain ⟨rfl, r, hr, hrest⟩ := hs
    obtain ⟨s, hsa, rfl⟩ := slotNext_some hr
    cases fuel with
    | zero => simp at hlen
    | succ fuel =>
      have hfuel : l.length ≤ fuel := by simpa using hlen
      by_cases hk : uwsgi_strncmp key keylen s.key s.keylen = 0
      · have hka : h.hasKey key keylen a = true := by simp [Registry.hasKey, hsa, hk]
        simp only [slot_loop, Option.bind_eq_bind, hsa, Option.some_bind, hk, List.find?, hka]
        cases promote h a <;> simp
      · have hka : h.hasKey key keylen a = false := by simp [Registry.hasKey, hsa, hk]
        simp only [slot_loop, Option.bind_eq_bind, hsa, Option.some_bind, hk, List.find?, hka]
        simpa using ih fuel s.next hrest hfuel

/-- The literal lookup on a well-formed registry: it returns, the pool returned is the
first pool of the registry whose key compares equal (none if there is none or the key is
longer than 255), and the list of pools afterwards is the list before, except that the
pool returned may have been exchanged with its predecessor. -/
theorem get_slot_literal (rx : Pcre) {h : Registry} (key : List Nat) (keylen : Nat)
    {l : List Nat} (hl : h.pools = some l) (hprev : PrevLinks h none l) :
    ∃ h', uwsgi_get_subscribe_slot rx h key keylen false =
        some (if keylen > 0xff then none else l.find? (h.hasKey key keylen), h') ∧
      ∃ l', h'.pools = some l' ∧
        (l' = l ∨ ∃ pre q cur post, l = pre ++ q :: cur :: post ∧
          l' = pre ++ cur :: q :: post ∧ keylen ≤ 0xff ∧
          l.find? (h.hasKey key keylen) = some cur) := by
  unfold uwsgi_get_subscribe_slot
  by_cases hk : keylen > 0xff
  · exact ⟨h, by simp [hk], l, hl, Or.inl rfl⟩
  · have hseg := seg_of_pools hl
    have hfuel : l.length ≤ h.slotFuel := walk_length _ _ _ _ hl
    rw [if_neg hk, if_neg hk, slot_loop_literal rx key keylen h l _ _ hseg hfuel]
    cases hf : l.find? (h.hasKey key keylen) with
    | none => exact ⟨h, rfl, l, hl, Or.inl rfl⟩
    | some cur =>
      have hcur : cur ∈ l := List.mem_of_find?_eq_some hf
      obtain ⟨h', hp, hcase⟩ := promote_pools hseg hprev hcur
      refine ⟨h', by simp [hp], ?_⟩
      rcases hcase with ⟨post, _, rfl⟩ | ⟨pre, q, post, sc, sq, hlq, _, _, hcase⟩
      · exact ⟨l, hl, Or.inl rfl⟩
      · rcases hcase with ⟨_, rfl⟩ | ⟨_, hseg'⟩
        · exact ⟨l, hl, Or.inl rfl⟩
        · exact ⟨_, pools_of_seg hseg', Or.inr ⟨pre, q, cur, post, hlq, rfl, by omega, rfl⟩⟩

/-! ## C5: announcements with an oversize name -/

/-- C5, as stated, fails: `hot_tail` is reached from the empty registry by two
announcements, a select and a release; announcing a 256 byte name under key `[2]` there
returns no node, yet the order of the pools changes from `[0, 1]` to `[1, 0]`, because
the literal lookup (with its promotion) runs before the length of the name is checked. -/
theorem oversize_name_reorders :
    (run sample_pcre 10 Registry.empty
        ([.announce (mkreq [1] [1]) false 0, .announce (mkreq [2] [1]) false 0] ++
          select_release [2] 0 1)).map Prod.snd = some hot_tail ∧
      hot_tail.pools = some [0, 1] ∧
      (uwsgi_add_subscribe_node sample_pcre hot_tail (long_name_req [2]) false 0).map
        (fun r => (r.1, r.2.pools)) = some (none, some [1, 0]) := by
  decide

/-- C5 (amended): an announcement whose name is longer than 255 bytes does nothing but
the literal lookup of its key.  On every memory on which the call returns, it returns no
node and the memory afterwards is the memory the lookup leaves: every node is as before,
no pool is created or freed and every pool keeps its key, hits, rr, node list and
pattern; only the list links and the head can differ, rewritten by the promotion inside
the lookup.  On a well-formed registry the call returns, and the order of the pools is as
before except that the pool with the announced key may have been exchanged with its
predecessor. -/
theorem add_oversize_name (rx : Pcre) (h : Registry) (usr : uwsgi_subscribe_req)
    (regexp : Bool) (now : Int) (hlen : usr.address_len > 0xff) :
    (∀ r, uwsgi_add_subscribe_node rx h usr regexp now = some r →
      r.1 = none ∧
      (∃ c, uwsgi_get_subscribe_slot rx h usr.key usr.keylen false = some (c, r.2)) ∧
      r.2.nodes = h.nodes ∧ r.2.slots.length = h.slots.length ∧
      ∀ a, (r.2.slotAt a).map uwsgi_subscribe_slot.core =
        (h.slotAt a).map uwsgi_subscribe_slot.core) ∧
    (WellFormed h →
      ∃ h', uwsgi_add_subscribe_node rx h usr regexp now = some (none, h') ∧
        ∃ l l', h.pools = some l ∧ h'.pools = some l' ∧
          (l' = l ∨ ∃ pre q cur post, l = pre ++ q :: cur :: post ∧
            l' = pre ++ cur :: q :: post ∧ h.hasKey usr.key usr.keylen cur = true)) := by
  constructor
  · intro r hr
    unfold uwsgi_add_subscribe_node at hr
    simp only [Option.bind_eq_bind, Option.bind_eq_some] at hr
    obtain ⟨r0, hget, hr⟩ := hr
    rw [if_pos hlen] at hr
    injection hr with hr
    subst hr
    obtain ⟨hn, hlen', hcore⟩ := get_slot_sameCore hget
    exact ⟨rfl, ⟨r0.1, hget⟩, hn, hlen', hcore⟩
  · intro hwf
    obtain ⟨l, hl, hprev, -⟩ := hwf
    obtain ⟨h', hget, l', hl', hcase⟩ := get_slot_literal rx usr.key usr.keylen hl hprev
    refine ⟨h', ?_, l, l', hl, hl', ?_⟩
    · unfold uwsgi_add_subscribe_node
      simp only [Option.bind_eq_bind, hget, Option.some_bind, hlen, if_true]
    · rcases hcase with e | ⟨pre, q, cur, post, e1, e2, _, hf⟩
      · exact Or.inl e
      · exact Or.inr ⟨pre, q, cur, post, e1, e2, List.find?_some hf⟩

/-- The amended C5 at `hot_tail`, key `[2]` and a 256 byte name. -/
theorem add_oversize_name_witness :
    (long_name_req [2]).address_len > 0xff ∧
    (∀ r, uwsgi_add_subscribe_node sample_pcre hot_tail (long_name_req [2]) false 0 = some r →
      r.1 = none ∧
      (∃ c, uwsgi_get_subscribe_slot sample_pcre hot_tail (long_name_req [2]).key
        (long_name_req [2]).keylen false = some (c, r.2)) ∧
      r.2.nodes = hot_tail.nodes ∧ r.2.slots.length = hot_tail.slots.length ∧
      ∀ a, (r.2.slotAt a).map uwsgi_subscribe_slot.core =
        (hot_tail.slotAt a).map uwsgi_subscribe_slot.core) ∧
    (WellFormed hot_tail →
      ∃ h', uwsgi_add_subscribe_node sample_pcre hot_tail (long_name_req [2]) false 0 =
          some (none, h') ∧
        ∃ l l', hot_tail.pools = some l ∧ h'.pools = some l' ∧
          (l' = l ∨ ∃ pre q cur post, l = pre ++ q :: cur :: post ∧
            l' = pre ++ cur :: q :: post ∧ hot_tail.hasKey (long_name_req [2]).key
              (long_name_req [2]).keylen cur = true)) :=
  ⟨by decide, add_oversize_name sample_pcre hot_tail (long_name_req [2]) false 0 (by decide)⟩

/-! ## Runs of the code that contradict a claim -/

/-- C1: three nodes (addresses 0, 1, 2) announced in this order under one key, never stale;
the six selects, each followed by a release, return the nodes 0, 1, 2, 0, 0, 1: the fifth
select returns the first node again, where round-robin order asks for the second (the
cursor `rr` is reset to 0 by the fourth select although that select has just handed out
the first node). -/
theorem round_robin_serves_first_twice :
    (run sample_pcre 10 Registry.empty
        [.announce (mkreq [114] [1]) false 0, .announce (mkreq [114] [2]) false 0,
         .announce (mkreq [114] [3]) false 0,
         .select [114] 1 false 0, .release 0, .select [114] 1 false 0, .release 1,
         .select [114] 1 false 0, .release 2, .select [114] 1 false 0, .release 0,
         .select [114] 1 false 0, .release 0, .select [114] 1 false 0, .release 1]).map
      Prod.fst =
    some [some 0, some 1, some 2,
          some 0, none, some 1, none, some 2, none, some 0, none, some 0, none, some 1, none] := by
  decide

/-- C2: one node announced at time 0 and selected at time 0 (its reference becomes 1);
with a tolerance of 10 the select at time 11 marks the node dead and, as the node is
still referenced, hands it out once more: the call returns node 0, whose `death_mark` is
set and whose reference is now 2. -/
theorem select_returns_death_marked_node :
    ∃ r ∈ run sample_pcre 10 Registry.empty
        [.announce (mkreq [107] [1]) false 0, .select [107] 1 false 0, .select [107] 1 false 11],
      r.1 = [some 0, some 0, some 0] ∧
      (r.2.nodeAt 0).map (fun nd => (nd.death_mark, nd.reference)) = some (true, 2) := by
  decide

/-- C4: announcing under a key of 256 bytes does not fail: on the empty registry the call
returns a node (address 0) and the registry afterwards holds one pool, of `keylen` 256. -/
theorem add_accepts_key_of_256_bytes :
    ∃ r ∈ uwsgi_add_subscribe_node sample_pcre Registry.empty long_key_req false 0,
      r.1 = some 0 ∧ r.2.pools = some [0] ∧
      (r.2.slotAt 0).map (fun s => s.keylen) = some 256 := by
  decide

/-- C7: after `stale_prev_ops` the pools are, in order, 1, 0, 2 with hits 2, 0, 3 (and
pool 2 still has `prev == 1`, left behind when pool 1 was promoted over pool 0).  A
literal lookup of key `[3]` hits pool 2, whose predecessor in the registry is pool 0
with fewer hits; afterwards the registry is 2, 1: pool 2 moved to the head and pool 0 is
no longer in the registry. -/
theorem promotion_loses_pool :
    ∃ r ∈ run sample_pcre 10 Registry.empty stale_prev_ops,
      r.2.pools = some [1, 0, 2] ∧
      [1, 0, 2].map (fun a => (r.2.slotAt a).map (fun s => s.hits)) = [some 2, some 0, some 3] ∧
      ∃ r' ∈ uwsgi_get_subscribe_slot sample_pcre r.2 [3] 1 false,
        r'.1 = some 2 ∧ r'.2.pools = some [2, 1] := by
  decide

/-- C8: pattern keys of length 4, 8 and 5 announced in this order (Scenario 5): the third
pool (address 2, `keylen` 5) is allocated and points to the pool of `keylen` 8 as its
`next`, but its predecessor's `next` was never redirected, so the registry is still the
two pools of `keylen` 4 and 8. -/
theorem pattern_pool_not_linked :
    ∃ r ∈ run sample_pcre 10 Registry.empty
        [.announce (mkreq [94, 97, 98, 36] [1]) true 0,
         .announce (mkreq [94, 97, 98, 99, 100, 101, 102, 36] [1]) true 0,
         .announce (mkreq [94, 97, 98, 99, 36] [1]) true 0],
      r.1 = [some 0, some 1, some 2] ∧ r.2.pools = some [0, 1] ∧
      [0, 1, 2].map (fun a => (r.2.slotAt a).map (fun s => (s.keylen, s.prev, s.next))) =
        [some (4, none, some 1), some (8, some 2, none), some (5, some 0, some 1)] := by
  decide

/-- C9: `two_pools` is well formed; removing node 0, the only node of the head pool,
returns 1 and frees pool 0, but the head still points to it: the freed pool stays
reachable from the head and the walk over the registry is undefined. -/
theorem remove_head_pool_leaves_head :
    WellFormed two_pools ∧
    ∃ r ∈ uwsgi_remove_subscribe_node two_pools 0,
      r.1 = 1 ∧ r.2.head = some 0 ∧ r.2.slotAt 0 = none ∧ r.2.pools = none ∧
      (r.2.slotAt 1).map (fun s => (s.prev, s.next)) = some (none, none) := by
  decide

/-- C10: two pools announced at time 0, then a select of the first key at time 11 with
tolerance 10: the only node of the head pool is stale and unreferenced, it is removed
and its pool is freed, but the head of the registry still points to the freed pool. -/
theorem select_leaves_freed_head :
    ∃ r ∈ run sample_pcre 10 Registry.empty
        [.announce (mkreq [1] [1]) false 0, .announce (mkreq [2] [1]) false 0,
         .select [1] 1 false 11],
      r.1 = [some 0, some 1, none] ∧ r.2.head = some 0 ∧ r.2.slotAt 0 = none ∧
      r.2.pools = none := by
  decide

/-! ## C6: re-announcement -/

/-- The scan of `uwsgi_add_subscribe_node` over a node list that ends: when some node has
the announced name, the first such node is refreshed and returned. -/
theorem add_loop_found (usr : uwsgi_subscribe_req) (now : Int) (cur : Nat) (h : Registry)
    (n : Nat) :
    ∀ (ns : List Nat) (fuel : Nat) (p old : Option Nat), Seg h.nodeNext p ns none →
      ns.length ≤ fuel → ns.find? (h.hasName usr.address usr.address_len) = some n →
      add_loop usr now cur fuel h p old =
        (h.modifyNode n (fun x => { x with death_mark := false, last_check := now })).map
          (fun h1 => (some n, h1)) := by
  intro ns
  induction ns with
  | nil => intro fuel p old _ _ hf; simp at hf
  | cons a ns ih =>
    intro fuel p old hs hlen hf
    obtain ⟨rfl, r, hr, hrest⟩ := hs
    obtain ⟨nd, hnd, rfl⟩ := nodeNext_some hr
    cases fuel with
    | zero => simp at hlen
    | succ fuel =>
      have hfuel : ns.length ≤ fuel := by simpa using hlen
      by_cases hk : uwsgi_strncmp nd.name nd.len usr.address usr.address_len = 0
      · have hka : h.hasName usr.address usr.address_len a = true := by
          simp [Registry.hasName, hnd, hk]
        simp only [List.find?, hka] at hf
        injection hf with hf; subst hf
        simp only [add_loop, Option.bind_eq_bind, hnd, Option.some_bind, hk, if_true]
        cases h.modifyNode a _ <;> rfl
      · have hka : h.hasName usr.address usr.address_len a = false := by
          simp [Registry.hasName, hnd, hk]
        simp only [List.find?, hka] at hf
        simp only [add_loop, Option.bind_eq_bind, hnd, Option.some_bind, hk, if_false]
        exact ih fuel nd.next (some a) hrest hfuel hf

/-- A buffer compares equal to itself. -/
theorem uwsgi_strncmp_self (k : List Nat) (n : Nat) : uwsgi_strncmp k n k n = 0 := by
  simp [uwsgi_strncmp]

theorem get_slot_one_node (rx : Pcre) (k a : List Nat) (t : Int) (hits rr ref : Nat) (dm : Bool)
    (hk : k.length ≤ 0xff) :
    uwsgi_get_subscribe_slot rx (one_node k a t hits rr ref dm) k k.length false =
      some (some 0, one_node k a t hits rr ref dm) := by
  have hk' : ¬ (k.length > 0xff) := by omega
  unfold uwsgi_get_subscribe_slot
  rw [if_neg hk']
  simp [slot_loop, Registry.slotFuel, one_node, Registry.slotAt, cell, uwsgi_strncmp_self, promote]

theorem announce_first (rx : Pcre) (k a : List Nat) (t : Int) (hk : k.length ≤ 0xff) (ha : a.length ≤ 0xff) :
    uwsgi_add_subscribe_node rx Registry.empty (mkreq k a) false t =
      some (some 0, one_node k a t 0 0 0 false) := by
  have hk' : ¬ (k.length > 0xff) := by omega
  have ha' : ¬ (a.length > 0xff) := by omega
  have hk2 : ¬ (k.length > key_room) := by unfold key_room; omega
  simp [uwsgi_add_subscribe_node, uwsgi_get_subscribe_slot, mkreq, hk', ha', hk2, slot_loop, Registry.empty, new_slot,
    link_last, last_loop, Registry.slotFuel, Registry.modifySlot, Registry.slotAt, cell, one_node]

theorem announce_again (rx : Pcre) (k a : List Nat) (t t1 : Int) (hits rr ref : Nat) (dm : Bool)
    (hk : k.length ≤ 0xff) (ha : a.length ≤ 0xff) :
    uwsgi_add_subscribe_node rx (one_node k a t hits rr ref dm) (mkreq k a) false t1 =
      some (some 0, one_node k a t1 hits rr ref false) := by
  have ha' : ¬ (a.length > 0xff) := by omega
  unfold uwsgi_add_subscribe_node
  simp only [mkreq, get_slot_one_node rx k a t hits rr ref dm hk, Option.bind_eq_bind, Option.some_bind, ha', if_false]
  simp [one_node, Registry.slotAt, cell, add_loop, Registry.nodeFuel, Registry.nodeAt, uwsgi_strncmp_self, Registry.modifyNode]

theorem select_one_node (rx : Pcre) (tolerance : Int) (k a : List Nat) (t t2 : Int) (hits ref : Nat)
    (hk : k.length ≤ 0xff) (ht : t2 - t ≤ tolerance) :
    uwsgi_get_subscribe_node rx tolerance (one_node k a t hits 0 ref false) k k.length false t2 =
      some (some 0, one_node k a t (hits + 1) 1 (ref + 1) false) := by
  have hk' : ¬ (k.length > 0xff) := by omega
  have ht' : ¬ (t2 - t > tolerance) := by omega
  unfold uwsgi_get_subscribe_node
  rw [if_neg hk']
  simp only [get_slot_one_node rx k a t hits 0 ref false hk, Option.bind_eq_bind, Option.some_bind]
  simp [one_node, Registry.slotAt, cell, node_loop, Registry.nodeFuel, Registry.nodeAt, Registry.modifyNode, Registry.modifySlot, ht']

/-- Re-announcement on a well-formed registry: let `cur` be the first pool whose key
compares equal to the announced key (at most 255 bytes) and `n` the first node of that
pool whose name compares equal to the announced address (at most 255 bytes).  Then
`uwsgi_add_subscribe_node` returns `n`; in the memory afterwards node `n` is the node
before with `death_mark` cleared and `last_check` set to the current time (its reference
and every other field are unchanged), every other node is untouched, no node is
allocated, and the node list of the pool is the same list as before.  In particular
(Scenario 6) a node announced at `t0`, silent for more than the tolerance and announced
again at `t1` is returned, alive, by a select within the tolerance after `t1`. -/
theorem reannounce_refreshes_node (rx : Pcre) (h : Registry) (usr : uwsgi_subscribe_req)
    (regexp : Bool) (now : Int) (l ns : List Nat) (cur n : Nat)
    (hwf : WellFormed h) (hl : h.pools = some l)
    (hk : usr.keylen ≤ 0xff) (ha : usr.address_len ≤ 0xff)
    (hcur : l.find? (h.hasKey usr.key usr.keylen) = some cur)
    (hns : h.poolNodes cur = some ns)
    (hn : ns.find? (h.hasName usr.address usr.address_len) = some n) :
    (∃ h', uwsgi_add_subscribe_node rx h usr regexp now = some (some n, h') ∧
      h'.nodeAt n =
        (h.nodeAt n).map (fun nd => { nd with death_mark := false, last_check := now }) ∧
      (∀ m, m ≠ n → h'.nodeAt m = h.nodeAt m) ∧
      h'.nodes.length = h.nodes.length ∧
      h'.poolNodes cur = some ns) ∧
    (∀ (tolerance t0 t1 t2 : Int) (k a : List Nat), k.length ≤ 0xff → a.length ≤ 0xff →
      t1 - t0 > tolerance → t2 - t1 ≤ tolerance →
      ∃ r ∈ run rx tolerance Registry.empty
          [.announce (mkreq k a) false t0, .announce (mkreq k a) false t1,
           .select k k.length false t2],
        r.1 = [some 0, some 0, some 0] ∧
        (r.2.nodeAt 0).map (fun nd => (nd.death_mark, nd.last_check)) = some (false, t1)) := by
  constructor
  · obtain ⟨l0, hl0, hprev, -⟩ := hwf
    have : l0 = l := by
      have h1 : h.pools = some l0 := hl0
      rw [hl] at h1; injection h1 with h1; exact h1.symm
    subst this
    obtain ⟨h1, hget, -⟩ := get_slot_literal rx usr.key usr.keylen hl hprev
    have hk' : ¬ usr.keylen > 0xff := by omega
    have ha' : ¬ usr.address_len > 0xff := by omega
    rw [if_neg hk', hcur] at hget
    have hsc := get_slot_sameCore hget
    have hnodes : h1.nodes = h.nodes := hsc.1
    have hcore : ∀ a, (h1.slotAt a).map uwsgi_subscribe_slot.core =
        (h.slotAt a).map uwsgi_subscribe_slot.core := hsc.2.2
    obtain ⟨s, hs, hseg⟩ := seg_of_poolNodes hns
    -- the pool after the lookup has the same node list head
    have hs1 : ∃ s1, h1.slotAt cur = some s1 ∧ s1.nodes = s.nodes := by
      have hc := hcore cur
      simp only at hc
      rw [hs] at hc
      cases hs1 : h1.slotAt cur with
      | none => rw [hs1] at hc; simp at hc
      | some s1 =>
        rw [hs1] at hc
        refine ⟨s1, rfl, ?_⟩
        have := congrArg (fun o => o.map (fun x => x.nodes)) hc
        simpa [uwsgi_subscribe_slot.core] using this
    obtain ⟨s1, hs1, hs1n⟩ := hs1
    have hnext : h1.nodeNext = h.nodeNext := by
      funext x; simp only [Registry.nodeNext, Registry.nodeAt, hnodes]
    have hname : h1.hasName usr.address usr.address_len = h.hasName usr.address usr.address_len := by
      funext x; simp only [Registry.hasName, Registry.nodeAt, hnodes]
    have hseg1 : Seg h1.nodeNext s1.nodes ns none := by rw [hnext, hs1n]; exact hseg
    have hfuel : ns.length ≤ h1.nodeFuel := by
      have := walk_length _ _ _ _ (show walk h.nodeNext h.nodeFuel s.nodes = some ns by
        unfold Registry.poolNodes at hns
        simpa [hs] using hns)
      simpa [Registry.nodeFuel, hnodes] using this
    have hn1 : ns.find? (h1.hasName usr.address usr.address_len) = some n := by rw [hname]; exact hn
    have hloop := add_loop_found usr now cur h1 n ns _ _ none hseg1 hfuel hn1
    have hnmem : n ∈ ns := List.mem_of_find?_eq_some hn
    obtain ⟨rn, hrn⟩ := Seg.alloc hseg n hnmem
    obtain ⟨nd, hnd, -⟩ := nodeNext_some hrn
    have hnd1 : h1.nodeAt n = some nd := by simp only [Registry.nodeAt, hnodes]; exact hnd
    obtain ⟨h2, hmod, hat, -, hslots⟩ :=
      modifyNode_ex (fun x => { x with death_mark := false, last_check := now }) hnd1
    refine ⟨h2, ?_, ?_, ?_, ?_, ?_⟩
    · unfold uwsgi_add_subscribe_node
      simp only [Option.bind_eq_bind, hget, Option.some_bind, ha', if_false, hs1, hloop, hmod,
        Option.map_some']
    · rw [hat n, if_pos rfl, hnd]; rfl
    · intro m hm
      rw [hat m, if_neg hm]
      simp only [Registry.nodeAt, hnodes]
    · rw [modifyNode_length hmod, hnodes]
    · have hs2 : h2.slotAt cur = some s1 := by
        simp only [Registry.slotAt, hslots]; exact hs1
      apply poolNodes_of_seg hs2
      rw [hs1n]
      refine Seg.congr (fun x _ => ?_) hseg
      simp only [Registry.nodeNext]
      rw [hat x]
      split
      · next e => subst e; rw [hnd, ← hnd1]; simp [hnd1]
      · simp only [Registry.nodeAt, hnodes]
  · intro tolerance t0 t1 t2 k a hk ha _ h12
    refine ⟨(_, one_node k a t1 1 1 1 false), ?_, rfl, rfl⟩
    simp only [run, Op.exec, announce_first rx k a t0 hk ha,
      announce_again rx k a t0 t1 0 0 0 false hk ha,
      select_one_node rx tolerance k a t1 t2 0 0 hk h12, Option.bind_eq_bind, Option.some_bind,
      Option.mem_def]

/-- C6 at `marked_node`: the dead, referenced node is announced again at time 20. -/
theorem reannounce_refreshes_node_witness :
    WellFormed marked_node ∧ marked_node.pools = some [0] ∧
      (mkreq [107] [1]).keylen ≤ 0xff ∧ (mkreq [107] [1]).address_len ≤ 0xff ∧
      [0].find? (marked_node.hasKey (mkreq [107] [1]).key (mkreq [107] [1]).keylen) = some 0 ∧
      marked_node.poolNodes 0 = some [0] ∧
      [0].find? (marked_node.hasName (mkreq [107] [1]).address (mkreq [107] [1]).address_len)
        = some 0 ∧
      ∃ h', uwsgi_add_subscribe_node sample_pcre marked_node (mkreq [107] [1]) false 20 =
          some (some 0, h') ∧
        h'.nodeAt 0 = (marked_node.nodeAt 0).map
          (fun nd => { nd with death_mark := false, last_check := 20 }) ∧
        (∀ m, m ≠ 0 → h'.nodeAt m = marked_node.nodeAt m) ∧
        h'.nodes.length = marked_node.nodes.length ∧
        h'.poolNodes 0 = some [0] :=
  ⟨by decide, by decide, by decide, by decide, by decide, by decide, by decide,
    (reannounce_refreshes_node sample_pcre marked_node (mkreq [107] [1]) false 20 [0] [0] 0 0
      (by decide) (by decide) (by decide) (by decide) (by decide) (by decide) (by decide)).1⟩

/-- C6: after `twin_key_ops` the registry is the pools 1, 4, 2, 5; the pools 4 and 5 both
have the key `[0]`, and pool 5 holds node 5, named `[9]` and last announced at time 0.
The announcement of key `[0]` and name `[9]` at time 7 finds pool 4 first, where no node
has that name: it allocates node 6, appends it to pool 4 and returns it.  The existing
node 5 is not returned and keeps its time stamp, and the registry now holds two nodes
named `[9]` under the key `[0]`. -/
theorem reannounce_creates_second_node :
    ∃ r ∈ run sample_pcre 10 Registry.empty twin_key_ops,
      r.2.pools = some [1, 4, 2, 5] ∧
      [4, 5].map (fun a => (r.2.slotAt a).map (fun s => (s.key, s.keylen))) =
        [some ([0], 1), some ([0], 1)] ∧
      [4, 5].map (fun a => r.2.poolNodes a) = [some [4], some [5]] ∧
      (r.2.nodeAt 5).map (fun n => (n.name, n.len, n.last_check)) = some ([9], 1, 0) ∧
      ∃ r1 ∈ uwsgi_add_subscribe_node sample_pcre r.2 (mkreq [0] [9]) false 7,
        r1.1 = some 6 ∧ [4, 5].map (fun a => r1.2.poolNodes a) = [some [4, 6], some [5]] ∧
        [5, 6].map (fun n => (r1.2.nodeAt n).map (fun n => (n.name, n.len, n.last_check, n.slot))) =
          [some ([9], 1, 0, some 5), some ([9], 1, 7, some 4)] := by
  exact ⟨_, rfl, by decide, by decide, by decide, by decide, _, rfl, by decide, by decide,
    by decide⟩

/-! ## C3: nodes in use survive a select -/

theorem freeNode_ex {h : Registry} {p : Nat} {n : uwsgi_subscribe_node}
    (hn : h.nodeAt p = some n) :
    ∃ h1, h.freeNode p = some h1 ∧
      (∀ x, h1.nodeAt x = if x = p then none else h.nodeAt x) ∧
      h1.head = h.head ∧ h1.slots = h.slots ∧ h1.nodes.length = h.nodes.length := by
  refine ⟨{ h with nodes := h.nodes.set p none }, ?_, fun x => ?_, rfl, rfl, by simp⟩
  · unfold Registry.freeNode; rw [hn]
  · by_cases hx : x = p
    · subst hx
      simp only [Registry.nodeAt, if_true]
      exact cell_set_self _ _ _ (cell_lt hn)
    · simp only [Registry.nodeAt, if_neg hx]
      exact cell_set_other _ _ _ _ hx

theorem freeSlot_ex {h : Registry} {p : Nat} {s : uwsgi_subscribe_slot}
    (hs : h.slotAt p = some s) :
    ∃ h1, h.freeSlot p = some h1 ∧
      (∀ x, h1.slotAt x = if x = p then none else h.slotAt x) ∧
      h1.head = h.head ∧ h1.nodes = h.nodes := by
  refine ⟨{ h with slots := h.slots.set p none }, ?_, fun x => ?_, rfl, rfl⟩
  · unfold Registry.freeSlot; rw [hs]
  · by_cases hx : x = p
    · subst hx
      simp only [Registry.slotAt, if_true]
      exact cell_set_self _ _ _ (cell_lt hs)
    · simp only [Registry.slotAt, if_neg hx]
      exact cell_set_other _ _ _ _ hx

/-- The search for the predecessor of `d` in `uwsgi_remove_subscribe_node`: on a list
that reaches `d` through `y` and does not contain `d` it redirects `y` to the successor
of `d`. -/
theorem unlink_loop_found (h : Registry) (d y : Nat) (nd : uwsgi_subscribe_node)
    (hd : h.nodeAt d = some nd) :
    ∀ (pre : List Nat) (fuel : Nat) (p : Option Nat),
      Seg h.nodeNext p (pre ++ [y]) (some d) → d ∉ pre ++ [y] → pre.length + 1 ≤ fuel →
      unlink_loop d fuel h p = h.modifyNode y (fun x => { x with next := nd.next }) := by
  intro pre
  induction pre with
  | nil =>
    intro fuel p hs _ hlen
    obtain ⟨rfl, r, hr, hrest⟩ := hs
    have hrd : r = some d := hrest
    subst hrd
    obtain ⟨ny, hny, hnext⟩ := nodeNext_some hr
    cases fuel with
    | zero => simp at hlen
    | succ fuel =>
      simp only [unlink_loop, Option.bind_eq_bind, hny, Option.some_bind, hnext, if_true, hd]
  | cons a pre ih =>
    intro fuel p hs hnot hlen
    obtain ⟨rfl, r, hr, hrest⟩ := hs
    have hrest : Seg h.nodeNext r (pre ++ [y]) (some d) := hrest
    obtain ⟨na, hna, hnext⟩ := nodeNext_some hr
    cases fuel with
    | zero => simp at hlen
    | succ fuel =>
      have hne : na.next ≠ some d := by
        rw [hnext]
        intro e
        subst e
        -- the rest of the list would start at `d`
        cases hpre : pre ++ [y] with
        | nil => simp at hpre
        | cons b t =>
          rw [hpre] at hrest
          have hb : some d = some b := hrest.1
          injection hb with hb
          apply hnot
          have : b ∈ pre ++ [y] := by rw [hpre]; exact List.mem_cons_self _ _
          rw [hb]
          exact List.mem_cons_of_mem _ this
      simp only [unlink_loop, Option.bind_eq_bind, hna, Option.some_bind, hne, if_false]
      rw [hnext]
      exact ih fuel r hrest (fun hm => hnot (List.mem_cons_of_mem _ hm))
        (by simp at hlen ⊢; omega)

theorem SameCore.core_alloc {h h1 : Registry} (hc : SameCore h h1) {x : Nat}
    {s : uwsgi_subscribe_slot} (hs : h.slotAt x = some s) :
    ∃ s1, h1.slotAt x = some s1 ∧ s1.core = s.core := by
  have := hc.2.2 x
  rw [hs] at this
  cases h1x : h1.slotAt x with
  | none => rw [h1x] at this; simp at this
  | some s1 => rw [h1x] at this; exact ⟨s1, rfl, by simpa using this⟩

theorem PtrOK.of_sameCore {h h1 : Registry} (hc : SameCore h h1) {p : Option Nat}
    (hp : PtrOK h p) : PtrOK h1 p := by
  intro x hx
  obtain ⟨s, hs⟩ := hp x hx
  obtain ⟨s1, hs1, -⟩ := hc.core_alloc hs
  exact ⟨s1, hs1⟩

/-- The conditional link writes of `uwsgi_remove_subscribe_node` (source lines 161-166)
succeed on a pointer that is `NULL` or allocated and touch list links only. -/
theorem link_write (h : Registry) (p : Option Nat)
    (f : uwsgi_subscribe_slot → uwsgi_subscribe_slot) (hf : ∀ s, (f s).core = s.core)
    (hp : PtrOK h p) :
    ∃ h1, (match p with
        | some q => h.modifySlot q f
        | none => some h) = some h1 ∧ SameCore h h1 ∧ h1.head = h.head := by
  cases p with
  | none => exact ⟨h, rfl, SameCore.core_refl h, rfl⟩
  | some q =>
    obtain ⟨s, hs⟩ := hp q rfl
    obtain ⟨h1, e1, -, hh, -⟩ := modifySlot_ex f hs
    exact ⟨h1, e1, modifySlot_sameCore e1 hf, hh⟩

/-- Removing the node `d` of the pool `cur`, whose node list is `pre ++ d :: post`. -/
theorem remove_spec {g : Registry} {cur d : Nat} {sc : uwsgi_subscribe_slot}
    {pre post : List Nat} (hsc : g.slotAt cur = some sc)
    (hseg : Seg g.nodeNext sc.nodes (pre ++ d :: post) none)
    (hback : ∀ n ∈ pre ++ d :: post, (g.nodeAt n).map (fun x => x.slot) = some (some cur))
    (hprev : PtrOK g sc.prev) (hnext : PtrOK g sc.next) :
    ∃ nd r, g.nodeAt d = some nd ∧ uwsgi_remove_subscribe_node g d = some r ∧
      FrameOutside cur g r.2 ∧ r.2.nodes.length = g.nodes.length ∧
      r.2.nodeAt d = none ∧
      (∀ n ∈ pre ++ post, ∃ x x', g.nodeAt n = some x ∧ r.2.nodeAt n = some x' ∧
          x' = { x with next := x'.next }) ∧
      ((pre ++ post = [] ∧ r.1 = 1) ∨
       (pre ++ post ≠ [] ∧ r.1 = 0 ∧ ∃ sc', r.2.slotAt cur = some sc' ∧
          sc' = { sc with nodes := sc'.nodes } ∧
          PtrOK r.2 sc'.prev ∧ PtrOK r.2 sc'.next ∧
          Seg r.2.nodeNext sc'.nodes (pre ++ post) none ∧
          Seg r.2.nodeNext nd.next post none)) := by
  have hnodup := Seg.nodup hseg
  have hdmem : d ∈ pre ++ d :: post := by simp
  obtain ⟨nd, hnd, hslot⟩ := Option.map_eq_some'.mp (hback d hdmem)
  obtain ⟨m, hpre, hrest⟩ := seg_append.mp hseg
  obtain ⟨rfl, r1, hr1, hpost⟩ := hrest
  obtain ⟨nd', hnd', hr1n⟩ := nodeNext_some hr1
  rw [hnd] at hnd'; injection hnd' with hnd'; subst hnd'; subst hr1n
  have hd_pre : d ∉ pre := by
    intro hm; simp [List.nodup_append, hm] at hnodup
  have hd_post : d ∉ post := by
    intro hm; simp [List.nodup_append, hm] at hnodup
  -- node->len = 0
  obtain ⟨h1, e1, hat1, hh1, hsl1⟩ := modifyNode_ex (fun x => { x with len := 0 }) hnd
  have hlen1 : h1.nodes.length = g.nodes.length := modifyNode_length e1
  have hnx1 : ∀ x, h1.nodeNext x = g.nodeNext x := by
    intro x
    simp only [Registry.nodeNext]
    rw [hat1 x]
    split
    · next e => subst e; rw [hnd]; rfl
    · rfl
  have hsc1 : h1.slotAt cur = some sc := by simp only [Registry.slotAt, hsl1]; exact hsc
  have hnd1 : h1.nodeAt d = some { nd with len := 0 } := by rw [hat1 d, if_pos rfl]
  refine ⟨nd, ?_⟩
  rcases List.eq_nil_or_concat' pre with rfl | ⟨pre', y, rfl⟩
  · -- `d` is the first node of the pool
    have hfirst : sc.nodes = some d := hpre
    obtain ⟨h2, e2, hat2, hh2, hn2⟩ := modifySlot_ex (fun x => { x with nodes := nd.next }) hsc1
    have hnd2 : h2.nodeAt d = some { nd with len := 0 } := by
      simp only [Registry.nodeAt, hn2]; exact hnd1
    obtain ⟨h3, e3, hat3, hh3, hsl3, hlen3⟩ := freeNode_ex hnd2
    have hsl3' : ∀ x, h3.slotAt x = h2.slotAt x := fun x => by simp only [Registry.slotAt, hsl3]
    have hsc3 : h3.slotAt cur = some { sc with nodes := nd.next } := by
      rw [hsl3', hat2 cur, if_pos rfl]
    have hnode3 : ∀ x, h3.nodeAt x = if x = d then none else g.nodeAt x := by
      intro x
      rw [hat3 x]
      split
      · rfl
      · next hx =>
        have : h2.nodeAt x = h1.nodeAt x := by simp only [Registry.nodeAt, hn2]
        rw [this, hat1 x, if_neg hx]
    have hslot3 : ∀ x, x ≠ cur → h3.slotAt x = g.slotAt x := by
      intro x hx
      rw [hsl3', hat2 x, if_neg hx]
      simp only [Registry.slotAt, hsl1]
    have hptr3 : ∀ p, PtrOK g p → PtrOK h3 p := by
      intro p hp x hx
      by_cases hxc : x = cur
      · subst hxc; exact ⟨_, hsc3⟩
      · rw [hslot3 x hxc]; exact hp x hx
    have hframe3 : FrameOutside cur g h3 := by
      refine ⟨fun a ha => by rw [hslot3 a ha], fun n x hx hxs => ?_⟩
      rw [hnode3 n]
      split
      · next e => subst e; rw [hnd] at hx; injection hx with hx; subst hx; exact absurd hslot hxs
      · exact hx
    cases post with
    | nil =>
      have hnn : nd.next = none := hpost
      obtain ⟨h4, e4, c4, -⟩ := link_write h3 sc.prev (fun x => { x with next := sc.next })
        (fun _ => rfl) (hptr3 _ hprev)
      obtain ⟨h5, e5, c5, -⟩ := link_write h4 sc.next (fun x => { x with prev := sc.prev })
        (fun _ => rfl) (PtrOK.of_sameCore c4 (hptr3 _ hnext))
      have c35 := c4.core_trans c5
      obtain ⟨s5, hs5, -⟩ := c35.core_alloc hsc3
      obtain ⟨h6, e6, hat6, -, hn6⟩ := freeSlot_ex hs5
      have hres : ∃ r, uwsgi_remove_subscribe_node g d = some r ∧ r.1 = 1 ∧
          r.2.slots = h6.slots ∧ r.2.nodes = h6.nodes := by
        unfold uwsgi_remove_subscribe_node
        simp only [Option.bind_eq_bind, hnd, Option.some_bind, hslot, hsc, e1, hfirst, if_true,
          hnd1, e2, e3, hsc3]
        rw [if_pos hnn]
        simp only [e4, e5, e6, Option.some_bind]
        by_cases hc : sc.prev = none ∧ sc.next = none
        · rw [if_pos hc]; exact ⟨_, rfl, rfl, rfl, rfl⟩
        · rw [if_neg hc]; exact ⟨_, rfl, rfl, rfl, rfl⟩
      obtain ⟨r, hr, hr1, hrs, hrn⟩ := hres
      have hnodes : r.2.nodes = h3.nodes := by rw [hrn, hn6, c35.1]
      have hnodeAt : ∀ x, r.2.nodeAt x = h3.nodeAt x := fun x => by
        simp only [Registry.nodeAt, hnodes]
      refine ⟨r, hnd, hr, ⟨fun a ha => ?_, fun n x hx hxs => ?_⟩, ?_, ?_, ?_, Or.inl ⟨rfl, hr1⟩⟩
      · have : r.2.slotAt a = h6.slotAt a := by simp only [Registry.slotAt, hrs]
        rw [this, hat6 a, if_neg ha, c35.2.2 a, hslot3 a ha]
      · rw [hnodeAt]; exact hframe3.2 n x hx hxs
      · rw [hnodes, hlen3, hn2, hlen1]
      · rw [hnodeAt, hnode3 d, if_pos rfl]
      · intro n hn; simp at hn
    | cons b t =>
      have hnb : nd.next = some b := hpost.1
      have hres : uwsgi_remove_subscribe_node g d = some (0, h3) := by
        unfold uwsgi_remove_subscribe_node
        simp only [Option.bind_eq_bind, hnd, Option.some_bind, hslot, hsc, e1, hfirst, if_true,
          hnd1, e2, e3, hsc3]
        rw [if_neg (by rw [hnb]; simp)]
      have hcongr : ∀ x ∈ b :: t, h3.nodeNext x = g.nodeNext x := by
        intro x hx
        have hxd : x ≠ d := fun e => hd_post (e ▸ hx)
        simp only [Registry.nodeNext, hnode3 x, if_neg hxd]
      refine ⟨(0, h3), hnd, hres, hframe3, ?_, ?_, ?_, Or.inr ⟨by simp, rfl, _, hsc3, rfl,
        hptr3 _ hprev, hptr3 _ hnext, ?_, ?_⟩⟩
      · show h3.nodes.length = g.nodes.length
        rw [hlen3, hn2, hlen1]
      · show h3.nodeAt d = none
        rw [hnode3 d, if_pos rfl]
      · intro n hn
        have hn' : n ∈ b :: t := by simpa using hn
        have hxd : n ≠ d := fun e => hd_post (e ▸ hn')
        obtain ⟨rn, hrn⟩ := Seg.alloc hpost n hn'
        obtain ⟨x, hx, -⟩ := nodeNext_some hrn
        exact ⟨x, x, hx, by show h3.nodeAt n = some x; rw [hnode3 n, if_neg hxd, hx], rfl⟩
      · show Seg h3.nodeNext nd.next ([] ++ b :: t) none
        exact Seg.congr hcongr hpost
      · exact Seg.congr hcongr hpost
  · -- `d` has the predecessor `y`
    have hymem : y ∈ pre' ++ [y] := by simp
    have hyd : y ≠ d := fun e => hd_pre (e ▸ hymem)
    have hne : sc.nodes ≠ some d := by
      cases hl : pre' ++ [y] with
      | nil => simp at hl
      | cons z t =>
        rw [hl] at hpre
        rw [hpre.1]
        intro e
        injection e with e
        apply hd_pre
        rw [hl, ← e]
        exact List.mem_cons_self _ _
    obtain ⟨ry, hry⟩ := Seg.alloc hpre y hymem
    obtain ⟨ny, hny, -⟩ := nodeNext_some hry
    have hny1 : h1.nodeAt y = some ny := by rw [hat1 y, if_neg hyd]; exact hny
    have hfuel : pre'.length + 1 ≤ h1.nodeFuel := by
      have hle : (pre' ++ [y] ++ d :: post).length ≤ g.nodes.length := by
        apply length_le_of_nodup hnodup
        intro n hn
        obtain ⟨rn, hrn⟩ := Seg.alloc hseg n hn
        obtain ⟨x, hx, -⟩ := nodeNext_some hrn
        exact cell_lt hx
      simp at hle
      unfold Registry.nodeFuel
      omega
    have hun := unlink_loop_found h1 d y { nd with len := 0 } hnd1 pre' h1.nodeFuel sc.nodes
      (Seg.congr (fun x _ => hnx1 x) hpre) hd_pre hfuel
    obtain ⟨h2, e2, hat2, -, hsl2⟩ := modifyNode_ex (fun x => { x with next := nd.next }) hny1
    have hnd2 : h2.nodeAt d = some { nd with len := 0 } := by
      rw [hat2 d, if_neg (Ne.symm hyd)]; exact hnd1
    obtain ⟨h3, e3, hat3, -, hsl3, hlen3⟩ := freeNode_ex hnd2
    have hslots3 : h3.slots = g.slots := by rw [hsl3, hsl2, hsl1]
    have hsc3 : h3.slotAt cur = some sc := by simp only [Registry.slotAt, hslots3]; exact hsc
    have hnode3 : ∀ x, h3.nodeAt x =
        if x = d then none else if x = y then some { ny with next := nd.next }
        else g.nodeAt x := by
      intro x
      rw [hat3 x]
      split
      · rfl
      · next hx =>
        rw [hat2 x]
        split
        · rfl
        · rw [hat1 x, if_neg hx]
    have hres : uwsgi_remove_subscribe_node g d = some (0, h3) := by
      unfold uwsgi_remove_subscribe_node
      simp only [Option.bind_eq_bind, hnd, Option.some_bind, hslot, hsc, e1, if_neg hne, hun, e2,
        e3, hsc3]
      rw [if_neg]
      intro e
      cases hl : pre' ++ [y] with
      | nil => simp at hl
      | cons z t =>
        rw [hl] at hpre
        rw [hpre.1] at e
        simp at e
    have hptr3 : ∀ p, PtrOK g p → PtrOK h3 p := by
      intro p hp x hx
      simp only [Registry.slotAt, hslots3]
      exact hp x hx
    have hback_y : ny.slot = some cur := by
      have := hback y (by simp)
      rw [hny] at this
      simpa using this
    obtain ⟨m, hpre1, hy⟩ := seg_append.mp hpre
    obtain ⟨rfl, -, -, -⟩ := hy
    have hpre_ne : ∀ x ∈ pre', x ≠ d ∧ x ≠ y := by
      intro x hx
      constructor <;> (rintro rfl; simp [List.nodup_append, hx] at hnodup)
    have hpost_ne : ∀ x ∈ post, x ≠ d ∧ x ≠ y := by
      intro x hx
      constructor <;> (rintro rfl; simp [List.nodup_append, hx] at hnodup)
    have hseg3 : Seg h3.nodeNext nd.next post none := by
      refine Seg.congr (fun x hx => ?_) hpost
      obtain ⟨h1', h2'⟩ := hpost_ne x hx
      simp only [Registry.nodeNext, hnode3 x, if_neg h1', if_neg h2']
    refine ⟨(0, h3), hnd, hres, ⟨fun a _ => ?_, fun n x hx hxs => ?_⟩, ?_, ?_, ?_,
      Or.inr ⟨by simp, rfl, sc, hsc3, rfl, hptr3 _ hprev, hptr3 _ hnext, ?_, hseg3⟩⟩
    · show (h3.slotAt a).map _ = _
      simp only [Registry.slotAt, hslots3]
    · show h3.nodeAt n = some x
      rw [hnode3 n]
      split
      · next e => subst e; rw [hnd] at hx; injection hx with hx; subst hx; exact absurd hslot hxs
      · split
        · next e => subst e; rw [hny] at hx; injection hx with hx; subst hx; exact absurd hback_y hxs
        · exact hx
    · show h3.nodes.length = g.nodes.length
      rw [hlen3, modifyNode_length e2, hlen1]
    · show h3.nodeAt d = none
      rw [hnode3 d, if_pos rfl]
    · intro n hn
      have hnd' : n ≠ d := by
        rintro rfl
        rcases List.mem_append.mp hn with h' | h'
        · exact hd_pre h'
        · exact hd_post h'
      obtain ⟨rn, hrn⟩ := Seg.alloc hseg n (by
        rcases List.mem_append.mp hn with h' | h'
        · exact List.mem_append_left _ h'
        · exact List.mem_append_right _ (List.mem_cons_of_mem _ h'))
      obtain ⟨x, hx, -⟩ := nodeNext_some hrn
      by_cases hny' : n = y
      · subst hny'
        rw [hny] at hx; injection hx with hx; subst hx
        exact ⟨ny, { ny with next := nd.next }, hny,
          by show h3.nodeAt n = _; rw [hnode3 n, if_neg hnd', if_pos rfl], rfl⟩
      · exact ⟨x, x, hx, by show h3.nodeAt n = _; rw [hnode3 n, if_neg hnd', if_neg hny', hx], rfl⟩
    · show Seg h3.nodeNext sc.nodes (pre' ++ [y] ++ post) none
      refine seg_append.mpr ⟨nd.next, seg_append.mpr ⟨some y, ?_, rfl, nd.next, ?_, rfl⟩, hseg3⟩
      · refine Seg.congr (fun x hx => ?_) hpre1
        obtain ⟨h1', h2'⟩ := hpre_ne x hx
        simp only [Registry.nodeNext, hnode3 x, if_neg h1', if_neg h2']
      · simp only [Registry.nodeNext, hnode3 y, if_neg hyd, if_pos, Option.map_some']

theorem FrameOutside.frame_refl (cur : Nat) (g : Registry) : FrameOutside cur g g :=
  ⟨fun _ _ => rfl, fun _ _ h _ => h⟩

theorem FrameOutside.frame_trans {cur : Nat} {g g1 g2 : Registry} (h01 : FrameOutside cur g g1)
    (h12 : FrameOutside cur g1 g2) : FrameOutside cur g g2 :=
  ⟨fun a ha => (h12.1 a ha).trans (h01.1 a ha),
   fun n nd hn hs => h12.2 n nd (h01.2 n nd hn hs) hs⟩

theorem KeepsRef.keeps_trans {c t : Int} {a : Nat} {g g1 g2 : Registry}
    (h01 : KeepsRef c t a g g1) (h12 : KeepsRef c t a g1 g2) : KeepsRef c t a g g2 := by
  intro n nd hn hg hmem
  obtain ⟨nd1, hn1, hs1, hr1, hg1, hmem1⟩ := h01 n nd hn hg hmem
  obtain ⟨nd2, hn2, hs2, hr2, hg2, hmem2⟩ := h12 n nd1 hn1 hg1 hmem1
  exact ⟨nd2, hn2, hs2.trans hs1, by omega, hg2, hmem2⟩

theorem Benign.nodeNext {c t : Int} {cur : Nat} {g g1 : Registry} (hb : Benign c t cur g g1) {x : Nat}
    {r : Option Nat} (hx : g.nodeNext x = some r) : g1.nodeNext x = some r := by
  obtain ⟨nd, hnd, hr⟩ := nodeNext_some hx
  obtain ⟨nd1, hnd1, -, hnx, -, -⟩ := hb.2.2.2 x nd hnd
  simp only [Registry.nodeNext, hnd1, Option.map_some', hnx, hr]

theorem Benign.seg {c t : Int} {cur : Nat} {g g1 : Registry} (hb : Benign c t cur g g1) :
    ∀ {l : List Nat} {p q : Option Nat}, Seg g.nodeNext p l q → Seg g1.nodeNext p l q := by
  intro l
  induction l with
  | nil => intro p q hs; exact hs
  | cons a l ih =>
    intro p q hs
    obtain ⟨rfl, r, hr, hrest⟩ := hs
    exact ⟨rfl, r, hb.nodeNext hr, ih hrest⟩

theorem Benign.frame {c t : Int} {cur : Nat} {g g1 : Registry} (hb : Benign c t cur g g1) :
    FrameOutside cur g g1 := by
  refine ⟨fun a ha => by rw [hb.2.1 a ha], fun n nd hn hs => ?_⟩
  obtain ⟨nd1, hnd1, -, -, -, he, -⟩ := hb.2.2.2 n nd hn
  rw [hnd1, he hs]

theorem Benign.keeps {c t : Int} {cur : Nat} {g g1 : Registry} (hb : Benign c t cur g g1) :
    KeepsRef c t cur g g1 := by
  intro n nd hn hg hmem
  obtain ⟨ns, hns, hnmem⟩ := hmem
  obtain ⟨nd1, hnd1, hs1, -, hr1, -, hg1⟩ := hb.2.2.2 n nd hn
  refine ⟨nd1, hnd1, hs1, hr1, hg1 hg, ns, ?_, hnmem⟩
  obtain ⟨sc, hsc, hseg⟩ := seg_of_poolNodes hns
  obtain ⟨sc1, hsc1, hn1, -, -⟩ := hb.2.2.1 sc hsc
  exact poolNodes_of_seg hsc1 (by rw [hn1]; exact hb.seg hseg)

theorem Benign.poolInv {c t : Int} {cur : Nat} {g g1 : Registry} (hb : Benign c t cur g g1)
    {sc : uwsgi_subscribe_slot} {l : List Nat} (hi : PoolInv g cur sc l) :
    ∃ sc1, PoolInv g1 cur sc1 l ∧ sc1.nodes = sc.nodes := by
  obtain ⟨hsc, hseg, hback, hp, hn⟩ := hi
  obtain ⟨sc1, hsc1, hn1, hp1, hx1⟩ := hb.2.2.1 sc hsc
  have hptr : ∀ p, PtrOK g p → PtrOK g1 p := by
    intro p hp x hx
    obtain ⟨s, hs⟩ := hp x hx
    by_cases hxc : x = cur
    · subst hxc; exact ⟨sc1, hsc1⟩
    · rw [hb.2.1 x hxc]; exact ⟨s, hs⟩
  refine ⟨sc1, ⟨hsc1, by rw [hn1]; exact hb.seg hseg, fun n hn' => ?_, ?_, ?_⟩, hn1⟩
  · obtain ⟨nd, hnd, hs⟩ := Option.map_eq_some'.mp (hback n hn')
    obtain ⟨nd1, hnd1, hs1, -, -, -⟩ := hb.2.2.2 n nd hnd
    rw [hnd1]; simp [hs1, hs]
  · rw [hp1]; exact hptr _ hp
  · rw [hx1]; exact hptr _ hn

theorem Benign.benign_refl (c t : Int) (cur : Nat) (g : Registry) : Benign c t cur g g :=
  ⟨rfl, fun _ _ => rfl, fun sc hsc => ⟨sc, hsc, rfl, rfl, rfl⟩,
   fun _ nd hn => ⟨nd, hn, rfl, rfl, le_refl _, fun _ => rfl, fun hg => hg⟩⟩

theorem Benign.benign_trans {c t : Int} {cur : Nat} {g g1 g2 : Registry}
    (h01 : Benign c t cur g g1) (h12 : Benign c t cur g1 g2) : Benign c t cur g g2 := by
  refine ⟨h12.1.trans h01.1, fun a ha => (h12.2.1 a ha).trans (h01.2.1 a ha), fun sc hsc => ?_,
    fun n nd hn => ?_⟩
  · obtain ⟨sc1, hsc1, a1, b1, c1⟩ := h01.2.2.1 sc hsc
    obtain ⟨sc2, hsc2, a2, b2, c2⟩ := h12.2.2.1 sc1 hsc1
    exact ⟨sc2, hsc2, a2.trans a1, b2.trans b1, c2.trans c1⟩
  · obtain ⟨nd1, hn1, a1, b1, c1, d1, g1'⟩ := h01.2.2.2 n nd hn
    obtain ⟨nd2, hn2, a2, b2, c2, d2, g2'⟩ := h12.2.2.2 n nd1 hn1
    refine ⟨nd2, hn2, a2.trans a1, b2.trans b1, by omega, fun hs => ?_, fun hg => g2' (g1' hg)⟩
    have e1 := d1 hs
    subst e1
    exact d2 hs

/-- A write into a node of the pool `cur` that keeps `slot` and `next` and does not lower
the reference is benign. -/
theorem benign_modifyNode {c t : Int} {cur d : Nat} {g g1 : Registry}
    {nd : uwsgi_subscribe_node} {f : uwsgi_subscribe_node → uwsgi_subscribe_node}
    (hm : g.modifyNode d f = some g1) (hnd : g.nodeAt d = some nd) (hs : nd.slot = some cur)
    (hfs : (f nd).slot = nd.slot) (hfn : (f nd).next = nd.next)
    (hfr : nd.reference ≤ (f nd).reference) (hfg : Guarded c t nd → Guarded c t (f nd)) :
    Benign c t cur g g1 := by
  refine ⟨modifyNode_length hm, fun a _ => modifyNode_slotAt hm a, fun sc hsc => ?_,
    fun n x hx => ?_⟩
  · exact ⟨sc, by rw [modifyNode_slotAt hm]; exact hsc, rfl, rfl, rfl⟩
  · rw [modifyNode_nodeAt hm n]
    by_cases hnd' : n = d
    · subst hnd'
      rw [hnd] at hx; injection hx with hx; subst hx
      refine ⟨f nd, by simp [hnd], hfs, hfn, hfr, fun hne => absurd hs hne, hfg⟩
    · exact ⟨x, by rw [if_neg hnd']; exact hx, rfl, rfl, le_refl _, fun _ => rfl, fun hg => hg⟩

/-- A write into the pool `cur` that keeps its node list head and its links is benign. -/
theorem benign_modifySlot (c t : Int) {cur : Nat} {g g1 : Registry}
    {f : uwsgi_subscribe_slot → uwsgi_subscribe_slot} (hm : g.modifySlot cur f = some g1)
    (hf : ∀ s, (f s).nodes = s.nodes ∧ (f s).prev = s.prev ∧ (f s).next = s.next) :
    Benign c t cur g g1 := by
  refine ⟨by rw [modifySlot_nodes hm], fun a ha => ?_, fun sc hsc => ?_, fun n x hx => ?_⟩
  · rw [modifySlot_slotAt hm a, if_neg ha]
  · refine ⟨f sc, ?_, (hf sc).1, (hf sc).2.1, (hf sc).2.2⟩
    rw [modifySlot_slotAt hm cur, if_pos rfl, hsc]; rfl
  · exact ⟨x, by rw [modifySlot_nodeAt hm]; exact hx, rfl, rfl, le_refl _, fun _ => rfl,
      fun hg => hg⟩

/-- Removing a node of the pool `cur` that is not guarded: nothing outside the pool
changes, every guarded node of the pool stays in its list, and either the pool is gone
(result 1) or it is intact with the node taken out of its list (result 0). -/
theorem remove_keeps {c t : Int} {g : Registry} {cur d : Nat} {sc : uwsgi_subscribe_slot}
    {pre post : List Nat} {nd : uwsgi_subscribe_node}
    (hi : PoolInv g cur sc (pre ++ d :: post)) (hnd : g.nodeAt d = some nd)
    (href : ¬ Guarded c t nd) :
    ∃ r, uwsgi_remove_subscribe_node g d = some r ∧ FrameOutside cur g r.2 ∧
      KeepsRef c t cur g r.2 ∧ r.2.nodes.length = g.nodes.length ∧
      (r.1 = 1 ∨ (r.1 ≠ 1 ∧ ∃ sc', PoolInv r.2 cur sc' (pre ++ post) ∧
        Seg r.2.nodeNext nd.next post none)) := by
  obtain ⟨hsc, hseg, hback, hp, hn⟩ := hi
  obtain ⟨nd', r, hnd', hr, hframe, hlen, -, hnodes, hcase⟩ := remove_spec hsc hseg hback hp hn
  rw [hnd] at hnd'; injection hnd' with hnd'; subst hnd'
  have hpool : g.poolNodes cur = some (pre ++ d :: post) := poolNodes_of_seg hsc hseg
  have hkeep_node : ∀ n x, g.nodeAt n = some x → Guarded c t x →
      (∃ ns ∈ g.poolNodes cur, n ∈ ns) → n ∈ pre ++ post ∧
        ∃ x', r.2.nodeAt n = some x' ∧ x'.slot = x.slot ∧ x.reference ≤ x'.reference ∧
          Guarded c t x' := by
    intro n x hx hpos hmem
    obtain ⟨ns, hns, hnmem⟩ := hmem
    have hns' : g.poolNodes cur = some ns := hns
    rw [hpool] at hns'; injection hns' with hns'; subst hns'
    have hnd'' : n ≠ d := by
      rintro rfl
      rw [hnd] at hx; injection hx with hx; subst hx
      exact href hpos
    have hn' : n ∈ pre ++ post := by
      rcases List.mem_append.mp hnmem with h' | h'
      · exact List.mem_append_left _ h'
      · rcases List.mem_cons.mp h' with h'' | h''
        · exact absurd h'' hnd''
        · exact List.mem_append_right _ h''
    obtain ⟨y, y', hy, hy', he⟩ := hnodes n hn'
    rw [hx] at hy; injection hy with hy; subst hy
    refine ⟨hn', y', hy', ?_, ?_, ?_⟩
    · rw [he]
    · rw [he]
    · rw [he]; exact hpos
  refine ⟨r, hr, hframe, ?_, hlen, ?_⟩
  · intro n x hx hpos hmem
    obtain ⟨hn', x', hx', hs', hr', hg'⟩ := hkeep_node n x hx hpos hmem
    refine ⟨x', hx', hs', hr', hg', ?_⟩
    rcases hcase with ⟨hnil, -⟩ | ⟨-, -, sc', hsc', -, -, -, hseg', -⟩
    · rw [hnil] at hn'; simp at hn'
    · exact ⟨pre ++ post, poolNodes_of_seg hsc' hseg', hn'⟩
  · rcases hcase with ⟨-, h1⟩ | ⟨-, h0, sc', hsc', -, hp', hn', hseg', hpost'⟩
    · exact Or.inl h1
    · refine Or.inr ⟨by omega, sc', ⟨hsc', hseg', fun n hn'' => ?_, hp', hn'⟩, hpost'⟩
      obtain ⟨y, y', hy, hy', he⟩ := hnodes n hn''
      have hmem' : n ∈ pre ++ d :: post := by
        rcases List.mem_append.mp hn'' with h' | h'
        · exact List.mem_append_left _ h'
        · exact List.mem_append_right _ (List.mem_cons_of_mem _ h')
      have := hback n hmem'
      rw [hy] at this
      rw [hy', he]
      simpa using this

theorem guarded_reference_succ {c t : Int} {nd : uwsgi_subscribe_node}
    (_hg : Guarded c t nd) : Guarded c t { nd with reference := nd.reference + 1 } :=
  Or.inl (Nat.succ_pos _)

theorem guarded_mark {c t : Int} {nd : uwsgi_subscribe_node} (hst : c - nd.last_check > t)
    (hg : Guarded c t nd) : Guarded c t { nd with death_mark := true } := by
  rcases hg with hr | ⟨-, hl⟩
  · exact Or.inl hr
  · omega

theorem not_guarded_of_dead {c t : Int} {nd : uwsgi_subscribe_node}
    (hd : nd.death_mark = true) (hr : nd.reference = 0) : ¬ Guarded c t nd := by
  rintro (h | ⟨h, -⟩)
  · omega
  · rw [hd] at h; simp at h

/-- The code after the loop of `uwsgi_get_subscribe_node` is benign. -/
theorem node_wrap_benign (c t : Int) {g : Registry} {cur : Nat} {sc : uwsgi_subscribe_slot}
    {l : List Nat} (hi : PoolInv g cur sc l) :
    ∃ r, node_wrap g cur = some r ∧ Benign c t cur g r.2 := by
  obtain ⟨h1, e1, hat1, -, hn1⟩ := modifySlot_ex (fun x => { x with rr := 0 }) hi.1
  have hb1 : Benign c t cur g h1 := benign_modifySlot c t e1 (fun _ => ⟨rfl, rfl, rfl⟩)
  have hsc1 : h1.slotAt cur = some { sc with rr := 0 } := by rw [hat1 cur, if_pos rfl]
  cases hnodes : sc.nodes with
  | none =>
    refine ⟨(none, h1), ?_, hb1⟩
    unfold node_wrap
    simp only [Option.bind_eq_bind, e1, Option.some_bind, hsc1, hnodes]
  | some n =>
    obtain ⟨-, hseg, hback, -, -⟩ := hi
    rw [hnodes] at hseg
    cases l with
    | nil =>
      have : some n = none := hseg
      simp at this
    | cons a l =>
      obtain ⟨e, -⟩ := hseg
      injection e with e; subst e
      obtain ⟨nd, hnd, hs⟩ := Option.map_eq_some'.mp (hback n (List.mem_cons_self _ _))
      have hnd1 : h1.nodeAt n = some nd := by rw [modifySlot_nodeAt e1]; exact hnd
      obtain ⟨h2, e2, -, -, -⟩ :=
        modifyNode_ex (fun x => { x with reference := x.reference + 1 }) hnd1
      have hb2 : Benign c t cur h1 h2 :=
        benign_modifyNode e2 hnd1 hs rfl rfl (Nat.le_succ _) guarded_reference_succ
      refine ⟨(some n, h2), ?_, hb1.benign_trans hb2⟩
      unfold node_wrap
      simp only [Option.bind_eq_bind, e1, Option.some_bind, hsc1, hnodes, e2]

/-- The loop of `uwsgi_get_subscribe_node` over the nodes of the pool `cur`: it returns,
nothing outside the pool changes, and every guarded node of the pool stays in the list
of the pool. -/
theorem node_loop_keeps (current tolerance : Int) (cur : Nat) :
    ∀ (rest : List Nat) (g : Registry) (pre : List Nat) (fuel : Nat) (p : Option Nat)
      (rr_pos : Nat) (sc : uwsgi_subscribe_slot),
      PoolInv g cur sc (pre ++ rest) → Seg g.nodeNext p rest none → rest.length ≤ fuel →
      ∃ r, node_loop current tolerance cur fuel g p rr_pos = some r ∧
        FrameOutside cur g r.2 ∧ KeepsRef current tolerance cur g r.2 ∧
        r.2.nodes.length = g.nodes.length := by
  intro rest
  induction rest with
  | nil =>
    intro g pre fuel p rr_pos sc hi hp _
    have hpn : p = none := hp
    subst hpn
    obtain ⟨r, hr, hb⟩ := node_wrap_benign current tolerance hi
    refine ⟨r, ?_, hb.frame, hb.keeps, hb.1⟩
    cases fuel <;> simpa only [node_loop] using hr
  | cons d rest ih =>
    intro g pre fuel p rr_pos sc hi hp hlen
    obtain ⟨rfl, r0, hr0, hrest⟩ := hp
    obtain ⟨nd, hnd, hnext⟩ := nodeNext_some hr0
    subst hnext
    have hdmem : d ∈ pre ++ d :: rest := by simp
    have hslot : nd.slot = some cur := by
      have := hi.2.2.1 d hdmem
      rw [hnd] at this
      simpa using this
    cases fuel with
    | zero => simp at hlen
    | succ fuel =>
      have hfuel : rest.length ≤ fuel := by simpa using hlen
      -- is the node alive ?
      have hmark : ∃ h1 nd1, (if current - nd.last_check > tolerance then
            g.modifyNode d (fun x => { x with death_mark := true }) else some g) = some h1 ∧
          Benign current tolerance cur g h1 ∧ h1.nodeAt d = some nd1 ∧ nd1.next = nd.next ∧
          nd1.reference = nd.reference ∧ nd1.slot = nd.slot := by
        by_cases hst : current - nd.last_check > tolerance
        · obtain ⟨h1, e1, hat1, -, -⟩ :=
            modifyNode_ex (fun x => { x with death_mark := true }) hnd
          refine ⟨h1, { nd with death_mark := true }, by rw [if_pos hst]; exact e1,
            benign_modifyNode e1 hnd hslot rfl rfl (le_refl _) (guarded_mark hst), ?_, rfl, rfl,
            rfl⟩
          rw [hat1 d, if_pos rfl]
        · exact ⟨g, nd, by rw [if_neg hst], Benign.benign_refl current tolerance cur g, hnd, rfl,
            rfl, rfl⟩
      obtain ⟨h1, nd1, emark, hb1, hnd1, hnx1, hrf1, hsl1⟩ := hmark
      obtain ⟨sc1, hi1, -⟩ := hb1.poolInv hi
      have hrest1 : Seg h1.nodeNext nd.next rest none := hb1.seg hrest
      by_cases hdead : nd1.death_mark = true ∧ nd1.reference = 0
      · -- remove the node and move to next
        obtain ⟨r, hrem, hfr, hkp, hln, hcase⟩ :=
          remove_keeps hi1 hnd1 (not_guarded_of_dead hdead.1 hdead.2)
        rcases hcase with h1' | ⟨h0, sc', hi', hpost'⟩
        · refine ⟨(none, r.2), ?_, hb1.frame.frame_trans hfr, hb1.keeps.keeps_trans hkp, hln.trans hb1.1⟩
          simp only [node_loop, Option.bind_eq_bind, hnd, Option.some_bind, emark, hnd1, hdead,
            and_self, if_true, hrem, h1']
        · rw [hnx1] at hpost'
          obtain ⟨r', hr', hfr', hkp', hln'⟩ := ih r.2 pre fuel nd.next rr_pos sc' hi' hpost' hfuel
          refine ⟨r', ?_, (hb1.frame.frame_trans hfr).frame_trans hfr', (hb1.keeps.keeps_trans hkp).keeps_trans hkp',
            hln'.trans (hln.trans hb1.1)⟩
          simp only [node_loop, Option.bind_eq_bind, hnd, Option.some_bind, emark, hnd1, hdead,
            and_self, if_true, hrem, if_neg h0, hnx1]
          exact hr'
      · by_cases hrr : rr_pos = sc1.rr
        · obtain ⟨h2, e2, -, -, -⟩ := modifySlot_ex (fun x => { x with rr := x.rr + 1 }) hi1.1
          have hb2 : Benign current tolerance cur h1 h2 :=
            benign_modifySlot current tolerance e2 (fun _ => ⟨rfl, rfl, rfl⟩)
          have hnd2 : h2.nodeAt d = some nd1 := by rw [modifySlot_nodeAt e2]; exact hnd1
          obtain ⟨h3, e3, -, -, -⟩ :=
            modifyNode_ex (fun x => { x with reference := x.reference + 1 }) hnd2
          have hb3 : Benign current tolerance cur h2 h3 :=
            benign_modifyNode e3 hnd2 (hsl1.trans hslot) rfl rfl (Nat.le_succ _)
              guarded_reference_succ
          have hb := (hb1.benign_trans hb2).benign_trans hb3
          refine ⟨(some d, h3), ?_, hb.frame, hb.keeps, hb.1⟩
          simp only [node_loop, Option.bind_eq_bind, hnd, Option.some_bind, emark, hnd1, hdead,
            if_false, hi1.1, hrr, if_true, e2, e3]
        · have hi1' : PoolInv h1 cur sc1 ((pre ++ [d]) ++ rest) := by
            simpa using hi1
          obtain ⟨r', hr', hfr', hkp', hln'⟩ :=
            ih h1 (pre ++ [d]) fuel nd.next (rr_pos + 1) sc1 hi1' hrest1 hfuel
          refine ⟨r', ?_, hb1.frame.frame_trans hfr', hb1.keeps.keeps_trans hkp', hln'.trans hb1.1⟩
          simp only [node_loop, Option.bind_eq_bind, hnd, Option.some_bind, emark, hnd1, hdead,
            if_false, hi1.1, hrr, hnx1]
          exact hr'

theorem seg_next_ok {nx : Nat → Option (Option Nat)} :
    ∀ {l : List Nat} {p : Option Nat}, Seg nx p l none → ∀ a ∈ l,
      ∃ r, nx a = some r ∧ ∀ x, r = some x → ∃ r', nx x = some r' := by
  intro l
  induction l with
  | nil => intro p _ a ha; simp at ha
  | cons b l ih =>
    intro p hs a ha
    obtain ⟨rfl, r, hr, hrest⟩ := hs
    rcases List.mem_cons.mp ha with rfl | ha
    · refine ⟨r, hr, fun x hx => ?_⟩
      subst hx
      cases l with
      | nil =>
        have : some x = none := hrest
        simp at this
      | cons c l =>
        obtain ⟨e, r', hr', -⟩ := hrest
        injection e with e; subst e
        exact ⟨r', hr'⟩
    · exact ih hrest a ha

/-- In a proper doubly linked list the links of every pool are `NULL` or allocated. -/
theorem wf_links {h : Registry} {l : List Nat} {cur : Nat}
    (hseg : Seg h.slotNext h.head l none) (hprev : PrevLinks h none l) (hcur : cur ∈ l) :
    ∃ sc, h.slotAt cur = some sc ∧ PtrOK h sc.prev ∧ PtrOK h sc.next := by
  obtain ⟨r, hr, hrok⟩ := seg_next_ok hseg cur hcur
  obtain ⟨sc, hsc, hscn⟩ := slotNext_some hr
  refine ⟨sc, hsc, ?_, ?_⟩
  · rcases mem_first_or_adjacent hcur with ⟨post, rfl⟩ | ⟨pre, q, post, rfl⟩
    · have := prevLinks_head hprev
      rw [hsc] at this
      have hpn : sc.prev = none := by simpa using this
      intro x hx
      rw [hpn] at hx; simp at hx
    · have := prevLinks_adjacent hprev
      rw [hsc] at this
      have hpq : sc.prev = some q := by simpa using this
      intro x hx
      rw [hpq] at hx; injection hx with hx; subst hx
      obtain ⟨rq, hrq⟩ := Seg.alloc hseg q (by simp)
      obtain ⟨sq, hsq, -⟩ := slotNext_some hrq
      exact ⟨sq, hsq⟩
  · intro x hx
    rw [hscn] at hx
    obtain ⟨r', hr'⟩ := hrok x hx
    obtain ⟨sx, hsx, -⟩ := slotNext_some hr'
    exact ⟨sx, hsx⟩

/-- After `promote` the links of the promoted pool are `NULL` or allocated. -/
theorem promote_links {h h' : Registry} {cur : Nat} {sc : uwsgi_subscribe_slot}
    (hp : promote h cur = some h') (hsc : h.slotAt cur = some sc) (hpv : PtrOK h sc.prev)
    (hnx : PtrOK h sc.next) :
    ∃ sc', h'.slotAt cur = some sc' ∧ PtrOK h' sc'.prev ∧ PtrOK h' sc'.next := by
  have hcore := promote_sameCore hp
  obtain ⟨s, hs, hcase⟩ := promote_inv hp
  rw [hsc] at hs; injection hs with hs; subst hs
  have hsame : h' = h → ∃ sc', h'.slotAt cur = some sc' ∧ PtrOK h' sc'.prev ∧ PtrOK h' sc'.next := by
    rintro rfl; exact ⟨sc, hsc, hpv, hnx⟩
  rcases hcase with ⟨-, e⟩ | ⟨pv, ps, -, hps, hcase⟩
  · exact hsame e
  · rcases hcase with ⟨-, e⟩ | ⟨-, h1, h2, c2, h3, h4, e1, -, -, -, e5, e6⟩
    · exact hsame e
    · obtain ⟨c3, hc3, -⟩ := modifySlot_inv e5
      have hc4 : h4.slotAt cur = some { c3 with next := some pv } := by
        rw [modifySlot_slotAt e5 cur, if_pos rfl, hc3]; rfl
      have hc' : h'.slotAt cur = some { c3 with next := some pv, prev := ps.prev } := by
        rw [modifySlot_slotAt e6 cur, if_pos rfl, hc4]; rfl
      refine ⟨_, hc', ?_, ?_⟩
      · intro x hx
        have hx' : ps.prev = some x := hx
        rw [hx'] at e1
        obtain ⟨sx, hsx, -⟩ := modifySlot_inv e1
        obtain ⟨sx', hsx', -⟩ := hcore.core_alloc hsx
        exact ⟨sx', hsx'⟩
      · intro x hx
        have hx' : some pv = some x := hx
        injection hx' with hx'; subst hx'
        obtain ⟨sx', hsx', -⟩ := hcore.core_alloc hps
        exact ⟨sx', hsx'⟩

/-- The lookup loop on a list of pools that ends, in either mode: it returns, and the
pool returned (if any) is in the list. -/
theorem slot_loop_total (rx : Pcre) (key : List Nat) (keylen : Nat) (regexp : Bool)
    (h : Registry) :
    ∀ (l : List Nat) (fuel : Nat) (p : Option Nat), Seg h.slotNext p l none → l.length ≤ fuel →
      (∀ cur ∈ l, ∃ h', promote h cur = some h') →
      ∃ r, slot_loop rx key keylen regexp fuel h p = some r ∧
        ((r.1 = none ∧ r.2 = h) ∨
         ∃ cur ∈ l, r.1 = some cur ∧ (r.2 = h ∨ promote h cur = some r.2)) := by
  intro l
  induction l with
  | nil =>
    intro fuel p hs _ _
    have : p = none := hs
    subst this
    exact ⟨(none, h), by cases fuel <;> rfl, Or.inl ⟨rfl, rfl⟩⟩
  | cons a l ih =>
    intro fuel p hs hlen hprom
    obtain ⟨rfl, r, hr, hrest⟩ := hs
    obtain ⟨s, hsa, rfl⟩ := slotNext_some hr
    cases fuel with
    | zero => simp at hlen
    | succ fuel =>
      have hfuel : l.length ≤ fuel := by simpa using hlen
      have hrec : ∃ r, slot_loop rx key keylen regexp fuel h s.next = some r ∧
          ((r.1 = none ∧ r.2 = h) ∨
           ∃ cur ∈ a :: l, r.1 = some cur ∧ (r.2 = h ∨ promote h cur = some r.2)) := by
        obtain ⟨r, hr, hcase⟩ := ih fuel s.next hrest hfuel
          (fun cur hc => hprom cur (List.mem_cons_of_mem _ hc))
        refine ⟨r, hr, ?_⟩
        rcases hcase with hn | ⟨cur, hc, hrest'⟩
        · exact Or.inl hn
        · exact Or.inr ⟨cur, List.mem_cons_of_mem _ hc, hrest'⟩
      cases regexp with
      | true =>
        by_cases hm : rx.uwsgi_regexp_match s.pattern key keylen ≥ 0
        · refine ⟨(some a, h), ?_, Or.inr ⟨a, List.mem_cons_self _ _, rfl, Or.inl rfl⟩⟩
          simp only [slot_loop, Option.bind_eq_bind, hsa, Option.some_bind, if_true, hm]
        · simp only [slot_loop, Option.bind_eq_bind, hsa, Option.some_bind, if_true, hm, if_false]
          exact hrec
      | false =>
        by_cases hk : uwsgi_strncmp key keylen s.key s.keylen = 0
        · obtain ⟨h', hp'⟩ := hprom a (List.mem_cons_self _ _)
          refine ⟨(some a, h'), ?_, Or.inr ⟨a, List.mem_cons_self _ _, rfl, Or.inr hp'⟩⟩
          simp [slot_loop, hsa, hk, hp']
        · simp only [slot_loop, Option.bind_eq_bind, hsa, Option.some_bind, hk, if_false]
          simpa using hrec

/-- A pool other than `cur` keeps its node list, node by node, across a step that leaves
everything outside `cur` alone. -/
theorem frame_pool {cur a : Nat} {g g1 : Registry} (hf : FrameOutside cur g g1) (ha : a ≠ cur)
    {ns : List Nat} (hns : g.poolNodes a = some ns)
    (hback : ∀ n ∈ ns, (g.nodeAt n).map (fun x => x.slot) = some (some a)) :
    g1.poolNodes a = some ns ∧ ∀ n ∈ ns, g1.nodeAt n = g.nodeAt n := by
  obtain ⟨s, hs, hseg⟩ := seg_of_poolNodes hns
  have hnode : ∀ n ∈ ns, g1.nodeAt n = g.nodeAt n := by
    intro n hn
    obtain ⟨nd, hnd, hslot⟩ := Option.map_eq_some'.mp (hback n hn)
    rw [hnd]
    apply hf.2 n nd hnd
    rw [hslot]
    intro e
    injection e with e
    exact ha e
  refine ⟨?_, hnode⟩
  have hc := hf.1 a ha
  rw [hs] at hc
  cases hs1 : g1.slotAt a with
  | none => rw [hs1] at hc; simp at hc
  | some s1 =>
    rw [hs1] at hc
    have hn1 : s1.nodes = s.nodes := by
      have := congrArg (fun o => o.map (fun x => x.nodes)) hc
      simpa [uwsgi_subscribe_slot.core] using this
    apply poolNodes_of_seg hs1
    rw [hn1]
    exact Seg.congr (fun x hx => by simp only [Registry.nodeNext, hnode x hx]) hseg

/-- On a well-formed registry a call of `uwsgi_get_subscribe_node` (any key, mode and
time) returns, and every node that was in the node list of a pool of the registry with a
reference above zero is still allocated afterwards, still points back to that pool, has
not lost a reference and is still in the node list of that pool, whether or not it is
stale or death-marked.  The same holds of every node that is neither death-marked nor
stale. -/
theorem select_keeps_referenced_nodes (rx : Pcre) (tolerance : Int) (h : Registry)
    (key : List Nat) (keylen : Nat) (regexp : Bool) (current : Int) (hwf : WellFormed h) :
    ∃ r, uwsgi_get_subscribe_node rx tolerance h key keylen regexp current = some r ∧
      ∀ l a n nd, h.pools = some l → a ∈ l → (∃ ns ∈ h.poolNodes a, n ∈ ns) →
        h.nodeAt n = some nd →
        (0 < nd.reference ∨ (nd.death_mark = false ∧ current - nd.last_check ≤ tolerance)) →
        ∃ nd1, r.2.nodeAt n = some nd1 ∧ nd1.slot = nd.slot ∧
          nd.reference ≤ nd1.reference ∧ ∃ ns1 ∈ r.2.poolNodes a, n ∈ ns1 := by
  obtain ⟨l, hl, hprev, hpools⟩ := hwf
  have hl : h.pools = some l := hl
  have hseg := seg_of_pools hl
  -- what has to be shown of the memory afterwards
  suffices hmain : ∃ r, uwsgi_get_subscribe_node rx tolerance h key keylen regexp current =
      some r ∧ ∀ a ∈ l, KeepsRef current tolerance a h r.2 by
    obtain ⟨r, hr, hk⟩ := hmain
    refine ⟨r, hr, fun l' a n nd hl' ha hmem hnd hpos => ?_⟩
    rw [hl] at hl'; injection hl' with hl'; subst hl'
    obtain ⟨nd1, h1, h2, h3, -, h5⟩ := hk a ha n nd hnd hpos hmem
    exact ⟨nd1, h1, h2, h3, h5⟩
  have hrefl : ∀ a, KeepsRef current tolerance a h h := fun a n nd hnd hg hmem =>
    ⟨nd, hnd, rfl, le_refl _, hg, hmem⟩
  unfold uwsgi_get_subscribe_node
  by_cases hk : keylen > 0xff
  · exact ⟨(none, h), by rw [if_pos hk], fun a _ => hrefl a⟩
  rw [if_neg hk]
  unfold uwsgi_get_subscribe_slot
  rw [if_neg hk]
  have hfuel : l.length ≤ h.slotFuel := walk_length _ _ _ _ hl
  have hprom : ∀ cur ∈ l, ∃ h', promote h cur = some h' := fun cur hc =>
    (promote_pools hseg hprev hc).imp (fun _ hx => hx.1)
  obtain ⟨r0, hr0, hcase⟩ := slot_loop_total rx key keylen regexp h l _ _ hseg hfuel hprom
  rcases hcase with ⟨hnone, hsame⟩ | ⟨cur, hcur, hsome, hheap⟩
  · refine ⟨(none, h), ?_, fun a _ => hrefl a⟩
    simp only [Option.bind_eq_bind, hr0, Option.some_bind, hnone, hsame]
  · obtain ⟨sc, hsc, hpv, hnx⟩ := wf_links hseg hprev hcur
    -- the memory after the lookup
    have hcore : SameCore h r0.2 := by
      rcases hheap with e | e
      · rw [e]; exact SameCore.core_refl h
      · exact promote_sameCore e
    have hlinks : ∃ sc1, r0.2.slotAt cur = some sc1 ∧ PtrOK r0.2 sc1.prev ∧
        PtrOK r0.2 sc1.next := by
      rcases hheap with e | e
      · rw [e]; exact ⟨sc, hsc, hpv, hnx⟩
      · exact promote_links e hsc hpv hnx
    obtain ⟨sc1, hsc1, hpv1, hnx1⟩ := hlinks
    have hnodes1 : r0.2.nodes = h.nodes := hcore.1
    have hnodeAt1 : ∀ x, r0.2.nodeAt x = h.nodeAt x := fun x => by
      simp only [Registry.nodeAt, hnodes1]
    have hsn1 : sc1.nodes = sc.nodes := by
      obtain ⟨s', hs', hc'⟩ := hcore.core_alloc hsc
      rw [hsc1] at hs'; injection hs' with hs'; subst hs'
      have := congrArg (fun x => x.nodes) hc'
      simpa [uwsgi_subscribe_slot.core] using this
    -- the nodes of the pool
    obtain ⟨ns, hns, -, hback⟩ := hpools cur hcur
    have hns : h.poolNodes cur = some ns := hns
    obtain ⟨sc', hsc', hnseg⟩ := seg_of_poolNodes hns
    rw [hsc] at hsc'; injection hsc' with hsc'; subst hsc'
    have hi1 : PoolInv r0.2 cur sc1 ns := by
      refine ⟨hsc1, ?_, fun n hn => by rw [hnodeAt1]; exact hback n hn, hpv1, hnx1⟩
      rw [hsn1]
      exact Seg.congr (fun x _ => by simp only [Registry.nodeNext, hnodeAt1]) hnseg
    -- current_slot->hits++
    obtain ⟨h2, e2, hat2, -, hn2⟩ := modifySlot_ex (fun x => { x with hits := x.hits + 1 }) hsc1
    have hb2 : Benign current tolerance cur r0.2 h2 :=
      benign_modifySlot current tolerance e2 (fun _ => ⟨rfl, rfl, rfl⟩)
    obtain ⟨sc2, hi2, hsn2⟩ := hb2.poolInv hi1
    have hsc2 : h2.slotAt cur = some { sc1 with hits := sc1.hits + 1 } := by
      rw [hat2 cur, if_pos rfl]
    have hsc2' : sc2 = { sc1 with hits := sc1.hits + 1 } := by
      have := hi2.1
      rw [hsc2] at this; injection this with this; exact this.symm
    have hnfuel : ns.length ≤ h2.nodeFuel := by
      have hw : walk h.nodeNext h.nodeFuel sc.nodes = some ns := by
        unfold Registry.poolNodes at hns
        simpa [hsc] using hns
      have := walk_length _ _ _ _ hw
      simpa [Registry.nodeFuel, hn2, hnodes1] using this
    have hi2' : PoolInv h2 cur sc2 ([] ++ ns) := by simpa using hi2
    obtain ⟨r, hr, hfr, hkp, -⟩ :=
      node_loop_keeps current tolerance cur ns h2 [] h2.nodeFuel sc2.nodes 0 sc2 hi2' hi2.2.1 hnfuel
    refine ⟨r, ?_, fun a ha => ?_⟩
    · simp only [Option.bind_eq_bind, hr0, Option.some_bind, hsome, e2, hsc2]
      rw [hsc2'] at hr
      exact hr
    · -- the memory before the loop agrees with the initial one on nodes and node lists
      have hnodeAt2 : ∀ x, h2.nodeAt x = h.nodeAt x := fun x => by
        simp only [Registry.nodeAt, hn2, hnodes1]
      by_cases hac : a = cur
      · subst hac
        intro n nd hnd hpos hmem
        obtain ⟨ns', hns', hnmem⟩ := hmem
        have hns'' : h.poolNodes a = some ns' := hns'
        rw [hns] at hns''; injection hns'' with hns''; subst hns''
        exact hkp n nd (by rw [hnodeAt2]; exact hnd) hpos
          ⟨ns, poolNodes_of_seg hi2.1 hi2.2.1, hnmem⟩
      · intro n nd hnd hpos hmem
        obtain ⟨ns', hns', hnmem⟩ := hmem
        obtain ⟨nsa, hnsa, -, hbacka⟩ := hpools a ha
        have hnsa' : h.poolNodes a = some nsa := hnsa
        have hns'' : h.poolNodes a = some ns' := hns'
        rw [hnsa'] at hns''; injection hns'' with hns''; subst hns''
        -- the pool `a` in the memory before the loop
        have hf02 : FrameOutside cur h h2 := by
          refine ⟨fun b hb => ?_, fun x y hy _ => by rw [hnodeAt2]; exact hy⟩
          rw [hat2 b, if_neg hb]
          exact hcore.2.2 b
        obtain ⟨hp1, hn1⟩ := frame_pool (hf02.frame_trans hfr) hac hnsa' hbacka
        exact ⟨nd, by rw [hn1 n hnmem]; exact hnd, rfl, le_refl _, hpos, nsa, hp1, hnmem⟩

/-- The well-formed case at `busy_and_idle`, with both nodes stale at the time of the select. -/
theorem select_keeps_referenced_nodes_witness :
    WellFormed busy_and_idle ∧
      ∃ r, uwsgi_get_subscribe_node sample_pcre 10 busy_and_idle [107] 1 false 11 = some r ∧
        ∀ l a n nd, busy_and_idle.pools = some l → a ∈ l →
          (∃ ns ∈ busy_and_idle.poolNodes a, n ∈ ns) →
          busy_and_idle.nodeAt n = some nd →
          (0 < nd.reference ∨ (nd.death_mark = false ∧ 11 - nd.last_check ≤ 10)) →
          ∃ nd1, r.2.nodeAt n = some nd1 ∧ nd1.slot = nd.slot ∧
            nd.reference ≤ nd1.reference ∧ ∃ ns1 ∈ r.2.poolNodes a, n ∈ ns1 :=
  ⟨by decide,
    select_keeps_referenced_nodes sample_pcre 10 busy_and_idle [107] 1 false 11 (by decide)⟩

/-! ## Claims C11 to C20 -/

/-- C11: after `pattern_order_ops` (pattern announcements, one pattern-mode select and its
release only) the registry is pool 1 followed by pool 0, with `keylen` 3 and 2: the
literal lookup at the start of the last announcement promoted the pool of the longer
pattern, which had gained a hit, over the pool of the shorter one. -/
theorem pattern_order_broken :
    ∃ r ∈ run sample_pcre 10 Registry.empty pattern_order_ops,
      r.1 = [some 0, some 1, some 1, none, some 1] ∧ r.2.pools = some [1, 0] ∧
      [1, 0].map (fun a => (r.2.slotAt a).map (fun s => (s.keylen, s.pattern.isSome))) =
        [some (3, true), some (2, true)] := by
  decide

/-- C12: after `mixed_mode_ops` the registry is the pools 0, 1, 3 and pool 3 (key `[2, 2]`)
has one hit.  A literal lookup of `[2, 2]` hits pool 3, at index 2, and leaves the registry
as the pools 0, 1: pool 3 is no longer in the registry, so it has no index afterwards. -/
theorem promotion_drops_hit_pool :
    ∃ r ∈ run sample_pcre 10 Registry.empty mixed_mode_ops,
      r.2.pools = some [0, 1, 3] ∧ (r.2.slotAt 3).map (fun s => s.hits) = some 1 ∧
      ∃ r' ∈ uwsgi_get_subscribe_slot sample_pcre r.2 [2, 2] 2 false,
        r'.1 = some 3 ∧ r'.2.pools = some [0, 1] := by
  decide

/-- C19: after `mixed_mode_ops` a literal select of key `[2, 2]` returns node 3, whose
`slot` is pool 3; pool 3 has the requested key and holds node 3, but the registry walked
from the head is the pools 0, 1: the pool of the returned node is not reachable. -/
theorem select_returns_node_of_lost_pool :
    ∃ r ∈ run sample_pcre 10 Registry.empty mixed_mode_ops,
      ∃ r' ∈ uwsgi_get_subscribe_node sample_pcre 10 r.2 [2, 2] 2 false 0,
        r'.1 = some 3 ∧ (r'.2.nodeAt 3).map (fun n => n.slot) = some (some 3) ∧
        (r'.2.slotAt 3).map (fun s => s.key) = some [2, 2] ∧
        r'.2.poolNodes 3 = some [3] ∧ r'.2.pools = some [0, 1] := by
  decide

/-- C20: after `duplicate_key_ops` (literal announcements with keys and names of one
byte, selects, releases and removals) the registry is the pools 1, 4, 2, 5 with the keys
`[1]`, `[0]`, `[2]`, `[0]`: the pools 4 and 5 are both reachable and have equal keys. -/
theorem registry_holds_equal_keys :
    ∃ r ∈ run sample_pcre 10 Registry.empty duplicate_key_ops,
      r.2.pools = some [1, 4, 2, 5] ∧
      [1, 4, 2, 5].map (fun a => (r.2.slotAt a).map (fun s => (s.key, s.keylen))) =
        [some ([1], 1), some ([0], 1), some ([2], 1), some ([0], 1)] := by
  decide
theorem select_one_node_wrap (rx : Pcre) (tolerance : Int) (k a : List Nat) (t t2 : Int)
    (hits rr ref : Nat) (hk : k.length ≤ 0xff) (ht : t2 - t ≤ tolerance) :
    uwsgi_get_subscribe_node rx tolerance (one_node k a t hits (rr + 1) ref false) k k.length false t2 =
      some (some 0, one_node k a t (hits + 1) 0 (ref + 1) false) := by
  have hk' : ¬ (k.length > 0xff) := by omega
  have ht' : ¬ (t2 - t > tolerance) := by omega
  unfold uwsgi_get_subscribe_node
  rw [if_neg hk']
  simp only [get_slot_one_node rx k a t hits (rr + 1) ref false hk, Option.bind_eq_bind, Option.some_bind]
  simp [one_node, Registry.slotAt, cell, node_loop, node_wrap, Registry.nodeFuel, Registry.nodeAt, Registry.modifyNode, Registry.modifySlot, ht']

theorem release_one_node (k a : List Nat) (t : Int) (hits rr ref : Nat) (dm : Bool) :
    release (one_node k a t hits rr (ref + 1) dm) 0 = some (one_node k a t hits rr ref dm) := by
  simp [release, one_node, Registry.modifyNode, Registry.nodeAt, cell]

theorem run_cons (rx : Pcre) (tolerance : Int) (h : Registry) (op : Op) (ops : List Op) :
    run rx tolerance h (op :: ops) = (op.exec rx tolerance h).bind (fun r =>
      (run rx tolerance r.2 ops).bind (fun rs => some (r.1 :: rs.1, rs.2))) := rfl

theorem select_release_one_node (rx : Pcre) (tolerance : Int) (k a : List Nat) (t t2 : Int)
    (hits rr : Nat) (hk : k.length ≤ 0xff) (ht : t2 - t ≤ tolerance) (rest : List Op) :
    run rx tolerance (one_node k a t hits rr 0 false) (select_release k t2 0 ++ rest) =
      (run rx tolerance (one_node k a t (hits + 1) (if rr = 0 then 1 else 0) 0 false) rest).map
        (fun r => (some 0 :: none :: r.1, r.2)) := by
  have e : select_release k t2 0 ++ rest = .select k k.length false t2 :: .release 0 :: rest := rfl
  rw [e]
  cases rr with
  | zero =>
    simp only [run, Op.exec,
      select_one_node rx tolerance k a t t2 hits 0 hk ht, release_one_node,
      Option.bind_eq_bind, Option.some_bind, Option.map_some', if_true]
    cases run rx tolerance (one_node k a t (hits + 1) 1 0 false) rest <;> rfl
  | succ rr =>
    simp only [run, Op.exec,
      select_one_node_wrap rx tolerance k a t t2 hits rr 0 hk ht, release_one_node,
      Option.bind_eq_bind, Option.some_bind, Option.map_some', Nat.succ_ne_zero, if_false]
    cases run rx tolerance (one_node k a t (hits + 1) 0 0 false) rest <;> rfl

/-- C16: one node announced for key `[107]` in the empty registry and selected three
times within the tolerance, each handle released: the three selects return node 0 and the
pool then has `hits == 3` and `rr == 1`, not 3. -/
theorem single_node_rr_is_one :
    ∃ r ∈ run sample_pcre 10 Registry.empty
        ([.announce (mkreq [107] [1]) false 0] ++ select_release [107] 0 0 ++
          select_release [107] 0 0 ++ select_release [107] 0 0),
      r.1 = [some 0, some 0, none, some 0, none, some 0, none] ∧
      (r.2.slotAt 0).map (fun s => (s.hits, s.rr)) = some (3, 1) := by
  decide

/-- C16, as the code behaves: one node announced at time `t` under a literal key (key and
name of at most 255 bytes) in the empty registry, then three selects of that key at times
within the tolerance of `t`, each followed by the release of the handle.  All three selects
return that node (address 0), the pool ends with `hits == 3` and `rr == 1` and the node
with reference 0; a fourth such select returns the node again, makes `hits` 4 and resets
`rr` to 0. -/
theorem single_node_steady_state (rx : Pcre) (tolerance : Int) (k a : List Nat)
    (t t1 t2 t3 t4 : Int) (hk : k.length ≤ 0xff) (ha : a.length ≤ 0xff)
    (h1 : t1 - t ≤ tolerance) (h2 : t2 - t ≤ tolerance) (h3 : t3 - t ≤ tolerance)
    (h4 : t4 - t ≤ tolerance) :
    run rx tolerance Registry.empty
        ([.announce (mkreq k a) false t] ++ select_release k t1 0 ++ select_release k t2 0 ++
          select_release k t3 0) =
      some ([some 0, some 0, none, some 0, none, some 0, none], one_node k a t 3 1 0 false) ∧
    uwsgi_get_subscribe_node rx tolerance (one_node k a t 3 1 0 false) k k.length false t4 =
      some (some 0, one_node k a t 4 0 1 false) := by
  refine ⟨?_, select_one_node_wrap rx tolerance k a t t4 3 0 0 hk h4⟩
  have e : [Op.announce (mkreq k a) false t] ++ select_release k t1 0 ++ select_release k t2 0 ++
      select_release k t3 0 = Op.announce (mkreq k a) false t ::
        (select_release k t1 0 ++ (select_release k t2 0 ++ (select_release k t3 0 ++ []))) := by
    simp
  rw [e, run_cons]
  simp only [Op.exec, announce_first rx k a t hk ha, Option.some_bind]
  rw [select_release_one_node rx tolerance k a t _ _ _ hk h1,
    select_release_one_node rx tolerance k a t _ _ _ hk h2,
    select_release_one_node rx tolerance k a t _ _ _ hk h3]
  rfl

theorem single_node_steady_state_witness :
    run sample_pcre 10 Registry.empty
        ([.announce (mkreq [107] [1]) false 0] ++ select_release [107] 1 0 ++
          select_release [107] 2 0 ++ select_release [107] 3 0) =
      some ([some 0, some 0, none, some 0, none, some 0, none],
        one_node [107] [1] 0 3 1 0 false) ∧
    uwsgi_get_subscribe_node sample_pcre 10 (one_node [107] [1] 0 3 1 0 false) [107]
        [107].length false 4 = some (some 0, one_node [107] [1] 0 4 0 1 false) :=
  single_node_steady_state sample_pcre 10 [107] [1] 0 1 2 3 4 (by decide) (by decide)
    (by decide) (by decide) (by decide) (by decide)
theorem ssb_put_eq (src : List Nat) (h : src.length < 65536) :
    ssb_put src.length src = len16 src.length ++ src := by
  have e1 : src.length % 2 ^ 16 = src.length := Nat.mod_eq_of_lt (by omega)
  have e2 : src.length &&& 0xff = src.length % 256 := Nat.and_pow_two_sub_one_eq_mod src.length 8
  have e3 : (src.length >>> 8) &&& 0xff = src.length / 256 := by
    have := Nat.and_pow_two_sub_one_eq_mod (src.length >>> 8) 8
    rw [Nat.shiftRight_eq_div_pow] at this ⊢
    have h4 : src.length / 2 ^ 8 % 2 ^ 8 = src.length / 256 := by omega
    exact this.trans h4
  simp only [ssb_put, e1, e2, e3, List.take_length, len16]

theorem read_item_wire (src rest : List Nat) :
    read_item (len16 src.length ++ src ++ rest) = some (src, rest) := by
  have e : src.length % 256 + 256 * (src.length / 256) = src.length := Nat.mod_add_div _ _
  simp [len16, read_item, e]

theorem read_pairs_step (fuel : Nat) (b : List Nat) (hb : b ≠ []) :
    read_pairs (fuel + 1) b = (read_item b).bind (fun k => (read_item k.2).bind (fun v =>
      (read_pairs fuel v.2).bind (fun ps => some ((k.1, v.1) :: ps)))) := by
  cases b with
  | nil => exact absurd rfl hb
  | cons x xs => rfl

theorem read_pairs_wire (fuel : Nat) (k v rest : List Nat) :
    read_pairs (fuel + 1) (wire_pair k v ++ rest) =
      (read_pairs fuel rest).bind (fun ps => some ((k, v) :: ps)) := by
  have e : wire_pair k v ++ rest = len16 k.length ++ k ++ (len16 v.length ++ v ++ rest) := by
    simp [wire_pair]
  have hb : len16 k.length ++ k ++ (len16 v.length ++ v ++ rest) ≠ [] := by simp [len16]
  rw [e, read_pairs_step fuel _ hb, read_item_wire k, Option.some_bind, read_item_wire v,
    Option.some_bind]

theorem read_pairs_nil (fuel : Nat) : read_pairs fuel [] = some [] := by
  cases fuel <;> rfl

/-- C14: for a key, a socket name and an optional modifier1 string, each shorter than 65536
bytes, the body that `uwsgi_send_subscription` hands to `send_udp_message` is the
concatenation of the pairs `[len16-LE][bytes][len16-LE][bytes]` for `("key", key)`,
`("address", name)` and, when modifier1 is given, `("modifier1", modifier1)`; the size
passed along (`ssb_size - 4`) is the number of bytes written; and decoding the body by the
wire format of section 6.2 gives back the key, the name and the modifier1 string. -/
theorem announcement_round_trip (udp_address key name : List Nat)
    (modifier1 : Option (List Nat)) (cmd : Nat)
    (hk : key.length < 65536) (hn : name.length < 65536)
    (hm : ∀ m ∈ modifier1, m.length < 65536) :
    (uwsgi_send_subscription udp_address key key.length name modifier1
        (modifier1.elim 0 List.length) cmd).body =
      wire_pair str_key key ++ wire_pair str_address name ++
        (match modifier1 with
         | some m => wire_pair str_modifier1 m
         | none => []) ∧
    (uwsgi_send_subscription udp_address key key.length name modifier1
        (modifier1.elim 0 List.length) cmd).size =
      (uwsgi_send_subscription udp_address key key.length name modifier1
        (modifier1.elim 0 List.length) cmd).body.length ∧
    decode_announcement (uwsgi_send_subscription udp_address key key.length name modifier1
        (modifier1.elim 0 List.length) cmd).body =
      some { key := key, address := name, modifier1 := modifier1 } := by
  have k3 : ssb_put 3 str_key = len16 str_key.length ++ str_key := ssb_put_eq str_key (by decide)
  have k7 : ssb_put 7 str_address = len16 str_address.length ++ str_address :=
    ssb_put_eq str_address (by decide)
  have k9 : ssb_put 9 str_modifier1 = len16 str_modifier1.length ++ str_modifier1 :=
    ssb_put_eq str_modifier1 (by decide)
  cases modifier1 with
  | none =>
    have hbody : (uwsgi_send_subscription udp_address key key.length name none
        0 cmd).body =
        wire_pair str_key key ++ (wire_pair str_address name ++ []) := by
      simp only [uwsgi_send_subscription, k3, k7, ssb_put_eq key hk, ssb_put_eq name hn,
        wire_pair, List.append_assoc, List.append_nil]
    simp only [Option.elim]
    refine ⟨by rw [hbody]; simp, ?_, ?_⟩
    · rw [hbody]
      simp [uwsgi_send_subscription, wire_pair, len16, str_key, str_address]
      omega
    · rw [hbody]
      have hlen : (wire_pair str_key key ++ (wire_pair str_address name ++ [])).length =
          key.length + name.length + 16 + 2 := by
        simp [wire_pair, len16, str_key, str_address]
        omega
      simp only [decode_announcement, hlen, read_pairs_wire, read_pairs_nil, Option.bind_eq_bind,
        Option.some_bind]
      simp [List.lookup, str_key, str_address, str_modifier1]
  | some m =>
    have hml : m.length < 65536 := hm m rfl
    have hbody : (uwsgi_send_subscription udp_address key key.length name (some m)
        m.length cmd).body =
        wire_pair str_key key ++ (wire_pair str_address name ++ (wire_pair str_modifier1 m ++ [])) := by
      simp only [uwsgi_send_subscription, k3, k7, k9, ssb_put_eq key hk,
        ssb_put_eq name hn, ssb_put_eq m hml, wire_pair, List.append_assoc, List.append_nil]
    simp only [Option.elim]
    refine ⟨by rw [hbody]; simp, ?_, ?_⟩
    · rw [hbody]
      simp [uwsgi_send_subscription, wire_pair, len16, str_key, str_address, str_modifier1]
      omega
    · rw [hbody]
      have hlen : (wire_pair str_key key ++ (wire_pair str_address name ++
          (wire_pair str_modifier1 m ++ []))).length =
          key.length + name.length + m.length + 28 + 3 := by
        simp [wire_pair, len16, str_key, str_address, str_modifier1]
        omega
      simp only [decode_announcement, hlen, read_pairs_wire, read_pairs_nil, Option.bind_eq_bind,
        Option.some_bind]
      simp [List.lookup, str_key, str_address, str_modifier1]

theorem announcement_round_trip_witness :
    (uwsgi_send_subscription [9] [97, 98] [97, 98].length [49, 50, 51] (some [53])
        ((some [53]).elim 0 List.length) 0).body =
      wire_pair str_key [97, 98] ++ wire_pair str_address [49, 50, 51] ++
        (match (some [53] : Option (List Nat)) with
         | some m => wire_pair str_modifier1 m
         | none => []) ∧
    (uwsgi_send_subscription [9] [97, 98] [97, 98].length [49, 50, 51] (some [53])
        ((some [53]).elim 0 List.length) 0).size =
      (uwsgi_send_subscription [9] [97, 98] [97, 98].length [49, 50, 51] (some [53])
        ((some [53]).elim 0 List.length) 0).body.length ∧
    decode_announcement (uwsgi_send_subscription [9] [97, 98] [97, 98].length [49, 50, 51]
        (some [53]) ((some [53]).elim 0 List.length) 0).body =
      some { key := [97, 98], address := [49, 50, 51], modifier1 := some [53] } :=
  announcement_round_trip [9] [97, 98] [49, 50, 51] (some [53]) 0 (by decide) (by decide)
    (by decide)
theorem hasKey_iff (h : Registry) (key : List Nat) (keylen a : Nat) :
    h.hasKey key keylen a = true ↔
      ∃ s, h.slotAt a = some s ∧ s.keylen = keylen ∧ s.key.take keylen = key.take keylen := by
  unfold Registry.hasKey
  cases hs : h.slotAt a with
  | none => simp
  | some s =>
    simp only [uwsgi_strncmp, beq_iff_eq, Option.some.injEq, exists_eq_left']
    constructor
    · intro hx
      by_cases h1 : keylen ≠ s.keylen
      · simp [h1] at hx
      · have h1' : keylen = s.keylen := by simpa using h1
        by_cases h2 : key.take s.keylen = s.key.take s.keylen
        · exact ⟨h1'.symm, by rw [h1']; exact h2.symm⟩
        · simp [h1', h2] at hx
    · rintro ⟨h1, h2⟩
      subst h1
      simp [h2]

/-- An announcement with the regexp flag set and a key of at most 255 bytes that compares
equal to the key of no pool of the registry, on a registry whose pool list can be walked,
with a pattern that `uwsgi_regexp_build` rejects: `uwsgi_add_subscribe_node` returns
`NULL`; the pool it allocated is freed again, so afterwards every address holds the pool
and the node it held before, the head is the same and the registry is the same list of
pools. -/
theorem failed_pattern_leaves_registry (rx : Pcre) (h : Registry) (usr : uwsgi_subscribe_req)
    (now : Int) (l : List Nat) (hk : usr.keylen ≤ 0xff) (hl : h.pools = some l)
    (hno : ∀ a ∈ l, h.hasKey usr.key usr.keylen a = false)
    (hfail : rx.uwsgi_regexp_build (usr.key.take usr.keylen) ≠ 0) :
    ∃ r, uwsgi_add_subscribe_node rx h usr true now = some r ∧ r.1 = none ∧
      r.2.head = h.head ∧ r.2.nodes = h.nodes ∧ (∀ a, r.2.slotAt a = h.slotAt a) ∧
      r.2.pools = some l := by
  have hfind : l.find? (h.hasKey usr.key usr.keylen) = none := by
    rw [List.find?_eq_none]
    intro a ha
    simp [hno a ha]
  have hk' : ¬ usr.keylen > 0xff := by omega
  have hk2 : ¬ usr.keylen > key_room := by unfold key_room; omega
  have hget : uwsgi_get_subscribe_slot rx h usr.key usr.keylen false = some (none, h) := by
    unfold uwsgi_get_subscribe_slot
    rw [if_neg hk', slot_loop_literal rx usr.key usr.keylen h l _ _ (seg_of_pools hl)
      (walk_length _ _ _ _ hl), hfind]
  unfold uwsgi_add_subscribe_node
  simp only [hget, Option.bind_eq_bind, Option.some_bind]
  by_cases ha : usr.address_len > 0xff
  · rw [if_pos ha]
    exact ⟨_, rfl, rfl, rfl, rfl, fun _ => rfl, hl⟩
  · rw [if_neg ha]
    have hat : ∀ a, cell ((h.slots ++ [some
        ({ key := usr.key.take usr.keylen, keylen := usr.keylen, hits := 0, rr := 0,
           nodes := none, prev := none, next := none, pattern := none } :
          uwsgi_subscribe_slot)]).set h.slots.length none) a = cell h.slots a := by
      intro a
      by_cases hal : a = h.slots.length
      · subst hal
        rw [cell_set_self _ _ _ (by simp)]
        unfold cell
        rw [List.getElem?_eq_none (le_refl _)]
      · rw [cell_set_other _ _ _ _ hal]
        by_cases hlt : a < h.slots.length
        · exact cell_append_old _ _ _ hlt
        · unfold cell
          rw [List.getElem?_eq_none (by simp; omega), List.getElem?_eq_none (by omega)]
    have hnew : new_slot rx h usr true now = some (none, ({ h with slots := ((h.slots ++ [some
        ({ key := usr.key.take usr.keylen, keylen := usr.keylen, hits := 0, rr := 0,
           nodes := none, prev := none, next := none, pattern := none } :
          uwsgi_subscribe_slot)]).set h.slots.length none) } : Registry)) := by
      simp [new_slot, hk2, hfail, Registry.freeSlot, Registry.slotAt, cell]
    refine ⟨_, hnew, rfl, rfl, rfl, fun a => hat a, ?_⟩
    · have hs : Seg h.slotNext h.head l none := seg_of_pools hl
      apply pools_of_seg
      show Seg _ h.head l none
      exact Seg.congr (fun x _ => by simp only [Registry.slotNext, Registry.slotAt, hat]) hs

theorem failed_pattern_leaves_registry_witness :
    ∃ r, uwsgi_add_subscribe_node failing_pcre two_pools (mkreq [40] [7]) true 5 = some r ∧
      r.1 = none ∧ r.2.head = two_pools.head ∧ r.2.nodes = two_pools.nodes ∧
      (∀ a, r.2.slotAt a = two_pools.slotAt a) ∧ r.2.pools = some [0, 1] :=
  failed_pattern_leaves_registry failing_pcre two_pools (mkreq [40] [7]) 5 [0, 1] (by decide)
    (by decide) (by decide) (by decide)

/-- C15: on `two_pools` an announcement with the regexp flag set, a key of 65535 bytes
(which no pool has: the lookup returns `NULL` and leaves the memory alone) and a pattern
that `uwsgi_regexp_build` rejects.  Nothing in `uwsgi_add_subscribe_node` rejects the key
length, and the key is copied into the new pool before the pattern is compiled: the copy
runs past the key buffer and the call has no defined result. -/
theorem failed_pattern_overruns_key :
    uwsgi_get_subscribe_slot failing_pcre two_pools huge_key_req.key huge_key_req.keylen false =
      some (none, two_pools) ∧
    failing_pcre.uwsgi_regexp_build (huge_key_req.key.take huge_key_req.keylen) ≠ 0 ∧
    uwsgi_add_subscribe_node failing_pcre two_pools huge_key_req true 0 = none := by
  refine ⟨rfl, by decide, rfl⟩

/-- C17: on a well-formed registry `uwsgi_get_subscribe_slot` with `regexp == 0` returns.
For `keylen > 255` it returns `NULL` and the memory is untouched.  For `keylen <= 255` it
returns a pool exactly when some pool of the registry has the given length as `keylen` and
the given bytes as key; the pool it returns is in the registry when the call returns and
has that length and those bytes. -/
theorem literal_lookup_correct (rx : Pcre) (h : Registry) (key : List Nat) (keylen : Nat)
    (hwf : WellFormed h) :
    ∃ r, uwsgi_get_subscribe_slot rx h key keylen false = some r ∧
      (keylen > 0xff → r = (none, h)) ∧
      (keylen ≤ 0xff →
        (r.1.isSome ↔ ∃ l, h.pools = some l ∧ ∃ a ∈ l, ∃ s, h.slotAt a = some s ∧
            s.keylen = keylen ∧ s.key.take keylen = key.take keylen) ∧
        ∀ cur ∈ r.1, (∃ l', r.2.pools = some l' ∧ cur ∈ l') ∧
          ∃ s, r.2.slotAt cur = some s ∧ s.keylen = keylen ∧
            s.key.take keylen = key.take keylen) := by
  obtain ⟨l, hl, hprev, -⟩ := hwf
  have hl : h.pools = some l := hl
  obtain ⟨h', hget, l', hl', hperm⟩ := get_slot_literal rx key keylen hl hprev
  refine ⟨_, hget, ?_, ?_⟩
  · intro hk
    have := hget
    unfold uwsgi_get_subscribe_slot at this
    rw [if_pos hk] at this
    exact (Option.some.inj this).symm
  · intro hk
    have hk' : ¬ keylen > 0xff := by omega
    simp only [if_neg hk']
    have hsc := get_slot_sameCore hget
    have hmem : ∀ cur, cur ∈ l → cur ∈ l' := by
      intro cur hc
      rcases hperm with rfl | ⟨pre, q, c, post, rfl, rfl, -, -⟩
      · exact hc
      · simp only [List.mem_append, List.mem_cons] at hc ⊢
        tauto
    constructor
    · constructor
      · intro hsome
        obtain ⟨cur, hcur⟩ := Option.isSome_iff_exists.mp hsome
        have hin := List.mem_of_find?_eq_some hcur
        have hkey := List.find?_some hcur
        exact ⟨l, hl, cur, hin, (hasKey_iff h key keylen cur).mp hkey⟩
      · rintro ⟨l0, hl0, a, ha, hs⟩
        rw [hl] at hl0
        injection hl0 with hl0
        subst hl0
        have hkey := (hasKey_iff h key keylen a).mpr hs
        cases hf : l.find? (h.hasKey key keylen) with
        | some c => rfl
        | none =>
          rw [List.find?_eq_none] at hf
          exact absurd hkey (hf a ha)
    · intro cur hcur
      have hcur : l.find? (h.hasKey key keylen) = some cur := hcur
      have hin := List.mem_of_find?_eq_some hcur
      obtain ⟨s, hs, hkl, hkb⟩ := (hasKey_iff h key keylen cur).mp (List.find?_some hcur)
      refine ⟨⟨l', hl', hmem cur hin⟩, ?_⟩
      have hcore := hsc.2.2 cur
      have hcore : (h'.slotAt cur).map uwsgi_subscribe_slot.core =
          (h.slotAt cur).map uwsgi_subscribe_slot.core := hcore
      rw [hs] at hcore
      obtain ⟨s', hs', hcs⟩ := Option.map_eq_some'.mp hcore
      refine ⟨s', hs', ?_, ?_⟩
      · have : s'.core.keylen = s.core.keylen := by rw [hcs]
        exact this.trans hkl
      · have : s'.core.key = s.core.key := by rw [hcs]
        have this : s'.key = s.key := this
        rw [this]; exact hkb

theorem literal_lookup_correct_witness :
    WellFormed two_pools ∧
    ∃ r, uwsgi_get_subscribe_slot sample_pcre two_pools [2] 1 false = some r ∧
      (1 > 0xff → r = (none, two_pools)) ∧
      (1 ≤ 0xff →
        (r.1.isSome ↔ ∃ l, two_pools.pools = some l ∧ ∃ a ∈ l, ∃ s,
            two_pools.slotAt a = some s ∧ s.keylen = 1 ∧ s.key.take 1 = [2].take 1) ∧
        ∀ cur ∈ r.1, (∃ l', r.2.pools = some l' ∧ cur ∈ l') ∧
          ∃ s, r.2.slotAt cur = some s ∧ s.keylen = 1 ∧ s.key.take 1 = [2].take 1) :=
  ⟨by decide, literal_lookup_correct sample_pcre two_pools [2] 1 (by decide)⟩
theorem refStep_of_nodes {h h1 : Registry} (hn : h1.nodes = h.nodes) : RefStep none h h1 := by
  intro n nd1 h1n
  refine ⟨nd1, ?_, by simp⟩
  simpa only [Registry.nodeAt, hn] using h1n

theorem refStep_trans {N : Option Nat} {h h1 h2 : Registry} (s1 : RefStep none h h1)
    (s2 : RefStep N h1 h2) : RefStep N h h2 := by
  intro n nd2 h2n
  obtain ⟨nd1, h1n, e1⟩ := s2 n nd2 h2n
  obtain ⟨nd, hn, e⟩ := s1 n nd1 h1n
  refine ⟨nd, hn, ?_⟩
  rw [e1, e]
  simp

theorem refStep_modifyNode {h h1 : Registry} {p : Nat}
    {f : uwsgi_subscribe_node → uwsgi_subscribe_node} (hm : h.modifyNode p f = some h1)
    (hf : ∀ x, (f x).reference = x.reference) : RefStep none h h1 := by
  intro n nd1 h1n
  rw [modifyNode_nodeAt hm] at h1n
  by_cases hnp : n = p
  · rw [if_pos hnp] at h1n
    obtain ⟨nd, hnd, e⟩ := Option.map_eq_some'.mp h1n
    subst hnp
    exact ⟨nd, hnd, by rw [← e, hf]; simp⟩
  · rw [if_neg hnp] at h1n
    exact ⟨nd1, h1n, by simp⟩

theorem refStep_take {h h1 : Registry} {p : Nat}
    (hm : h.modifyNode p (fun x => { x with reference := x.reference + 1 }) = some h1) :
    RefStep (some p) h h1 ∧ ∃ nd1, h1.nodeAt p = some nd1 := by
  constructor
  · intro n nd1 h1n
    rw [modifyNode_nodeAt hm] at h1n
    by_cases hnp : n = p
    · rw [if_pos hnp] at h1n
      obtain ⟨nd, hnd, e⟩ := Option.map_eq_some'.mp h1n
      subst hnp
      exact ⟨nd, hnd, by rw [← e]; simp⟩
    · rw [if_neg hnp] at h1n
      refine ⟨nd1, h1n, ?_⟩
      have : ¬ (some p = some n) := fun e => hnp (Option.some.inj e).symm
      simp [this]
  · obtain ⟨nd, hnd, -⟩ := modifyNode_inv hm
    rw [modifyNode_nodeAt hm, if_pos rfl, hnd]
    exact ⟨_, rfl⟩

theorem refStep_freeNode {h h1 : Registry} {p : Nat} (hm : h.freeNode p = some h1) :
    RefStep none h h1 := by
  unfold Registry.freeNode at hm
  cases hp : h.nodeAt p with
  | none => rw [hp] at hm; simp at hm
  | some nd =>
    obtain ⟨h1', e, hat, -⟩ := freeNode_ex hp
    unfold Registry.freeNode at e
    rw [hm] at e
    injection e with e
    subst e
    intro n nd1 h1n
    rw [hat n] at h1n
    by_cases hnp : n = p
    · rw [if_pos hnp] at h1n; simp at h1n
    · rw [if_neg hnp] at h1n
      exact ⟨nd1, h1n, by simp⟩

theorem freeSlot_nodes {h h1 : Registry} {p : Nat} (hm : h.freeSlot p = some h1) :
    h1.nodes = h.nodes := by
  unfold Registry.freeSlot at hm
  cases hp : h.slotAt p with
  | none => rw [hp] at hm; simp at hm
  | some s =>
    rw [hp] at hm
    injection hm with hm
    subst hm
    rfl

theorem unlink_loop_refStep (node : Nat) :
    ∀ (fuel : Nat) (h : Registry) (p : Option Nat) (h1 : Registry),
      unlink_loop node fuel h p = some h1 → RefStep none h h1 := by
  intro fuel
  induction fuel with
  | zero =>
    intro h p h1 hr
    cases p with
    | none => simp [unlink_loop] at hr; subst hr; exact refStep_of_nodes rfl
    | some a => simp [unlink_loop] at hr
  | succ fuel ih =>
    intro h p h1 hr
    cases p with
    | none => simp [unlink_loop] at hr; subst hr; exact refStep_of_nodes rfl
    | some a =>
      simp only [unlink_loop, Option.bind_eq_bind, Option.bind_eq_some] at hr
      obtain ⟨an, -, hr⟩ := hr
      split at hr
      · simp only [Option.bind_eq_bind, Option.bind_eq_some] at hr
        obtain ⟨nd, -, hr⟩ := hr
        exact refStep_modifyNode hr (fun _ => rfl)
      · exact ih _ _ _ hr

theorem remove_refStep {h : Registry} {node : Nat} {r : Nat × Registry}
    (hr : uwsgi_remove_subscribe_node h node = some r) : RefStep none h r.2 := by
  unfold uwsgi_remove_subscribe_node at hr
  simp only [Option.bind_eq_bind, Option.bind_eq_some] at hr
  obtain ⟨nd, -, node_slot, -, ns, -, h1, e1, h2, e2, h3, e3, ns3, -, hr⟩ := hr
  have s1 : RefStep none h h1 := refStep_modifyNode e1 (fun _ => rfl)
  have s2 : RefStep none h1 h2 := by
    split at e2
    · simp only [Option.bind_eq_bind, Option.bind_eq_some] at e2
      obtain ⟨nd1, -, e2⟩ := e2
      exact refStep_of_nodes (modifySlot_nodes e2)
    · exact unlink_loop_refStep _ _ _ _ _ e2
  have s3 : RefStep none h2 h3 := refStep_freeNode e3
  have s03 := refStep_trans s1 (refStep_trans s2 s3)
  split at hr
  · simp only [Option.bind_eq_bind, Option.bind_eq_some] at hr
    obtain ⟨h4, e4, h5, e5, h6, e6, hr⟩ := hr
    have n4 : h4.nodes = h3.nodes := by
      split at e4
      · exact modifySlot_nodes e4
      · injection e4 with e4; rw [e4]
    have n5 : h5.nodes = h4.nodes := by
      split at e5
      · exact modifySlot_nodes e5
      · injection e5 with e5; rw [e5]
    have n6 : h6.nodes = h5.nodes := freeSlot_nodes e6
    have s36 : RefStep none h3 h6 := refStep_of_nodes (n6.trans (n5.trans n4))
    split at hr
    · injection hr with hr; subst hr
      exact refStep_trans s03 (refStep_trans s36 (refStep_of_nodes rfl))
    · injection hr with hr; subst hr
      exact refStep_trans s03 s36
  · injection hr with hr; subst hr
    exact s03

theorem node_wrap_refStep {h : Registry} {cur : Nat} {r : Option Nat × Registry}
    (hr : node_wrap h cur = some r) :
    RefStep r.1 h r.2 ∧ ∀ N ∈ r.1, ∃ nd1, r.2.nodeAt N = some nd1 := by
  unfold node_wrap at hr
  simp only [Option.bind_eq_bind, Option.bind_eq_some] at hr
  obtain ⟨h1, e1, s, -, hr⟩ := hr
  have s1 : RefStep none h h1 := refStep_of_nodes (modifySlot_nodes e1)
  split at hr
  · simp only [Option.bind_eq_bind, Option.bind_eq_some] at hr
    obtain ⟨h2, e2, hr⟩ := hr
    injection hr with hr; subst hr
    obtain ⟨s2, hex⟩ := refStep_take e2
    refine ⟨refStep_trans s1 s2, fun N hN => ?_⟩
    have : N = _ := (Option.some.inj hN).symm
    subst this
    exact hex
  · injection hr with hr; subst hr
    exact ⟨s1, fun N hN => by simp at hN⟩

theorem node_loop_refStep (current tolerance : Int) (cur : Nat) :
    ∀ (fuel : Nat) (h : Registry) (p : Option Nat) (rr_pos : Nat) (r : Option Nat × Registry),
      node_loop current tolerance cur fuel h p rr_pos = some r →
      RefStep r.1 h r.2 ∧ ∀ N ∈ r.1, ∃ nd1, r.2.nodeAt N = some nd1 := by
  intro fuel
  induction fuel with
  | zero =>
    intro h p rr_pos r hr
    cases p with
    | none => exact node_wrap_refStep (by simpa only [node_loop] using hr)
    | some a => simp [node_loop] at hr
  | succ fuel ih =>
    intro h p rr_pos r hr
    cases p with
    | none => exact node_wrap_refStep (by simpa only [node_loop] using hr)
    | some node =>
      simp only [node_loop, Option.bind_eq_bind, Option.bind_eq_some] at hr
      obtain ⟨nd, -, h1, e1, nd1, -, hr⟩ := hr
      have s1 : RefStep none h h1 := by
        split at e1
        · exact refStep_modifyNode e1 (fun _ => rfl)
        · injection e1 with e1; subst e1; exact refStep_of_nodes rfl
      split at hr
      · simp only [Option.bind_eq_bind, Option.bind_eq_some] at hr
        obtain ⟨r0, e0, hr⟩ := hr
        have s2 := remove_refStep e0
        split at hr
        · injection hr with hr; subst hr
          exact ⟨refStep_trans s1 s2, fun N hN => by simp at hN⟩
        · obtain ⟨s3, hex⟩ := ih _ _ _ _ hr
          exact ⟨refStep_trans s1 (refStep_trans s2 s3), hex⟩
      · simp only [Option.bind_eq_bind, Option.bind_eq_some] at hr
        obtain ⟨s, -, hr⟩ := hr
        split at hr
        · simp only [Option.bind_eq_bind, Option.bind_eq_some] at hr
          obtain ⟨h2, e2, h3, e3, hr⟩ := hr
          injection hr with hr; subst hr
          obtain ⟨s3, hex⟩ := refStep_take e3
          refine ⟨refStep_trans s1 (refStep_trans (refStep_of_nodes (modifySlot_nodes e2)) s3),
            fun N hN => ?_⟩
          have : N = _ := (Option.some.inj hN).symm
          subst this
          exact hex
        · obtain ⟨s3, hex⟩ := ih _ _ _ _ hr
          exact ⟨refStep_trans s1 s3, hex⟩

theorem get_node_refStep {rx : Pcre} {tolerance : Int} {h : Registry} {key : List Nat}
    {keylen : Nat} {regexp : Bool} {current : Int} {r : Option Nat × Registry}
    (hr : uwsgi_get_subscribe_node rx tolerance h key keylen regexp current = some r) :
    RefStep r.1 h r.2 ∧ ∀ N ∈ r.1, ∃ nd1, r.2.nodeAt N = some nd1 := by
  unfold uwsgi_get_subscribe_node at hr
  split at hr
  · injection hr with hr; subst hr
    exact ⟨refStep_of_nodes rfl, fun N hN => by simp at hN⟩
  · simp only [Option.bind_eq_bind, Option.bind_eq_some] at hr
    obtain ⟨r0, e0, hr⟩ := hr
    have s0 : RefStep none h r0.2 := refStep_of_nodes (get_slot_sameCore e0).1
    split at hr
    · simp only [Option.bind_eq_bind, Option.bind_eq_some] at hr
      obtain ⟨h1, e1, s, -, hr⟩ := hr
      obtain ⟨s2, hex⟩ := node_loop_refStep current tolerance _ _ _ _ _ _ hr
      exact ⟨refStep_trans s0 (refStep_trans (refStep_of_nodes (modifySlot_nodes e1)) s2), hex⟩
    · injection hr with hr; subst hr
      exact ⟨s0, fun N hN => by simp at hN⟩
/-- The part of `uwsgi_get_subscribe_node` before its loop, on a well-formed registry:
either no pool is found and the call returns `NULL` with the memory untouched, or the
lookup returns a pool `cur` of the registry and the call continues as the loop over the
node list of `cur`, from a memory that holds the same nodes. -/
theorem select_setup (rx : Pcre) (tolerance : Int) {h : Registry} (key : List Nat)
    (keylen : Nat) (regexp : Bool) (current : Int) {l : List Nat} (hl : h.pools = some l)
    (hprev : PrevLinks h none l) (hpools : ∀ a ∈ l, PoolOK h a) :
    (uwsgi_get_subscribe_node rx tolerance h key keylen regexp current = some (none, h) ∧
      ∀ c h0, uwsgi_get_subscribe_slot rx h key keylen regexp ≠ some (some c, h0)) ∨
    ∃ cur ∈ l, ∃ h0 h2 sc sc2 ns,
      uwsgi_get_subscribe_slot rx h key keylen regexp = some (some cur, h0) ∧
      h.slotAt cur = some sc ∧ h.poolNodes cur = some ns ∧ (∀ x, h2.nodeAt x = h.nodeAt x) ∧
      PoolInv h2 cur sc2 ns ∧ sc2.rr = sc.rr ∧ ns.length ≤ h2.nodeFuel ∧
      uwsgi_get_subscribe_node rx tolerance h key keylen regexp current =
        node_loop current tolerance cur h2.nodeFuel h2 sc2.nodes 0 := by
  have hseg := seg_of_pools hl
  by_cases hk : keylen > 0xff
  · left
    constructor
    · unfold uwsgi_get_subscribe_node; rw [if_pos hk]
    · intro c h0 e
      unfold uwsgi_get_subscribe_slot at e
      rw [if_pos hk] at e
      simp at e
  have hfuel : l.length ≤ h.slotFuel := walk_length _ _ _ _ hl
  have hprom : ∀ cur ∈ l, ∃ h', promote h cur = some h' := fun cur hc =>
    (promote_pools hseg hprev hc).imp (fun _ hx => hx.1)
  obtain ⟨r0, hr0, hcase⟩ := slot_loop_total rx key keylen regexp h l _ _ hseg hfuel hprom
  have hget : uwsgi_get_subscribe_slot rx h key keylen regexp = some r0 := by
    unfold uwsgi_get_subscribe_slot; rw [if_neg hk]; exact hr0
  rcases hcase with ⟨hnone, hsame⟩ | ⟨cur, hcur, hsome, hheap⟩
  · left
    constructor
    · unfold uwsgi_get_subscribe_node
      rw [if_neg hk]
      simp only [Option.bind_eq_bind, hget, Option.some_bind, hnone, hsame]
    · intro c h0 e
      rw [hget] at e
      injection e with e
      rw [e] at hnone
      simp at hnone
  · right
    obtain ⟨sc, hsc, hpv, hnx⟩ := wf_links hseg hprev hcur
    have hcore : SameCore h r0.2 := by
      rcases hheap with e | e
      · rw [e]; exact SameCore.core_refl h
      · exact promote_sameCore e
    have hlinks : ∃ sc1, r0.2.slotAt cur = some sc1 ∧ PtrOK r0.2 sc1.prev ∧
        PtrOK r0.2 sc1.next := by
      rcases hheap with e | e
      · rw [e]; exact ⟨sc, hsc, hpv, hnx⟩
      · exact promote_links e hsc hpv hnx
    obtain ⟨sc1, hsc1, hpv1, hnx1⟩ := hlinks
    have hnodes1 : r0.2.nodes = h.nodes := hcore.1
    have hnodeAt1 : ∀ x, r0.2.nodeAt x = h.nodeAt x := fun x => by
      simp only [Registry.nodeAt, hnodes1]
    have hc1 : sc1.core = sc.core := by
      obtain ⟨s', hs', hc'⟩ := hcore.core_alloc hsc
      rw [hsc1] at hs'; injection hs' with hs'; subst hs'
      exact hc'
    have hsn1 : sc1.nodes = sc.nodes := by
      have := congrArg (fun x => x.nodes) hc1
      simpa [uwsgi_subscribe_slot.core] using this
    have hrr1 : sc1.rr = sc.rr := by
      have := congrArg (fun x => x.rr) hc1
      simpa [uwsgi_subscribe_slot.core] using this
    obtain ⟨ns, hns, -, hback⟩ := hpools cur hcur
    have hns : h.poolNodes cur = some ns := hns
    obtain ⟨sc', hsc', hnseg⟩ := seg_of_poolNodes hns
    rw [hsc] at hsc'; injection hsc' with hsc'; subst hsc'
    have hi1 : PoolInv r0.2 cur sc1 ns := by
      refine ⟨hsc1, ?_, fun n hn => by rw [hnodeAt1]; exact hback n hn, hpv1, hnx1⟩
      rw [hsn1]
      exact Seg.congr (fun x _ => by simp only [Registry.nodeNext, hnodeAt1]) hnseg
    obtain ⟨h2, e2, hat2, -, hn2⟩ := modifySlot_ex (fun x => { x with hits := x.hits + 1 }) hsc1
    have hb2 : Benign current tolerance cur r0.2 h2 :=
      benign_modifySlot current tolerance e2 (fun _ => ⟨rfl, rfl, rfl⟩)
    obtain ⟨sc2, hi2, hsn2⟩ := hb2.poolInv hi1
    have hsc2 : h2.slotAt cur = some { sc1 with hits := sc1.hits + 1 } := by
      rw [hat2 cur, if_pos rfl]
    have hsc2' : sc2 = { sc1 with hits := sc1.hits + 1 } := by
      have := hi2.1
      rw [hsc2] at this; injection this with this; exact this.symm
    have hnfuel : ns.length ≤ h2.nodeFuel := by
      have hw : walk h.nodeNext h.nodeFuel sc.nodes = some ns := by
        unfold Registry.poolNodes at hns
        simpa [hsc] using hns
      have := walk_length _ _ _ _ hw
      simpa [Registry.nodeFuel, hn2, hnodes1] using this
    have hnodeAt2 : ∀ x, h2.nodeAt x = h.nodeAt x := fun x => by
      simp only [Registry.nodeAt, hn2, hnodes1]
    have hr0' : r0 = (some cur, r0.2) := by
      rw [← hsome]
    refine ⟨cur, hcur, r0.2, h2, sc, sc2, ns, by rw [hget, ← hr0'], hsc, hns, hnodeAt2, hi2, ?_,
      hnfuel, ?_⟩
    · rw [hsc2']; exact hrr1
    · unfold uwsgi_get_subscribe_node
      rw [if_neg hk]
      simp only [Option.bind_eq_bind, hget, Option.some_bind, hsome, e2, hsc2]
      rw [hsc2']

/-- C13: on a well-formed registry a call of `uwsgi_get_subscribe_node` (any key, mode and
time) returns.  When it returns a node, that node was allocated before the call, is
allocated afterwards and its reference is the reference before plus one; every other node
that is allocated afterwards was allocated before with the same reference.  When it
returns `NULL`, every node that is allocated afterwards has the reference it had
before. -/
theorem select_takes_one_reference (rx : Pcre) (tolerance : Int) (h : Registry)
    (key : List Nat) (keylen : Nat) (regexp : Bool) (current : Int) (hwf : WellFormed h) :
    ∃ r, uwsgi_get_subscribe_node rx tolerance h key keylen regexp current = some r ∧
      (∀ N ∈ r.1, ∃ nd nd1, h.nodeAt N = some nd ∧ r.2.nodeAt N = some nd1 ∧
        nd1.reference = nd.reference + 1) ∧
      (∀ n nd1, r.1 ≠ some n → r.2.nodeAt n = some nd1 →
        ∃ nd, h.nodeAt n = some nd ∧ nd1.reference = nd.reference) := by
  obtain ⟨l, hl, hprev, hpools⟩ := hwf
  have hl : h.pools = some l := hl
  have htotal : ∃ r, uwsgi_get_subscribe_node rx tolerance h key keylen regexp current =
      some r := by
    rcases select_setup rx tolerance key keylen regexp current hl hprev hpools with
      ⟨e, -⟩ | ⟨cur, -, h0, h2, sc, sc2, ns, -, -, -, -, hi2, -, hfuel, e⟩
    · exact ⟨_, e⟩
    · have hi2' : PoolInv h2 cur sc2 ([] ++ ns) := by simpa using hi2
      obtain ⟨r, hr, -⟩ := node_loop_keeps current tolerance cur ns h2 [] h2.nodeFuel sc2.nodes 0
        sc2 hi2' hi2.2.1 hfuel
      exact ⟨r, e.trans hr⟩
  obtain ⟨r, hr⟩ := htotal
  obtain ⟨hstep, hex⟩ := get_node_refStep hr
  refine ⟨r, hr, fun N hN => ?_, fun n nd1 hne hn1 => ?_⟩
  · obtain ⟨nd1, hnd1⟩ := hex N hN
    obtain ⟨nd, hnd, e⟩ := hstep N nd1 hnd1
    have hN' : r.1 = some N := hN
    refine ⟨nd, nd1, hnd, hnd1, ?_⟩
    rw [e, if_pos hN']
  · obtain ⟨nd, hnd, e⟩ := hstep n nd1 hn1
    refine ⟨nd, hnd, ?_⟩
    rw [e, if_neg hne]
    rfl

theorem select_takes_one_reference_witness :
    WellFormed busy_and_idle ∧
    ∃ r, uwsgi_get_subscribe_node sample_pcre 10 busy_and_idle [107] 1 false 11 = some r ∧
      (∀ N ∈ r.1, ∃ nd nd1, busy_and_idle.nodeAt N = some nd ∧ r.2.nodeAt N = some nd1 ∧
        nd1.reference = nd.reference + 1) ∧
      (∀ n nd1, r.1 ≠ some n → r.2.nodeAt n = some nd1 →
        ∃ nd, busy_and_idle.nodeAt n = some nd ∧ nd1.reference = nd.reference) :=
  ⟨by decide,
    select_takes_one_reference sample_pcre 10 busy_and_idle [107] 1 false 11 (by decide)⟩
theorem guarded_congr {c t : Int} {x y : uwsgi_subscribe_node}
    (hr : y.reference = x.reference) (hd : y.death_mark = x.death_mark)
    (hl : y.last_check = x.last_check) : Guarded c t y ↔ Guarded c t x := by
  unfold Guarded
  rw [hr, hd, hl]

theorem dead_iff_not_guarded {c t : Int} (nd : uwsgi_subscribe_node) :
    ((if c - nd.last_check > t then true else nd.death_mark) = true ∧ nd.reference = 0) ↔
      ¬ Guarded c t nd := by
  unfold Guarded
  by_cases hst : c - nd.last_check > t
  · simp only [if_pos hst, true_and]
    constructor
    · rintro h0 (h | ⟨-, h⟩)
      · omega
      · omega
    · intro hng
      by_contra h0
      exact hng (Or.inl (Nat.pos_of_ne_zero h0))
  · simp only [if_neg hst]
    constructor
    · rintro ⟨hd, h0⟩ (h | ⟨h, -⟩)
      · omega
      · rw [hd] at h; simp at h
    · intro hng
      constructor
      · by_contra hd
        have hd' : nd.death_mark = false := by simpa using hd
        exact hng (Or.inr ⟨hd', by omega⟩)
      · by_contra h0
        exact hng (Or.inl (Nat.pos_of_ne_zero h0))

/-! ## The node lists in every reachable memory -/

theorem SameCore.core_symm {h h1 : Registry} (hc : SameCore h h1) : SameCore h1 h :=
  ⟨hc.1.symm, hc.2.1.symm, fun a => (hc.2.2 a).symm⟩

theorem SameCore.node_eq {h h1 : Registry} (hc : SameCore h h1) (n : Nat) :
    h1.nodeAt n = h.nodeAt n := by
  simp only [Registry.nodeAt, hc.1]

theorem SameLists.lists_refl (h : Registry) : SameLists h h := ⟨rfl, fun _ => rfl, fun _ => rfl⟩

theorem SameLists.lists_symm {h h1 : Registry} (hs : SameLists h h1) : SameLists h1 h :=
  ⟨hs.1.symm, fun a => (hs.2.1 a).symm, fun n => (hs.2.2 n).symm⟩

theorem SameLists.lists_trans {h h1 h2 : Registry} (h01 : SameLists h h1)
    (h12 : SameLists h1 h2) : SameLists h h2 :=
  ⟨h12.1.trans h01.1, fun a => (h12.2.1 a).trans (h01.2.1 a),
    fun n => (h12.2.2 n).trans (h01.2.2 n)⟩

theorem SameLists.of_core {h h1 : Registry} (hc : SameCore h h1) : SameLists h h1 := by
  refine ⟨by rw [hc.1], fun a => ?_, fun n => by rw [hc.node_eq]⟩
  have := congrArg (fun o => Option.map (fun s : uwsgi_subscribe_slot => s.nodes) o) (hc.2.2 a)
  simpa [Option.map_map, Function.comp, uwsgi_subscribe_slot.core] using this

theorem sameLists_modifySlot {h h1 : Registry} {p : Nat}
    {f : uwsgi_subscribe_slot → uwsgi_subscribe_slot} (hm : h.modifySlot p f = some h1)
    (hf : ∀ s, (f s).nodes = s.nodes) : SameLists h h1 := by
  refine ⟨by rw [modifySlot_nodes hm], fun a => ?_, fun n => by rw [modifySlot_nodeAt hm]⟩
  rw [modifySlot_slotAt hm]
  split
  · next e =>
    subst e
    cases h.slotAt a with
    | none => rfl
    | some s => simp [hf]
  · rfl

theorem sameLists_modifyNode {h h1 : Registry} {p : Nat}
    {f : uwsgi_subscribe_node → uwsgi_subscribe_node} (hm : h.modifyNode p f = some h1)
    (hf : ∀ x, (f x).slot = x.slot ∧ (f x).next = x.next) : SameLists h h1 := by
  refine ⟨modifyNode_length hm, fun a => by rw [modifyNode_slotAt hm], fun n => ?_⟩
  rw [modifyNode_nodeAt hm]
  split
  · next e =>
    subst e
    cases h.nodeAt n with
    | none => rfl
    | some x => simp [hf]
  · rfl

theorem SameLists.next_eq {h h1 : Registry} (hs : SameLists h h1) (n : Nat) :
    h1.nodeNext n = h.nodeNext n := by
  have := congrArg (fun o => Option.map (fun p : Option Nat × Option Nat => p.2) o) (hs.2.2 n)
  simpa [Registry.nodeNext, Option.map_map, Function.comp] using this

theorem SameLists.slot_eq {h h1 : Registry} (hs : SameLists h h1) (n : Nat) :
    (h1.nodeAt n).map (fun x => x.slot) = (h.nodeAt n).map (fun x => x.slot) := by
  have := congrArg (fun o => Option.map (fun p : Option Nat × Option Nat => p.1) o) (hs.2.2 n)
  simpa [Option.map_map, Function.comp] using this

theorem SameLists.pool_eq {h h1 : Registry} (hs : SameLists h h1) (a : Nat) :
    h1.poolNodes a = h.poolNodes a := by
  have hnx : h1.nodeNext = h.nodeNext := funext hs.next_eq
  have hf : h1.nodeFuel = h.nodeFuel := by simp only [Registry.nodeFuel, hs.1]
  have hsa := hs.2.1 a
  unfold Registry.poolNodes
  rw [hnx, hf]
  cases e1 : h1.slotAt a with
  | none =>
    rw [e1] at hsa
    cases e : h.slotAt a with
    | none => rfl
    | some s => rw [e] at hsa; simp at hsa
  | some s1 =>
    rw [e1] at hsa
    cases e : h.slotAt a with
    | none => rw [e] at hsa; simp at hsa
    | some s =>
      rw [e] at hsa
      have : s1.nodes = s.nodes := by simpa using hsa
      simp [this]

theorem SameLists.poolOK_of {h h1 : Registry} (hs : SameLists h h1) {a : Nat} (hp : PoolOK h a) :
    PoolOK h1 a := by
  obtain ⟨ns, hns, hne, hback⟩ := hp
  refine ⟨ns, by rw [hs.pool_eq]; exact hns, hne, fun n hn => ?_⟩
  rw [hs.slot_eq]
  exact hback n hn

theorem SameLists.shape {h h1 : Registry} (hs : SameLists h h1) (hi : NodeLists h) :
    NodeLists h1 := by
  constructor
  · intro a _ hsome
    apply hs.poolOK_of
    have hsa := hs.2.1 a
    obtain ⟨s1, hs1⟩ := Option.isSome_iff_exists.mp hsome
    rw [hs1] at hsa
    cases e : h.slotAt a with
    | none => rw [e] at hsa; simp at hsa
    | some s => exact hi.1 a (cell_lt e) (by rw [e]; rfl)
  · intro n _ nd1 hnd1
    have hnd1 : h1.nodeAt n = some nd1 := hnd1
    have hsl := hs.slot_eq n
    rw [hnd1] at hsl
    cases e : h.nodeAt n with
    | none => rw [e] at hsl; simp at hsl
    | some nd =>
      rw [e] at hsl
      have hslot : nd1.slot = nd.slot := by simpa using hsl
      obtain ⟨a, ha, ns, hns, hmem⟩ := hi.2 n (cell_lt e) nd e
      exact ⟨a, by rw [hslot]; exact ha, ns, by rw [hs.pool_eq]; exact hns, hmem⟩

theorem freeNode_inv {h h1 : Registry} {p : Nat} (hm : h.freeNode p = some h1) :
    ∃ n, h.nodeAt p = some n ∧ h1 = { h with nodes := h.nodes.set p none } := by
  unfold Registry.freeNode at hm
  cases hs : h.nodeAt p with
  | none => rw [hs] at hm; simp at hm
  | some s => rw [hs] at hm; exact ⟨s, rfl, by simpa using hm.symm⟩

theorem freeSlot_inv {h h1 : Registry} {p : Nat} (hm : h.freeSlot p = some h1) :
    ∃ s, h.slotAt p = some s ∧ h1 = { h with slots := h.slots.set p none } := by
  unfold Registry.freeSlot at hm
  cases hs : h.slotAt p with
  | none => rw [hs] at hm; simp at hm
  | some s => rw [hs] at hm; exact ⟨s, rfl, by simpa using hm.symm⟩

theorem freeSlot_slotAt {h h1 : Registry} {p : Nat} (hm : h.freeSlot p = some h1) (q : Nat) :
    h1.slotAt q = if q = p then none else h.slotAt q := by
  obtain ⟨s, hs, rfl⟩ := freeSlot_inv hm
  by_cases hq : q = p
  · subst hq
    simp only [Registry.slotAt, if_true]
    rw [cell_set_self _ _ _ (cell_lt hs)]
  · simp only [Registry.slotAt, if_neg hq]
    rw [cell_set_other _ _ _ _ hq]

theorem freeNode_nodeAt {h h1 : Registry} {p : Nat} (hm : h.freeNode p = some h1) (q : Nat) :
    h1.nodeAt q = if q = p then none else h.nodeAt q := by
  obtain ⟨s, hs, rfl⟩ := freeNode_inv hm
  by_cases hq : q = p
  · subst hq
    simp only [Registry.nodeAt, if_true]
    rw [cell_set_self _ _ _ (cell_lt hs)]
  · simp only [Registry.nodeAt, if_neg hq]
    rw [cell_set_other _ _ _ _ hq]

theorem modifyNode_sim {g g' g1 g1' : Registry} {p : Nat}
    {f : uwsgi_subscribe_node → uwsgi_subscribe_node} (hc : SameCore g g')
    (h1 : g.modifyNode p f = some g1) (h1' : g'.modifyNode p f = some g1') :
    SameCore g1 g1' := by
  obtain ⟨n, hn, rfl⟩ := modifyNode_inv h1
  obtain ⟨n', hn', rfl⟩ := modifyNode_inv h1'
  rw [hc.node_eq, hn] at hn'
  injection hn' with hn'
  subst hn'
  refine ⟨?_, hc.2.1, hc.2.2⟩
  show g'.nodes.set p _ = g.nodes.set p _
  rw [hc.1]

theorem freeNode_sim {g g' g1 g1' : Registry} {p : Nat} (hc : SameCore g g')
    (h1 : g.freeNode p = some g1) (h1' : g'.freeNode p = some g1') : SameCore g1 g1' := by
  obtain ⟨n, hn, rfl⟩ := freeNode_inv h1
  obtain ⟨n', hn', rfl⟩ := freeNode_inv h1'
  refine ⟨?_, hc.2.1, hc.2.2⟩
  show g'.nodes.set p _ = g.nodes.set p _
  rw [hc.1]

theorem modifySlot_sim {g g' g1 g1' : Registry} {p : Nat}
    {f : uwsgi_subscribe_slot → uwsgi_subscribe_slot} (hc : SameCore g g')
    (hf : ∀ s s' : uwsgi_subscribe_slot, s'.core = s.core → (f s').core = (f s).core)
    (h1 : g.modifySlot p f = some g1) (h1' : g'.modifySlot p f = some g1') :
    SameCore g1 g1' := by
  refine ⟨by rw [modifySlot_nodes h1, modifySlot_nodes h1', hc.1],
    by rw [modifySlot_length h1, modifySlot_length h1', hc.2.1], fun a => ?_⟩
  rw [modifySlot_slotAt h1, modifySlot_slotAt h1']
  split
  · obtain ⟨s, hs, -⟩ := modifySlot_inv h1
    obtain ⟨s', hs', -⟩ := modifySlot_inv h1'
    have hcs := hc.2.2 p
    rw [hs, hs'] at hcs
    have hcs : s'.core = s.core := by simpa using hcs
    rw [hs, hs']
    simp [hf s s' hcs]
  · exact hc.2.2 a

theorem freeSlot_sim {g g' g1 g1' : Registry} {p : Nat} (hc : SameCore g g')
    (h1 : g.freeSlot p = some g1) (h1' : g'.freeSlot p = some g1') : SameCore g1 g1' := by
  have hn : g1.nodes = g.nodes := freeSlot_nodes h1
  have hn' : g1'.nodes = g'.nodes := freeSlot_nodes h1'
  refine ⟨by rw [hn, hn', hc.1], ?_, fun a => ?_⟩
  · obtain ⟨s, _, rfl⟩ := freeSlot_inv h1
    obtain ⟨s', _, rfl⟩ := freeSlot_inv h1'
    simp [hc.2.1]
  · rw [freeSlot_slotAt h1, freeSlot_slotAt h1']
    split
    · rfl
    · exact hc.2.2 a

theorem unlink_loop_sim (node : Nat) :
    ∀ (fuel : Nat) (g g' : Registry) (p : Option Nat) (g1 g1' : Registry), SameCore g g' →
      unlink_loop node fuel g p = some g1 → unlink_loop node fuel g' p = some g1' →
      SameCore g1 g1' := by
  intro fuel
  induction fuel with
  | zero =>
    intro g g' p g1 g1' hc h1 h1'
    cases p with
    | none =>
      simp [unlink_loop] at h1 h1'
      subst h1; subst h1'; exact hc
    | some a => simp [unlink_loop] at h1
  | succ fuel ih =>
    intro g g' p g1 g1' hc h1 h1'
    cases p with
    | none =>
      simp [unlink_loop] at h1 h1'
      subst h1; subst h1'; exact hc
    | some a =>
      simp only [unlink_loop, Option.bind_eq_bind, Option.bind_eq_some] at h1 h1'
      obtain ⟨an, han, h1⟩ := h1
      obtain ⟨an', han', h1'⟩ := h1'
      rw [hc.node_eq, han] at han'
      injection han' with han'
      subst han'
      split at h1
      · next hx =>
        rw [if_pos hx] at h1'
        simp only [Option.bind_eq_bind, Option.bind_eq_some] at h1 h1'
        obtain ⟨nd, hnd, h1⟩ := h1
        obtain ⟨nd', hnd', h1'⟩ := h1'
        rw [hc.node_eq, hnd] at hnd'
        injection hnd' with hnd'
        subst hnd'
        exact modifyNode_sim hc h1 h1'
      · next hx =>
        rw [if_neg hx] at h1'
        exact ih _ _ _ _ _ hc h1 h1'

theorem sameCore_slot {g g' : Registry} (hc : SameCore g g') {a : Nat}
    {s s' : uwsgi_subscribe_slot} (hs : g.slotAt a = some s) (hs' : g'.slotAt a = some s') :
    s'.core = s.core := by
  have := hc.2.2 a
  rw [hs, hs'] at this
  simpa using this

theorem link_step_sameCore {h h1 : Registry} {p : Option Nat}
    {f : uwsgi_subscribe_slot → uwsgi_subscribe_slot}
    (hm : (match p with
        | some q => h.modifySlot q f
        | none => some h) = some h1) (hf : ∀ s, (f s).core = s.core) : SameCore h h1 := by
  cases p with
  | none =>
    injection hm with hm
    subst hm
    exact SameCore.core_refl h
  | some q => exact modifySlot_sameCore hm hf

/-- Two runs of `uwsgi_remove_subscribe_node` from memories that agree up to the links
between the pools return the same value and end in memories that agree up to the links
between the pools. -/
theorem remove_sim {g g' : Registry} {d : Nat} {r r' : Nat × Registry} (hc : SameCore g g')
    (hr : uwsgi_remove_subscribe_node g d = some r)
    (hr' : uwsgi_remove_subscribe_node g' d = some r') :
    r'.1 = r.1 ∧ SameCore r.2 r'.2 := by
  unfold uwsgi_remove_subscribe_node at hr hr'
  simp only [Option.bind_eq_bind, Option.bind_eq_some] at hr hr'
  obtain ⟨nd, hnd, b, hb, ns, hns, h1, e1, h2, e2, h3, e3, ns3, hns3, hr⟩ := hr
  obtain ⟨nd', hnd', b', hb', ns', hns', h1', e1', h2', e2', h3', e3', ns3', hns3', hr'⟩ := hr'
  rw [hc.node_eq, hnd] at hnd'
  injection hnd' with hnd'
  subst hnd'
  have hb'' : some b' = some b := by
    have h1 : nd.slot = some b := hb
    have h2 : nd.slot = some b' := hb'
    rw [← h1, ← h2]
  injection hb'' with hb''
  subst hb''
  have hnsc := sameCore_slot hc hns hns'
  have hnodes : ns'.nodes = ns.nodes := by
    have := congrArg (fun x => x.nodes) hnsc
    simpa [uwsgi_subscribe_slot.core] using this
  have c1 : SameCore h1 h1' := modifyNode_sim hc e1 e1'
  have c2 : SameCore h2 h2' := by
    rw [hnodes] at e2'
    split at e2
    · next hx =>
      rw [if_pos hx] at e2'
      simp only [Option.bind_eq_bind, Option.bind_eq_some] at e2 e2'
      obtain ⟨nd1, hnd1, e2⟩ := e2
      obtain ⟨nd1', hnd1', e2'⟩ := e2'
      rw [c1.node_eq, hnd1] at hnd1'
      injection hnd1' with hnd1'
      subst hnd1'
      refine modifySlot_sim c1 (fun s s' hs => ?_) e2 e2'
      have := congrArg (fun x : uwsgi_subscribe_slot => { x with nodes := nd1.next }) hs
      simpa [uwsgi_subscribe_slot.core] using this
    · next hx =>
      rw [if_neg hx] at e2'
      have hf : h1'.nodeFuel = h1.nodeFuel := by simp only [Registry.nodeFuel, c1.1]
      rw [hf] at e2'
      exact unlink_loop_sim _ _ _ _ _ _ _ c1 e2 e2'
  have c3 : SameCore h3 h3' := freeNode_sim c2 e3 e3'
  have hns3c := sameCore_slot c3 hns3 hns3'
  have hnodes3 : ns3'.nodes = ns3.nodes := by
    have := congrArg (fun x => x.nodes) hns3c
    simpa [uwsgi_subscribe_slot.core] using this
  rw [hnodes3] at hr'
  split at hr
  · next hx =>
    rw [if_pos hx] at hr'
    simp only [Option.bind_eq_bind, Option.bind_eq_some] at hr hr'
    obtain ⟨h4, e4, h5, e5, h6, e6, hr⟩ := hr
    obtain ⟨h4', e4', h5', e5', h6', e6', hr'⟩ := hr'
    have c4 : SameCore h3 h4 := link_step_sameCore e4 (fun _ => rfl)
    have c5 : SameCore h4 h5 := link_step_sameCore e5 (fun _ => rfl)
    have c4' : SameCore h3' h4' := link_step_sameCore e4' (fun _ => rfl)
    have c5' : SameCore h4' h5' := link_step_sameCore e5' (fun _ => rfl)
    have c55 : SameCore h5 h5' :=
      ((c4.core_trans c5).core_symm.core_trans c3).core_trans (c4'.core_trans c5')
    have c6 : SameCore h6 h6' := freeSlot_sim c55 e6 e6'
    have hres : ∀ (x : Registry) (p q : Prop) [Decidable (p ∧ q)] (ρ : Nat × Registry),
        (if p ∧ q then some (1, { x with head := none }) else some (1, x)) = some ρ →
        ρ.1 = 1 ∧ SameCore x ρ.2 := by
      intro x p q _ ρ hρ
      split at hρ
      · injection hρ with hρ; subst hρ; exact ⟨rfl, SameCore.of_head x none⟩
      · injection hρ with hρ; subst hρ; exact ⟨rfl, SameCore.core_refl x⟩
    obtain ⟨a1, a2⟩ := hres _ _ _ _ hr
    obtain ⟨b1, b2⟩ := hres _ _ _ _ hr'
    exact ⟨by rw [a1, b1], (a2.core_symm.core_trans c6).core_trans b2⟩
  · next hx =>
    rw [if_neg hx] at hr'
    injection hr with hr
    injection hr' with hr'
    subst hr; subst hr'
    exact ⟨rfl, c3⟩

theorem node_wrap_sim {g g' : Registry} {cur : Nat} {r r' : Option Nat × Registry}
    (hc : SameCore g g') (hr : node_wrap g cur = some r) (hr' : node_wrap g' cur = some r') :
    r'.1 = r.1 ∧ SameCore r.2 r'.2 := by
  unfold node_wrap at hr hr'
  simp only [Option.bind_eq_bind, Option.bind_eq_some] at hr hr'
  obtain ⟨h1, e1, s, hs, hr⟩ := hr
  obtain ⟨h1', e1', s', hs', hr'⟩ := hr'
  have c1 : SameCore h1 h1' := by
    refine modifySlot_sim hc (fun s s' hs => ?_) e1 e1'
    have := congrArg (fun x : uwsgi_subscribe_slot => { x with rr := 0 }) hs
    simpa [uwsgi_subscribe_slot.core] using this
  have hsc := sameCore_slot c1 hs hs'
  have hnodes : s'.nodes = s.nodes := by
    have := congrArg (fun x => x.nodes) hsc
    simpa [uwsgi_subscribe_slot.core] using this
  rw [hnodes] at hr'
  cases hn : s.nodes with
  | none =>
    rw [hn] at hr hr'
    injection hr with hr
    injection hr' with hr'
    subst hr; subst hr'
    exact ⟨rfl, c1⟩
  | some n =>
    rw [hn] at hr hr'
    simp only [Option.bind_eq_bind, Option.bind_eq_some] at hr hr'
    obtain ⟨h2, e2, hr⟩ := hr
    obtain ⟨h2', e2', hr'⟩ := hr'
    injection hr with hr
    injection hr' with hr'
    subst hr; subst hr'
    exact ⟨rfl, modifyNode_sim c1 e2 e2'⟩

/-- Two runs of the loop of `uwsgi_get_subscribe_node` from memories that agree up to the
links between the pools return the same node and end in memories that agree up to the
links between the pools. -/
theorem node_loop_sim (current tolerance : Int) (cur : Nat) :
    ∀ (fuel : Nat) (g g' : Registry) (p : Option Nat) (rr_pos : Nat)
      (r r' : Option Nat × Registry), SameCore g g' →
      node_loop current tolerance cur fuel g p rr_pos = some r →
      node_loop current tolerance cur fuel g' p rr_pos = some r' →
      r'.1 = r.1 ∧ SameCore r.2 r'.2 := by
  intro fuel
  induction fuel with
  | zero =>
    intro g g' p rr_pos r r' hc hr hr'
    cases p with
    | none =>
      exact node_wrap_sim hc (by simpa only [node_loop] using hr)
        (by simpa only [node_loop] using hr')
    | some a => simp [node_loop] at hr
  | succ fuel ih =>
    intro g g' p rr_pos r r' hc hr hr'
    cases p with
    | none =>
      exact node_wrap_sim hc (by simpa only [node_loop] using hr)
        (by simpa only [node_loop] using hr')
    | some node =>
      simp only [node_loop, Option.bind_eq_bind, Option.bind_eq_some] at hr hr'
      obtain ⟨nd, hnd, h1, e1, nd1, hnd1, hr⟩ := hr
      obtain ⟨nd', hnd', h1', e1', nd1', hnd1', hr'⟩ := hr'
      rw [hc.node_eq, hnd] at hnd'
      injection hnd' with hnd'
      subst hnd'
      have c1 : SameCore h1 h1' := by
        split at e1
        · next hx =>
          rw [if_pos hx] at e1'
          exact modifyNode_sim hc e1 e1'
        · next hx =>
          rw [if_neg hx] at e1'
          injection e1 with e1
          injection e1' with e1'
          subst e1; subst e1'
          exact hc
      rw [c1.node_eq, hnd1] at hnd1'
      injection hnd1' with hnd1'
      subst hnd1'
      split at hr
      · next hx =>
        rw [if_pos hx] at hr'
        simp only [Option.bind_eq_bind, Option.bind_eq_some] at hr hr'
        obtain ⟨r0, e0, hr⟩ := hr
        obtain ⟨r0', e0', hr'⟩ := hr'
        obtain ⟨hv, c2⟩ := remove_sim c1 e0 e0'
        rw [hv] at hr'
        split at hr
        · next hy =>
          rw [if_pos hy] at hr'
          injection hr with hr
          injection hr' with hr'
          subst hr; subst hr'
          exact ⟨rfl, c2⟩
        · next hy =>
          rw [if_neg hy] at hr'
          exact ih _ _ _ _ _ _ c2 hr hr'
      · next hx =>
        rw [if_neg hx] at hr'
        simp only [Option.bind_eq_bind, Option.bind_eq_some] at hr hr'
        obtain ⟨s, hs, hr⟩ := hr
        obtain ⟨s', hs', hr'⟩ := hr'
        have hsc := sameCore_slot c1 hs hs'
        have hrr : s'.rr = s.rr := by
          have := congrArg (fun x => x.rr) hsc
          simpa [uwsgi_subscribe_slot.core] using this
        rw [hrr] at hr'
        split at hr
        · next hy =>
          rw [if_pos hy] at hr'
          simp only [Option.bind_eq_bind, Option.bind_eq_some] at hr hr'
          obtain ⟨h2, e2, h3, e3, hr⟩ := hr
          obtain ⟨h2', e2', h3', e3', hr'⟩ := hr'
          injection hr with hr
          injection hr' with hr'
          subst hr; subst hr'
          have c2 : SameCore h2 h2' := by
            refine modifySlot_sim c1 (fun s s' hs => ?_) e2 e2'
            have h1 := congrArg (fun x : uwsgi_subscribe_slot => x.rr) hs
            have h1 : s'.rr = s.rr := by simpa [uwsgi_subscribe_slot.core] using h1
            have := congrArg (fun x : uwsgi_subscribe_slot => { x with rr := s.rr + 1 }) hs
            simpa [uwsgi_subscribe_slot.core, h1] using this
          exact ⟨rfl, modifyNode_sim c2 e3 e3'⟩
        · next hy =>
          rw [if_neg hy] at hr'
          exact ih _ _ _ _ _ _ c1 hr hr'

theorem seg_next_eq {nx nx' : Nat → Option (Option Nat)} :
    ∀ {l : List Nat} {p q : Option Nat}, Seg nx p l q → Seg nx' p l q → ∀ a ∈ l, nx' a = nx a := by
  intro l
  induction l with
  | nil => intro p q _ _ a ha; simp at ha
  | cons b l ih =>
    intro p q hs hs' a ha
    obtain ⟨-, r, hr, hrest⟩ := hs
    obtain ⟨-, r', hr', hrest'⟩ := hs'
    have hrr : r' = r := by
      cases l with
      | nil =>
        have e1 : r = q := hrest
        have e2 : r' = q := hrest'
        rw [e1, e2]
      | cons c l =>
        rw [hrest.1, hrest'.1]
    subst hrr
    rcases List.mem_cons.mp ha with rfl | ha
    · rw [hr, hr']
    · exact ih hrest hrest' a ha

/-- When `uwsgi_remove_subscribe_node` returns 1 it has freed the pool of the node. -/
theorem remove_frees_pool {g : Registry} {d b : Nat} {nd : uwsgi_subscribe_node}
    {r : Nat × Registry} (hr : uwsgi_remove_subscribe_node g d = some r) (h1 : r.1 = 1)
    (hnd : g.nodeAt d = some nd) (hb : nd.slot = some b) : r.2.slotAt b = none := by
  unfold uwsgi_remove_subscribe_node at hr
  simp only [Option.bind_eq_bind, Option.bind_eq_some] at hr
  obtain ⟨nd', hnd', b', hb', ns, -, g1, -, g2, -, g3, -, ns3, -, hr⟩ := hr
  rw [hnd] at hnd'
  injection hnd' with hnd'
  subst hnd'
  have hbb : some b' = some b := by
    have e1 : nd.slot = some b' := hb'
    rw [← e1, hb]
  injection hbb with hbb
  subst hbb
  split at hr
  · simp only [Option.bind_eq_bind, Option.bind_eq_some] at hr
    obtain ⟨g4, -, g5, -, g6, e6, hr⟩ := hr
    have h6 : g6.slotAt b' = none := by rw [freeSlot_slotAt e6, if_pos rfl]
    split at hr
    · injection hr with hr; subst hr; exact h6
    · injection hr with hr; subst hr; exact h6
  · injection hr with hr
    subst hr
    simp at h1

/-- The code after the loop of `uwsgi_get_subscribe_node` on a pool with a node list that
is not empty: it hands out the first node. -/
theorem node_wrap_first (c t : Int) {g : Registry} {cur a : Nat} {sc : uwsgi_subscribe_slot}
    {l : List Nat} (hi : PoolInv g cur sc (a :: l)) :
    ∃ r, node_wrap g cur = some r ∧ r.1 = some a ∧ Benign c t cur g r.2 ∧
      ∀ n, n ≠ a → r.2.nodeAt n = g.nodeAt n := by
  obtain ⟨h1, e1, hat1, -, hn1⟩ := modifySlot_ex (fun x => { x with rr := 0 }) hi.1
  have hb1 : Benign c t cur g h1 := benign_modifySlot c t e1 (fun _ => ⟨rfl, rfl, rfl⟩)
  have hsc1 : h1.slotAt cur = some { sc with rr := 0 } := by rw [hat1 cur, if_pos rfl]
  obtain ⟨-, hseg, hback, -, -⟩ := hi
  have hnodes : sc.nodes = some a := hseg.1
  obtain ⟨nd, hnd, hs⟩ := Option.map_eq_some'.mp (hback a (List.mem_cons_self _ _))
  have hnd1 : h1.nodeAt a = some nd := by rw [modifySlot_nodeAt e1]; exact hnd
  obtain ⟨h2, e2, hat2, -, -⟩ :=
    modifyNode_ex (fun x => { x with reference := x.reference + 1 }) hnd1
  have hb2 : Benign c t cur h1 h2 :=
    benign_modifyNode e2 hnd1 hs rfl rfl (Nat.le_succ _) guarded_reference_succ
  refine ⟨(some a, h2), ?_, rfl, hb1.benign_trans hb2, fun n hn => ?_⟩
  · unfold node_wrap
    simp only [Option.bind_eq_bind, e1, Option.some_bind, hsc1, hnodes, e2]
  · show h2.nodeAt n = g.nodeAt n
    rw [hat2 n, if_neg hn, modifySlot_nodeAt e1]

/-- The loop of `uwsgi_get_subscribe_node` over the nodes of the pool `cur`, started at
the nodes `rest` with position `rr_pos`, the nodes `pre` having been kept already.  It
returns after visiting a prefix `visited` of `rest`.  The nodes of `visited` that were
not guarded are freed, and the node list of the pool afterwards is `pre`, the guarded
nodes of `visited` and the nodes `later` that were not visited; when that list is empty
the pool is freed and nothing is returned.  Either the whole of `rest` was visited and
the first node of the list that remains is returned, or the loop stopped at the first
node `N` of `later`, which is guarded, preceded in `visited` by `sc.rr - rr_pos` guarded
nodes and returned, and the nodes after `N` are untouched. -/
theorem node_loop_sweep (current tolerance : Int) (cur : Nat) :
    ∀ (rest : List Nat) (g : Registry) (pre : List Nat) (fuel : Nat) (p : Option Nat)
      (rr_pos : Nat) (sc : uwsgi_subscribe_slot),
      PoolInv g cur sc (pre ++ rest) → Seg g.nodeNext p rest none → rest.length ≤ fuel →
      pre ++ rest ≠ [] →
      ∃ r, node_loop current tolerance cur fuel g p rr_pos = some r ∧
        ∃ visited later, rest = visited ++ later ∧
          (∀ n ∈ visited, ∀ nd, g.nodeAt n = some nd → ¬ Guarded current tolerance nd →
            r.2.nodeAt n = none) ∧
          (pre ++ visited.filter (g.guarded current tolerance) ++ later = [] →
            r.1 = none ∧ r.2.slotAt cur = none) ∧
          (pre ++ visited.filter (g.guarded current tolerance) ++ later ≠ [] →
            ∃ sc1, PoolInv r.2 cur sc1
              (pre ++ visited.filter (g.guarded current tolerance) ++ later)) ∧
          ((later = [] ∧
              r.1 = (pre ++ visited.filter (g.guarded current tolerance)).head?) ∨
            ∃ N later1, later = N :: later1 ∧ r.1 = some N ∧
              g.guarded current tolerance N = true ∧
              rr_pos + (visited.filter (g.guarded current tolerance)).length = sc.rr ∧
              ∀ n ∈ later1, r.2.nodeAt n = g.nodeAt n) := by
  intro rest
  induction rest with
  | nil =>
    intro g pre fuel p rr_pos sc hi hp _ hne
    have hpn : p = none := hp
    subst hpn
    cases pre with
    | nil => simp at hne
    | cons a pre =>
      have hi' : PoolInv g cur sc (a :: pre) := by simpa using hi
      obtain ⟨r, hr, hr1, hb, -⟩ := node_wrap_first current tolerance hi'
      obtain ⟨sc1, hi1, -⟩ := hb.poolInv hi'
      refine ⟨r, ?_, [], [], rfl, fun n hn => by simp at hn, fun he => by simp at he,
        fun _ => ⟨sc1, by simpa using hi1⟩, Or.inl ⟨rfl, by simpa using hr1⟩⟩
      cases fuel <;> simpa only [node_loop] using hr
  | cons d rest ih =>
    intro g pre fuel p rr_pos sc hi hp hlen _
    have hnodup : (pre ++ d :: rest).Nodup := Seg.nodup hi.2.1
    have hd_rest : d ∉ rest := by
      have := (List.nodup_append.mp hnodup).2.1
      exact (List.nodup_cons.mp this).1
    obtain ⟨rfl, r0, hr0, hrest⟩ := hp
    obtain ⟨nd, hnd, hnext⟩ := nodeNext_some hr0
    subst hnext
    have hdmem : d ∈ pre ++ d :: rest := by simp
    have hslot : nd.slot = some cur := by
      have := hi.2.2.1 d hdmem
      rw [hnd] at this
      simpa using this
    cases fuel with
    | zero => simp at hlen
    | succ fuel =>
      have hfuel : rest.length ≤ fuel := by simpa using hlen
      have hmark : ∃ h1 nd1, (if current - nd.last_check > tolerance then
            g.modifyNode d (fun x => { x with death_mark := true }) else some g) = some h1 ∧
          Benign current tolerance cur g h1 ∧ h1.nodeAt d = some nd1 ∧ nd1.next = nd.next ∧
          (∀ x, x ≠ d → h1.nodeAt x = g.nodeAt x) ∧ (∀ a, h1.slotAt a = g.slotAt a) ∧
          ((nd1.death_mark = true ∧ nd1.reference = 0) ↔ ¬ Guarded current tolerance nd) := by
        have hiff := dead_iff_not_guarded (c := current) (t := tolerance) nd
        by_cases hst : current - nd.last_check > tolerance
        · obtain ⟨h1, e1, hat1, -, hsl⟩ :=
            modifyNode_ex (fun x => { x with death_mark := true }) hnd
          refine ⟨h1, { nd with death_mark := true }, by rw [if_pos hst]; exact e1,
            benign_modifyNode e1 hnd hslot rfl rfl (le_refl _) (guarded_mark hst), ?_, rfl,
            fun x hx => by rw [hat1 x, if_neg hx],
            fun a => by simp only [Registry.slotAt, hsl], ?_⟩
          · rw [hat1 d, if_pos rfl]
          · rw [if_pos hst] at hiff
            exact hiff
        · refine ⟨g, nd, by rw [if_neg hst], Benign.benign_refl current tolerance cur g, hnd, rfl,
            fun _ _ => rfl, fun _ => rfl, ?_⟩
          rw [if_neg hst] at hiff
          exact hiff
      obtain ⟨h1, nd1, emark, hb1, hnd1, hnx1, hat1, hsl1, hiff⟩ := hmark
      obtain ⟨sc1, hi1, -⟩ := hb1.poolInv hi
      have hsc1 : sc1 = sc := by
        have h1c := hi1.1
        rw [hsl1 cur, hi.1] at h1c
        exact (Option.some.inj h1c).symm
      rw [hsc1] at hi1
      have hrest1 : Seg h1.nodeNext nd.next rest none := hb1.seg hrest
      have hg1 : ∀ n ∈ rest, h1.nodeAt n = g.nodeAt n := fun n hn =>
        hat1 n (fun e => hd_rest (e ▸ hn))
      by_cases hdead : nd1.death_mark = true ∧ nd1.reference = 0
      · -- the node is dead and unreferenced: it is removed
        have hng : ¬ Guarded current tolerance nd := hiff.mp hdead
        have hgd : g.guarded current tolerance d = false := by
          simp [Registry.guarded, hnd, hng]
        have hslot1 : nd1.slot = some cur := by
          have := hi1.2.2.1 d hdmem
          rw [hnd1] at this
          simpa using this
        obtain ⟨hsc, hseg, hback, hp, hn⟩ := hi1
        obtain ⟨nd', r, hnd', hrem, -, -, hfree, hnodes, hcase⟩ :=
          remove_spec hsc hseg hback hp hn
        rw [hnd1] at hnd'; injection hnd' with hnd'; subst hnd'
        rcases hcase with ⟨hnil, h1'⟩ | ⟨hnn, h0, sc', hsc', hsceq, hp', hn', hseg', hpost'⟩
        · have hrn : rest = [] := by
            cases rest with
            | nil => rfl
            | cons x xs => simp at hnil
          have hpn : pre = [] := by
            cases pre with
            | nil => rfl
            | cons x xs => simp at hnil
          refine ⟨(none, r.2), ?_, [d], [], by rw [hrn]; rfl, ?_, ?_, ?_, Or.inl ⟨rfl, ?_⟩⟩
          · simp only [node_loop, Option.bind_eq_bind, hnd, Option.some_bind, emark, hnd1, hdead,
              and_self, if_true, hrem, h1']
          · intro n hn' x _ _
            have : n = d := by simpa using hn'
            rw [this]; exact hfree
          · intro _
            exact ⟨rfl, remove_frees_pool hrem h1' hnd1 hslot1⟩
          · intro hne'
            exfalso
            apply hne'
            simp [hpn, hgd]
          · simp [hpn, hgd]
        · have h0' : ¬ r.1 = 1 := by omega
          have hi' : PoolInv r.2 cur sc' (pre ++ rest) := by
            refine ⟨hsc', hseg', fun n hn'' => ?_, hp', hn'⟩
            obtain ⟨y, y', hy, hy', he⟩ := hnodes n hn''
            have hmem' : n ∈ pre ++ d :: rest := by
              rcases List.mem_append.mp hn'' with h' | h'
              · exact List.mem_append_left _ h'
              · exact List.mem_append_right _ (List.mem_cons_of_mem _ h')
            have := hback n hmem'
            rw [hy] at this
            rw [hy', he]
            simpa using this
          have hrr' : sc'.rr = sc.rr := by rw [hsceq]
          rw [hnx1] at hpost'
          obtain ⟨r', hr', visited, later, hsplit, hfreed, hempty, hlist, hstop⟩ :=
            ih r.2 pre fuel nd.next rr_pos sc' hi' hpost' hfuel hnn
          have hvis : ∀ n ∈ visited, n ∈ rest := fun n hn'' => by
            rw [hsplit]; exact List.mem_append_left _ hn''
          -- the nodes of `rest` are untouched by the removal
          have hsame : ∀ n ∈ rest, r.2.nodeAt n = g.nodeAt n := by
            intro n hn''
            obtain ⟨y, y', hy, hy', he⟩ := hnodes n (List.mem_append_right _ hn'')
            have hnx := seg_next_eq hrest1 hpost' n hn''
            have hyn : y'.next = y.next := by
              simp only [Registry.nodeNext, hy, hy', Option.map_some', Option.some.injEq] at hnx
              exact hnx
            rw [hy', ← hg1 n hn'', hy, he, hyn]
          have hgeq : ∀ n ∈ rest, r.2.guarded current tolerance n = g.guarded current tolerance n := by
            intro n hn''
            simp only [Registry.guarded, hsame n hn'']
          have hstep := (node_loop_refStep current tolerance cur _ _ _ _ _ hr').1
          have hfilter : (d :: visited).filter (g.guarded current tolerance) =
              visited.filter (r.2.guarded current tolerance) := by
            rw [List.filter_cons_of_neg (by simp [hgd])]
            exact List.filter_congr (fun n hn'' => (hgeq n (hvis n hn'')).symm)
          refine ⟨r', ?_, d :: visited, later, by rw [hsplit]; rfl, ?_, ?_, ?_, ?_⟩
          · simp only [node_loop, Option.bind_eq_bind, hnd, Option.some_bind, emark, hnd1, hdead,
              and_self, if_true, hrem, if_neg h0', hnx1]
            exact hr'
          · intro n hn'' x hx hngx
            rcases List.mem_cons.mp hn'' with e | hn3
            · subst e
              cases hq : r'.2.nodeAt n with
              | none => rfl
              | some q =>
                obtain ⟨q0, hq0, -⟩ := hstep n q hq
                rw [hfree] at hq0
                simp at hq0
            · exact hfreed n hn3 x (by rw [hsame n (hvis n hn3)]; exact hx) hngx
          · rw [hfilter]; exact hempty
          · rw [hfilter]; exact hlist
          · rw [hfilter]
            rcases hstop with hnil | ⟨N, later1, hl1, hrN, hgN, hcount, hlater⟩
            · exact Or.inl hnil
            · have hNrest : N ∈ rest := by
                rw [hsplit, hl1]; simp
              refine Or.inr ⟨N, later1, hl1, hrN, by rw [← hgeq N hNrest]; exact hgN,
                by rw [hcount, hrr'], fun n hn'' => ?_⟩
              have hnrest : n ∈ rest := by
                rw [hsplit, hl1]; simp [hn'']
              rw [hlater n hn'', hsame n hnrest]
      · -- the node stays
        have hgn : Guarded current tolerance nd := by
          by_contra hng
          exact hdead (hiff.mpr hng)
        have hgd : g.guarded current tolerance d = true := by
          simp [Registry.guarded, hnd, hgn]
        by_cases hrr : rr_pos = sc.rr
        · obtain ⟨h2, e2, -, -, -⟩ := modifySlot_ex (fun x => { x with rr := x.rr + 1 }) hi1.1
          have hb2 : Benign current tolerance cur h1 h2 :=
            benign_modifySlot current tolerance e2 (fun _ => ⟨rfl, rfl, rfl⟩)
          have hnd2 : h2.nodeAt d = some nd1 := by rw [modifySlot_nodeAt e2]; exact hnd1
          obtain ⟨h3, e3, hat3, -, -⟩ :=
            modifyNode_ex (fun x => { x with reference := x.reference + 1 }) hnd2
          have hslot1 : nd1.slot = some cur := by
            have := hi1.2.2.1 d hdmem
            rw [hnd1] at this
            simpa using this
          have hb3 : Benign current tolerance cur h2 h3 :=
            benign_modifyNode e3 hnd2 hslot1 rfl rfl (Nat.le_succ _) guarded_reference_succ
          obtain ⟨sc3, hi3, -⟩ := (hb2.benign_trans hb3).poolInv hi1
          refine ⟨(some d, h3), ?_, [], d :: rest, rfl, fun n hn => by simp at hn,
            fun he => by simp at he, fun _ => ⟨sc3, by simpa using hi3⟩,
            Or.inr ⟨d, rest, rfl, rfl, hgd, by simpa using hrr, fun n hn'' => ?_⟩⟩
          · simp only [node_loop, Option.bind_eq_bind, hnd, Option.some_bind, emark, hnd1, hdead,
              if_false, hi1.1, hrr, if_true, e2, e3]
          · have hnd' : n ≠ d := fun e => hd_rest (e ▸ hn'')
            show h3.nodeAt n = g.nodeAt n
            rw [hat3 n, if_neg hnd', modifySlot_nodeAt e2, hat1 n hnd']
        · have hi1' : PoolInv h1 cur sc ((pre ++ [d]) ++ rest) := by
            simpa using hi1
          obtain ⟨r', hr', visited, later, hsplit, hfreed, hempty, hlist, hstop⟩ :=
            ih h1 (pre ++ [d]) fuel nd.next (rr_pos + 1) sc hi1' hrest1 hfuel (by simp)
          have hvis : ∀ n ∈ visited, n ∈ rest := fun n hn'' => by
            rw [hsplit]; exact List.mem_append_left _ hn''
          have hgeq : ∀ n ∈ rest, h1.guarded current tolerance n = g.guarded current tolerance n := by
            intro n hn''
            simp only [Registry.guarded, hg1 n hn'']
          have hfilter : (d :: visited).filter (g.guarded current tolerance) =
              d :: visited.filter (h1.guarded current tolerance) := by
            rw [List.filter_cons_of_pos (by simp [hgd])]
            congr 1
            exact List.filter_congr (fun n hn'' => (hgeq n (hvis n hn'')).symm)
          have hassoc : ∀ (x : List Nat), pre ++ d :: x ++ later = pre ++ [d] ++ x ++ later := by
            intro x; simp
          refine ⟨r', ?_, d :: visited, later, by rw [hsplit]; rfl, ?_, ?_, ?_, ?_⟩
          · simp only [node_loop, Option.bind_eq_bind, hnd, Option.some_bind, emark, hnd1, hdead,
              if_false, hi1.1, hrr, hnx1]
            exact hr'
          · intro n hn'' x hx hngx
            rcases List.mem_cons.mp hn'' with e | hn3
            · subst e
              rw [hnd] at hx; injection hx with hx; subst hx
              exact absurd hgn hngx
            · exact hfreed n hn3 x (by rw [hg1 n (hvis n hn3)]; exact hx) hngx
          · rw [hfilter, hassoc]; exact hempty
          · rw [hfilter, hassoc]; exact hlist
          · rw [hfilter]
            rcases hstop with ⟨hnil, hres⟩ | ⟨N, later1, hl1, hrN, hgN, hcount, hlater⟩
            · refine Or.inl ⟨hnil, ?_⟩
              rw [hres]
              simp
            · have hNrest : N ∈ rest := by
                rw [hsplit, hl1]; simp
              refine Or.inr ⟨N, later1, hl1, hrN, by rw [← hgeq N hNrest]; exact hgN, ?_,
                fun n hn'' => ?_⟩
              · rw [← hcount]
                simp only [List.length_cons]
                omega
              · have hnrest : n ∈ rest := by
                  rw [hsplit, hl1]; simp [hn'']
                rw [hlater n hn'', hg1 n hnrest]

/-- The two ways a call of `uwsgi_get_subscribe_node` returns: no pool is found and the
memory is the one the lookup leaves, or the lookup returns a pool `cur`, its `hits` is
incremented and the result is the result of the loop over the nodes of `cur`. -/
theorem select_inv {rx : Pcre} {tolerance : Int} {h : Registry} {key : List Nat}
    {keylen : Nat} {regexp : Bool} {current : Int} {r : Option Nat × Registry}
    (hr : uwsgi_get_subscribe_node rx tolerance h key keylen regexp current = some r) :
    (r.1 = none ∧ SameCore h r.2 ∧
      ∀ c x, uwsgi_get_subscribe_slot rx h key keylen regexp ≠ some (some c, x)) ∨
    ∃ cur h0 h2 s0, uwsgi_get_subscribe_slot rx h key keylen regexp = some (some cur, h0) ∧
      h0.slotAt cur = some s0 ∧
      h0.modifySlot cur (fun x => { x with hits := x.hits + 1 }) = some h2 ∧
      node_loop current tolerance cur h2.nodeFuel h2 s0.nodes 0 = some r := by
  unfold uwsgi_get_subscribe_node at hr
  split at hr
  · next hk =>
    injection hr with hr
    subst hr
    refine Or.inl ⟨rfl, SameCore.core_refl h, fun c x e => ?_⟩
    unfold uwsgi_get_subscribe_slot at e
    rw [if_pos hk] at e
    simp at e
  · simp only [Option.bind_eq_bind, Option.bind_eq_some] at hr
    obtain ⟨r0, e0, hr⟩ := hr
    cases hc : r0.1 with
    | none =>
      rw [hc] at hr
      injection hr with hr
      subst hr
      have c0 : SameCore h r0.2 := get_slot_sameCore e0
      refine Or.inl ⟨rfl, c0, fun c x e => ?_⟩
      rw [e0] at e
      injection e with e
      rw [e] at hc
      simp at hc
    | some cur =>
      rw [hc] at hr
      simp only [Option.bind_eq_bind, Option.bind_eq_some] at hr
      obtain ⟨h2, e2, s, hs, hr⟩ := hr
      obtain ⟨s0, hs0, -⟩ := modifySlot_inv e2
      have hs2 : h2.slotAt cur = some { s0 with hits := s0.hits + 1 } := by
        rw [modifySlot_slotAt e2, if_pos rfl, hs0]; rfl
      rw [hs2] at hs
      injection hs with hs
      subst hs
      refine Or.inr ⟨cur, r0.2, h2, s0, ?_, hs0, e2, hr⟩
      rw [e0, ← hc]

/-- A call of `uwsgi_get_subscribe_node` that returns, seen through a memory `g` in which
the pool `cur` found by the lookup has no neighbours: `g` holds the nodes and node lists
of the memory before the call, the loop over the nodes of `cur` started from `g` cannot
fail, and its result agrees with the result of the call up to the links between the
pools. -/
theorem select_unlinked {rx : Pcre} {tolerance : Int} {h h0 : Registry} {key : List Nat}
    {keylen : Nat} {regexp : Bool} {current : Int} {cur : Nat} {r : Option Nat × Registry}
    (hok : PoolOK h cur)
    (hget : uwsgi_get_subscribe_slot rx h key keylen regexp = some (some cur, h0))
    (hr : uwsgi_get_subscribe_node rx tolerance h key keylen regexp current = some r) :
    ∃ sc ns g s1, h.slotAt cur = some sc ∧ h.poolNodes cur = some ns ∧ ns ≠ [] ∧
      g.nodes = h.nodes ∧ SameLists h g ∧ PoolInv g cur s1 ns ∧ s1.rr = sc.rr ∧
      ns.length ≤ g.nodeFuel ∧
      ∀ r1, node_loop current tolerance cur g.nodeFuel g s1.nodes 0 = some r1 →
        r1.1 = r.1 ∧ SameCore r.2 r1.2 := by
  rcases select_inv hr with ⟨-, -, hno⟩ | ⟨cur', h0', h2, s0, hget', hs0, e2, hloop⟩
  · exact absurd hget (hno cur h0)
  rw [hget] at hget'
  have hcc : cur = cur' ∧ h0 = h0' := by
    injection hget' with hget'
    injection hget' with hc hh
    injection hc with hc
    exact ⟨hc, hh⟩
  obtain ⟨rfl, rfl⟩ := hcc
  have c0 : SameCore h h0 := get_slot_sameCore hget
  obtain ⟨ns, hns, hne, hback⟩ := hok
  have hns : h.poolNodes cur = some ns := hns
  obtain ⟨sc, hsc, hseg⟩ := seg_of_poolNodes hns
  have hcore : s0.core = sc.core := sameCore_slot c0 hsc hs0
  have hn0 : s0.nodes = sc.nodes := by
    have := congrArg (fun x => x.nodes) hcore
    simpa [uwsgi_subscribe_slot.core] using this
  have hr0 : s0.rr = sc.rr := by
    have := congrArg (fun x => x.rr) hcore
    simpa [uwsgi_subscribe_slot.core] using this
  have hs2 : h2.slotAt cur = some { s0 with hits := s0.hits + 1 } := by
    rw [modifySlot_slotAt e2, if_pos rfl, hs0]; rfl
  obtain ⟨g, eg, hatg, -, hng⟩ :=
    modifySlot_ex (fun x => { x with prev := none, next := none }) hs2
  have c2 : SameCore h2 g := modifySlot_sameCore eg (fun _ => rfl)
  have l02 : SameLists h0 h2 := sameLists_modifySlot e2 (fun _ => rfl)
  have lg : SameLists h g :=
    ((SameLists.of_core c0).lists_trans l02).lists_trans (SameLists.of_core c2)
  have hnodes : g.nodes = h.nodes := by
    rw [hng, modifySlot_nodes e2, c0.1]
  have hsg : g.slotAt cur =
      some { s0 with hits := s0.hits + 1, prev := none, next := none } := by
    rw [hatg cur, if_pos rfl]
  have hfuel : ns.length ≤ g.nodeFuel := by
    have hw : walk h.nodeNext h.nodeFuel sc.nodes = some ns := by
      unfold Registry.poolNodes at hns
      simpa [hsc] using hns
    have := walk_length _ _ _ _ hw
    simpa [Registry.nodeFuel, hnodes] using this
  have hinv : PoolInv g cur { s0 with hits := s0.hits + 1, prev := none, next := none } ns := by
    refine ⟨hsg, ?_, fun n hn => ?_, fun x hx => by simp at hx, fun x hx => by simp at hx⟩
    · show Seg g.nodeNext s0.nodes ns none
      rw [hn0]
      exact Seg.congr (fun x _ => lg.next_eq x) hseg
    · rw [lg.slot_eq]
      exact hback n hn
  refine ⟨sc, ns, g, _, hsc, hns, hne, hnodes, lg, hinv, hr0, hfuel, fun r1 hr1 => ?_⟩
  have hf : g.nodeFuel = h2.nodeFuel := by
    simp only [Registry.nodeFuel, hng]
  rw [hf] at hr1
  exact node_loop_sim current tolerance cur _ _ _ _ _ _ _ c2 hloop hr1

theorem nodeLists_poolOK {h : Registry} (hi : NodeLists h) {a : Nat} {s : uwsgi_subscribe_slot}
    (hs : h.slotAt a = some s) : PoolOK h a :=
  hi.1 a (cell_lt hs) (by rw [hs]; rfl)

theorem nodeLists_home {h : Registry} (hi : NodeLists h) {n : Nat} {nd : uwsgi_subscribe_node}
    (hn : h.nodeAt n = some nd) : ∃ a ns, nd.slot = some a ∧ h.poolNodes a = some ns ∧ n ∈ ns := by
  obtain ⟨a, ha, ns, hns, hmem⟩ := hi.2 n (cell_lt hn) nd hn
  exact ⟨a, ns, ha, hns, hmem⟩


theorem remove_reads {g : Registry} {d : Nat} {r : Nat × Registry}
    (hr : uwsgi_remove_subscribe_node g d = some r) :
    ∃ nd b sb, g.nodeAt d = some nd ∧ nd.slot = some b ∧ g.slotAt b = some sb := by
  unfold uwsgi_remove_subscribe_node at hr
  simp only [Option.bind_eq_bind, Option.bind_eq_some] at hr
  obtain ⟨nd, hnd, b, hb, ns, hns, -⟩ := hr
  exact ⟨nd, b, ns, hnd, hb, hns⟩

theorem poolNodes_allocated {h : Registry} {a : Nat} {ns : List Nat}
    (hns : h.poolNodes a = some ns) : ∃ s, h.slotAt a = some s := by
  obtain ⟨s, hs, -⟩ := seg_of_poolNodes hns
  exact ⟨s, hs⟩

/-- The shape of the node lists survives `uwsgi_remove_subscribe_node`. -/
theorem remove_nodeLists {g : Registry} {d : Nat} {r : Nat × Registry} (hi : NodeLists g)
    (hr : uwsgi_remove_subscribe_node g d = some r) : NodeLists r.2 := by
  obtain ⟨nd, b, sb, hnd, hb, hsb⟩ := remove_reads hr
  obtain ⟨a0, l0, hslot0, hl0, hmem0⟩ := nodeLists_home hi hnd
  have hab : a0 = b := by
    rw [hb] at hslot0
    exact (Option.some.inj hslot0).symm
  subst hab
  obtain ⟨pre, post, hsplit⟩ := List.append_of_mem hmem0
  subst hsplit
  obtain ⟨lb, hlb, -, hbackb⟩ := nodeLists_poolOK hi hsb
  have hlb : g.poolNodes a0 = some lb := hlb
  rw [hl0] at hlb
  injection hlb with hlb
  subst hlb
  -- the same memory with the pool cut off from its neighbours
  obtain ⟨g1, eg, hatg, -, hng⟩ :=
    modifySlot_ex (fun x => { x with prev := none, next := none }) hsb
  have c0 : SameCore g g1 := modifySlot_sameCore eg (fun _ => rfl)
  have l0g : SameLists g g1 := SameLists.of_core c0
  have hi1 : NodeLists g1 := l0g.shape hi
  have hs1 : g1.slotAt a0 = some { sb with prev := none, next := none } := by
    rw [hatg a0, if_pos rfl]
  have hseg1 : Seg g1.nodeNext sb.nodes (pre ++ d :: post) none := by
    obtain ⟨s, hs, hseg⟩ := seg_of_poolNodes hl0
    rw [hsb] at hs
    injection hs with hs
    subst hs
    exact Seg.congr (fun x _ => l0g.next_eq x) hseg
  have hback1 : ∀ n ∈ pre ++ d :: post,
      (g1.nodeAt n).map (fun x => x.slot) = some (some a0) := by
    intro n hn
    rw [l0g.slot_eq]
    exact hbackb n hn
  obtain ⟨nd1, r1, hnd1, hr1, hframe, -, hfree, hnodes, hcase⟩ :=
    @remove_spec g1 a0 d { sb with prev := none, next := none } pre post hs1 hseg1 hback1
      (fun x hx => by simp at hx) (fun x hx => by simp at hx)
  obtain ⟨hval, c1⟩ := remove_sim c0 hr hr1
  apply (SameLists.of_core c1).lists_symm.shape
  have hslot1 : nd1.slot = some a0 := by
    have := hback1 d (by simp)
    rw [hnd1] at this
    simpa using this
  -- the list of the pool afterwards
  have hpool : pre ++ post ≠ [] → PoolOK r1.2 a0 ∧ r1.2.poolNodes a0 = some (pre ++ post) := by
    intro hne
    rcases hcase with ⟨hnil, -⟩ | ⟨-, -, sc1, hsc1, -, -, -, hseg', -⟩
    · exact absurd hnil hne
    · have hp := poolNodes_of_seg hsc1 hseg'
      refine ⟨⟨pre ++ post, hp, hne, fun n hn => ?_⟩, hp⟩
      obtain ⟨x, x1, hx, hx1, he⟩ := hnodes n hn
      have hmem : n ∈ pre ++ d :: post := by
        rcases List.mem_append.mp hn with h1 | h1
        · exact List.mem_append_left _ h1
        · exact List.mem_append_right _ (List.mem_cons_of_mem _ h1)
      have := hback1 n hmem
      rw [hx] at this
      rw [hx1, he]
      simpa using this
  have hother : ∀ a, a ≠ a0 → ∀ s, g1.slotAt a = some s →
      PoolOK r1.2 a ∧ r1.2.poolNodes a = g1.poolNodes a ∧
        ∀ ns, g1.poolNodes a = some ns → ∀ n ∈ ns, r1.2.nodeAt n = g1.nodeAt n := by
    intro a ha s hs
    obtain ⟨ns, hns, hne, hback⟩ := nodeLists_poolOK hi1 hs
    have hns : g1.poolNodes a = some ns := hns
    obtain ⟨hp, hn⟩ := frame_pool hframe ha hns hback
    refine ⟨⟨ns, hp, hne, fun n hn' => by rw [hn n hn']; exact hback n hn'⟩, by rw [hp, hns],
      fun ns' hns' n hn' => ?_⟩
    rw [hns] at hns'
    injection hns' with hns'
    subst hns'
    exact hn n hn'
  constructor
  · intro a _ hsome
    obtain ⟨s, hs⟩ := Option.isSome_iff_exists.mp hsome
    by_cases ha : a = a0
    · subst ha
      by_cases hne : pre ++ post = []
      · rcases hcase with ⟨-, h1⟩ | ⟨hnn, -⟩
        · have := remove_frees_pool hr1 h1 hnd1 hslot1
          rw [hs] at this
          simp at this
        · exact absurd hne hnn
      · exact (hpool hne).1
    · have hcs := hframe.1 a ha
      rw [hs] at hcs
      cases hg : g1.slotAt a with
      | none => rw [hg] at hcs; simp at hcs
      | some sg => exact (hother a ha sg hg).1
  · intro n _ x hx
    have hx : r1.2.nodeAt n = some x := hx
    obtain ⟨x0, hx0, -⟩ := remove_refStep hr1 n x hx
    have hnd' : n ≠ d := by
      rintro rfl
      rw [hfree] at hx
      simp at hx
    obtain ⟨a, ns, hsl, hns, hmem⟩ := nodeLists_home hi1 hx0
    by_cases ha : a = a0
    · subst ha
      have hl1 : g1.poolNodes a = some (pre ++ d :: post) := by rw [l0g.pool_eq]; exact hl0
      rw [hl1] at hns
      injection hns with hns
      subst hns
      have hmem' : n ∈ pre ++ post := by
        rcases List.mem_append.mp hmem with h1 | h1
        · exact List.mem_append_left _ h1
        · rcases List.mem_cons.mp h1 with h2 | h2
          · exact absurd h2 hnd'
          · exact List.mem_append_right _ h2
      have hne : pre ++ post ≠ [] := List.ne_nil_of_mem hmem'
      obtain ⟨y, y1, hy, hy1, he⟩ := hnodes n hmem'
      rw [hx] at hy1
      injection hy1 with hy1
      subst hy1
      rw [hx0] at hy
      injection hy with hy
      subst hy
      refine ⟨a, ?_, pre ++ post, (hpool hne).2, hmem'⟩
      show x.slot = some a
      rw [he]
      exact hsl
    · obtain ⟨s, hs⟩ := poolNodes_allocated hns
      obtain ⟨-, hp, hn⟩ := hother a ha s hs
      have hxe : r1.2.nodeAt n = g1.nodeAt n := hn ns hns n hmem
      rw [hx, hx0] at hxe
      injection hxe with hxe
      subst hxe
      exact ⟨a, hsl, ns, by rw [hp]; exact hns, hmem⟩

theorem node_wrap_nodeLists {g : Registry} {cur : Nat} {r : Option Nat × Registry}
    (hi : NodeLists g) (hr : node_wrap g cur = some r) : NodeLists r.2 := by
  unfold node_wrap at hr
  simp only [Option.bind_eq_bind, Option.bind_eq_some] at hr
  obtain ⟨h1, e1, s, -, hr⟩ := hr
  have i1 : NodeLists h1 := (sameLists_modifySlot e1 (fun _ => rfl)).shape hi
  split at hr
  · simp only [Option.bind_eq_bind, Option.bind_eq_some] at hr
    obtain ⟨h2, e2, hr⟩ := hr
    injection hr with hr
    subst hr
    exact (sameLists_modifyNode e2 (fun _ => ⟨rfl, rfl⟩)).shape i1
  · injection hr with hr
    subst hr
    exact i1

theorem node_loop_nodeLists (current tolerance : Int) (cur : Nat) :
    ∀ (fuel : Nat) (g : Registry) (p : Option Nat) (rr_pos : Nat) (r : Option Nat × Registry),
      NodeLists g → node_loop current tolerance cur fuel g p rr_pos = some r →
      NodeLists r.2 := by
  intro fuel
  induction fuel with
  | zero =>
    intro g p rr_pos r hi hr
    cases p with
    | none => exact node_wrap_nodeLists hi (by simpa only [node_loop] using hr)
    | some a => simp [node_loop] at hr
  | succ fuel ih =>
    intro g p rr_pos r hi hr
    cases p with
    | none => exact node_wrap_nodeLists hi (by simpa only [node_loop] using hr)
    | some node =>
      simp only [node_loop, Option.bind_eq_bind, Option.bind_eq_some] at hr
      obtain ⟨nd, -, h1, e1, nd1, -, hr⟩ := hr
      have i1 : NodeLists h1 := by
        split at e1
        · exact (sameLists_modifyNode e1 (fun _ => ⟨rfl, rfl⟩)).shape hi
        · injection e1 with e1; subst e1; exact hi
      split at hr
      · simp only [Option.bind_eq_bind, Option.bind_eq_some] at hr
        obtain ⟨r0, e0, hr⟩ := hr
        have i2 := remove_nodeLists i1 e0
        split at hr
        · injection hr with hr; subst hr; exact i2
        · exact ih _ _ _ _ i2 hr
      · simp only [Option.bind_eq_bind, Option.bind_eq_some] at hr
        obtain ⟨s, -, hr⟩ := hr
        split at hr
        · simp only [Option.bind_eq_bind, Option.bind_eq_some] at hr
          obtain ⟨h2, e2, h3, e3, hr⟩ := hr
          injection hr with hr
          subst hr
          exact (sameLists_modifyNode e3 (fun _ => ⟨rfl, rfl⟩)).shape
            ((sameLists_modifySlot e2 (fun _ => rfl)).shape i1)
        · exact ih _ _ _ _ i1 hr

/-- The shape of the node lists survives `uwsgi_get_subscribe_node`. -/
theorem select_nodeLists {rx : Pcre} {tolerance : Int} {h : Registry} {key : List Nat}
    {keylen : Nat} {regexp : Bool} {current : Int} {r : Option Nat × Registry}
    (hi : NodeLists h)
    (hr : uwsgi_get_subscribe_node rx tolerance h key keylen regexp current = some r) :
    NodeLists r.2 := by
  rcases select_inv hr with ⟨-, c0, -⟩ | ⟨cur, h0, h2, s0, hget, -, e2, hloop⟩
  · exact (SameLists.of_core c0).shape hi
  · have i0 : NodeLists h0 := (SameLists.of_core (get_slot_sameCore hget)).shape hi
    have i2 : NodeLists h2 := (sameLists_modifySlot e2 (fun _ => rfl)).shape i0
    exact node_loop_nodeLists current tolerance cur _ _ _ _ _ i2 hloop

theorem link_last_sameCore {h h1 : Registry} {cur : Nat} (hm : link_last h cur = some h1) :
    SameCore h h1 := by
  unfold link_last at hm
  simp only [Option.bind_eq_bind, Option.bind_eq_some] at hm
  obtain ⟨old_slot, -, g1, e1, g2, e2, e3⟩ := hm
  exact ((link_step_sameCore e1 (fun _ => rfl)).core_trans
    (modifySlot_sameCore e2 (fun _ => rfl))).core_trans (modifySlot_sameCore e3 (fun _ => rfl))

theorem link_before_sameCore {h h1 : Registry} {cur old_slot : Nat}
    (hm : link_before h cur old_slot = some h1) : SameCore h h1 := by
  unfold link_before at hm
  simp only [Option.bind_eq_bind, Option.bind_eq_some] at hm
  obtain ⟨os, -, g1, e1, g2, e2, c2, -, g3, e3, e4⟩ := hm
  have c3 : SameCore g2 g3 := by
    split at e3
    · simp only [Option.bind_eq_bind, Option.bind_eq_some] at e3
      obtain ⟨o2, -, p, -, e3⟩ := e3
      exact modifySlot_sameCore e3 (fun _ => rfl)
    · injection e3 with e3
      subst e3
      exact SameCore.core_refl _
  exact (((modifySlot_sameCore e1 (fun _ => rfl)).core_trans
    (modifySlot_sameCore e2 (fun _ => rfl))).core_trans c3).core_trans
    (modifySlot_sameCore e4 (fun _ => rfl))

theorem nodeAt_append {h : Registry} (new : uwsgi_subscribe_node) (x : Nat) :
    cell (h.nodes ++ [some new]) x = if x = h.nodes.length then some new else h.nodeAt x := by
  by_cases hx : x = h.nodes.length
  · subst hx
    rw [if_pos rfl, cell_append_new]
  · rw [if_neg hx]
    by_cases hlt : x < h.nodes.length
    · exact cell_append_old _ _ _ hlt
    · unfold Registry.nodeAt cell
      rw [List.getElem?_eq_none (by simp; omega), List.getElem?_eq_none (by omega)]

theorem slotAt_append {h : Registry} (p : uwsgi_subscribe_slot) (x : Nat) :
    cell (h.slots ++ [some p]) x = if x = h.slots.length then some p else h.slotAt x := by
  by_cases hx : x = h.slots.length
  · subst hx
    rw [if_pos rfl, cell_append_new]
  · rw [if_neg hx]
    by_cases hlt : x < h.slots.length
    · exact cell_append_old _ _ _ hlt
    · unfold Registry.slotAt cell
      rw [List.getElem?_eq_none (by simp; omega), List.getElem?_eq_none (by omega)]

/-- A pool keeps its node list in a memory that holds the same pool and the same nodes of
that list. -/
theorem poolOK_of_same {h h1 : Registry} {a : Nat} {ns : List Nat}
    (hns : h.poolNodes a = some ns) (hs : h1.slotAt a = h.slotAt a)
    (hn : ∀ n ∈ ns, h1.nodeAt n = h.nodeAt n) : h1.poolNodes a = some ns := by
  obtain ⟨s, hsa, hseg⟩ := seg_of_poolNodes hns
  apply poolNodes_of_seg (by rw [hs]; exact hsa)
  exact Seg.congr (fun x hx => by simp only [Registry.nodeNext, hn x hx]) hseg

/-- The shape of the node lists survives the allocation of a node at the end of the node
list of a pool (source lines 208-221). -/
theorem append_node_nodeLists {h h2 : Registry} {cur o : Nat} {sc : uwsgi_subscribe_slot}
    {pre : List Nat} (new : uwsgi_subscribe_node) (hi : NodeLists h)
    (hsc : h.slotAt cur = some sc) (hseg : Seg h.nodeNext sc.nodes (pre ++ [o]) none)
    (hslot : new.slot = some cur) (hnext : new.next = none)
    (e2 : ({ h with nodes := h.nodes ++ [some new] } : Registry).modifyNode o
      (fun x => { x with next := some h.nodes.length }) = some h2) :
    NodeLists h2 := by
  obtain ⟨no, hno1, -⟩ := modifyNode_inv e2
  have hat2 : ∀ x, h2.nodeAt x = if x = o then some { no with next := some h.nodes.length }
      else if x = h.nodes.length then some new else h.nodeAt x := by
    intro x
    obtain ⟨g, eg, hg, -, -⟩ := modifyNode_ex
      (fun x : uwsgi_subscribe_node => { x with next := some h.nodes.length }) hno1
    rw [e2] at eg
    injection eg with eg
    subst eg
    rw [hg x]
    split
    · rfl
    · exact nodeAt_append new x
  have hsl2 : ∀ a, h2.slotAt a = h.slotAt a := fun a => by
    rw [modifyNode_slotAt e2]; rfl
  have hpl : h.poolNodes cur = some (pre ++ [o]) := poolNodes_of_seg hsc hseg
  obtain ⟨lc, hlc, -, hbackc⟩ := nodeLists_poolOK hi hsc
  have hlc : h.poolNodes cur = some lc := hlc
  rw [hpl] at hlc
  injection hlc with hlc
  subst hlc
  have halloc : ∀ {a : Nat} {ns : List Nat}, h.poolNodes a = some ns → ∀ x ∈ ns,
      ∃ y, h.nodeAt x = some y := by
    intro a ns hns x hx
    obtain ⟨s, -, hsg⟩ := seg_of_poolNodes hns
    obtain ⟨q, hq⟩ := Seg.alloc hsg x hx
    obtain ⟨y, hy, -⟩ := nodeNext_some hq
    exact ⟨y, hy⟩
  have hltN : ∀ {x : Nat} {y : uwsgi_subscribe_node}, h.nodeAt x = some y →
      x ≠ h.nodes.length := fun hxy e => by
    have := cell_lt hxy
    omega
  obtain ⟨no0, hno0⟩ := halloc hpl o (by simp)
  have hno : no = no0 := by
    have h1 : cell (h.nodes ++ [some new]) o = some no := hno1
    rw [nodeAt_append new o, if_neg (hltN hno0), hno0] at h1
    exact (Option.some.inj h1).symm
  subst hno
  have hoslot : no.slot = some cur := by
    have := hbackc o (by simp)
    rw [hno0] at this
    simpa using this
  have hnodup : (pre ++ [o]).Nodup := Seg.nodup hseg
  have ho_pre : o ∉ pre := by
    intro hm
    have := List.nodup_append.mp hnodup
    exact this.2.2 hm (by simp)
  -- the nodes of `pre` are as before
  have hpre : ∀ x ∈ pre, h2.nodeAt x = h.nodeAt x := by
    intro x hx
    obtain ⟨y, hy⟩ := halloc hpl x (by simp [hx])
    have hxo : x ≠ o := by
      rintro rfl
      exact ho_pre hx
    rw [hat2 x, if_neg hxo, if_neg (hltN hy)]
  have hcur : h2.poolNodes cur = some (pre ++ [o] ++ [h.nodes.length]) := by
    apply poolNodes_of_seg (by rw [hsl2]; exact hsc)
    obtain ⟨m, hs1, hs2⟩ := seg_append.mp hseg
    have hm : m = some o := hs2.1
    subst hm
    rw [List.append_assoc]
    refine seg_append.mpr ⟨some o, Seg.congr (fun x hx => ?_) hs1, rfl, some h.nodes.length, ?_,
      rfl, none, ?_, rfl⟩
    · simp only [Registry.nodeNext, hpre x hx]
    · simp only [Registry.nodeNext, hat2 o, if_true, Option.map_some']
    · have hne : h.nodes.length ≠ o := fun e => hltN hno0 e.symm
      simp only [Registry.nodeNext, hat2 h.nodes.length, if_neg hne, if_true, Option.map_some',
        hnext]
  have hother : ∀ a, a ≠ cur → ∀ ns, h.poolNodes a = some ns →
      (∀ n ∈ ns, (h.nodeAt n).map (fun x => x.slot) = some (some a)) →
      h2.poolNodes a = some ns ∧ ∀ x ∈ ns, h2.nodeAt x = h.nodeAt x := by
    intro a ha ns hns hback
    have hsame : ∀ x ∈ ns, h2.nodeAt x = h.nodeAt x := by
      intro x hx
      obtain ⟨y, hy⟩ := halloc hns x hx
      have hxo : x ≠ o := by
        rintro rfl
        have := hback x hx
        rw [hno0] at this
        have hsa : no.slot = some a := by simpa using this
        rw [hoslot] at hsa
        exact ha (Option.some.inj hsa).symm
      rw [hat2 x, if_neg hxo, if_neg (hltN hy)]
    exact ⟨poolOK_of_same hns (hsl2 a) hsame, hsame⟩
  constructor
  · intro a _ hsome
    rw [hsl2] at hsome
    obtain ⟨s, hs⟩ := Option.isSome_iff_exists.mp hsome
    by_cases ha : a = cur
    · subst ha
      refine ⟨_, hcur, by simp, fun n hn => ?_⟩
      rcases List.mem_append.mp hn with h1 | h1
      · rcases List.mem_append.mp h1 with h3 | h3
        · rw [hpre n h3]
          exact hbackc n (by simp [h3])
        · have : n = o := by simpa using h3
          subst this
          rw [hat2 n, if_pos rfl]
          simpa using hoslot
      · have : n = h.nodes.length := by simpa using h1
        subst this
        have hne : h.nodes.length ≠ o := fun e => hltN hno0 e.symm
        rw [hat2, if_neg hne, if_pos rfl]
        simpa using hslot
    · obtain ⟨ns, hns, hne, hback⟩ := nodeLists_poolOK hi hs
      obtain ⟨hp, hsame⟩ := hother a ha ns hns hback
      exact ⟨ns, hp, hne, fun n hn => by rw [hsame n hn]; exact hback n hn⟩
  · intro n _ x hx
    have hx : h2.nodeAt n = some x := hx
    rw [hat2 n] at hx
    by_cases hno' : n = o
    · subst hno'
      rw [if_pos rfl] at hx
      injection hx with hx
      subst hx
      exact ⟨cur, hoslot, _, hcur, by simp⟩
    · rw [if_neg hno'] at hx
      by_cases hnN : n = h.nodes.length
      · subst hnN
        rw [if_pos rfl] at hx
        injection hx with hx
        subst hx
        exact ⟨cur, hslot, _, hcur, by simp⟩
      · rw [if_neg hnN] at hx
        obtain ⟨a, ns, hsl, hns, hmem⟩ := nodeLists_home hi hx
        by_cases ha : a = cur
        · subst ha
          rw [hpl] at hns
          injection hns with hns
          subst hns
          exact ⟨a, hsl, _, hcur, List.mem_append_left _ hmem⟩
        · obtain ⟨s, hs⟩ := poolNodes_allocated hns
          obtain ⟨ns', hns', -, hback⟩ := nodeLists_poolOK hi hs
          have hns' : h.poolNodes a = some ns' := hns'
          rw [hns] at hns'
          injection hns' with hns'
          subst hns'
          exact ⟨a, hsl, ns, (hother a ha ns hns hback).1, hmem⟩

/-- The shape of the node lists survives the allocation of a pool with one node (source
lines 225-254). -/
theorem new_pool_nodeLists {h h1 : Registry} (p : uwsgi_subscribe_slot)
    (new : uwsgi_subscribe_node) (hi : NodeLists h) (hp : p.nodes = some h.nodes.length)
    (hslot : new.slot = some h.slots.length) (hnext : new.next = none)
    (hs1 : h1.slots = h.slots ++ [some p]) (hn1 : h1.nodes = h.nodes ++ [some new]) :
    NodeLists h1 := by
  have hat : ∀ x, h1.nodeAt x = if x = h.nodes.length then some new else h.nodeAt x := by
    intro x
    unfold Registry.nodeAt
    rw [hn1]
    exact nodeAt_append new x
  have hsl : ∀ x, h1.slotAt x = if x = h.slots.length then some p else h.slotAt x := by
    intro x
    unfold Registry.slotAt
    rw [hs1]
    exact slotAt_append p x
  have hnew : h1.poolNodes h.slots.length = some [h.nodes.length] := by
    apply poolNodes_of_seg (s := p) (by rw [hsl, if_pos rfl])
    rw [hp]
    exact ⟨rfl, none, by simp only [Registry.nodeNext, hat, if_true, Option.map_some', hnext],
      rfl⟩
  have hold : ∀ a ns, h.poolNodes a = some ns →
      h1.poolNodes a = some ns ∧ ∀ x ∈ ns, h1.nodeAt x = h.nodeAt x := by
    intro a ns hns
    obtain ⟨s, hs, hsg⟩ := seg_of_poolNodes hns
    have hsame : ∀ x ∈ ns, h1.nodeAt x = h.nodeAt x := by
      intro x hx
      obtain ⟨q, hq⟩ := Seg.alloc hsg x hx
      obtain ⟨y, hy, -⟩ := nodeNext_some hq
      have := cell_lt hy
      rw [hat x, if_neg (by omega)]
    have ha : a ≠ h.slots.length := by
      have := cell_lt hs
      omega
    exact ⟨poolOK_of_same hns (by rw [hsl a, if_neg ha]) hsame, hsame⟩
  constructor
  · intro a _ hsome
    rw [hsl a] at hsome
    by_cases ha : a = h.slots.length
    · subst ha
      refine ⟨_, hnew, by simp, fun n hn => ?_⟩
      have : n = h.nodes.length := by simpa using hn
      subst this
      rw [hat, if_pos rfl]
      simpa using hslot
    · rw [if_neg ha] at hsome
      obtain ⟨s, hs⟩ := Option.isSome_iff_exists.mp hsome
      obtain ⟨ns, hns, hne, hback⟩ := nodeLists_poolOK hi hs
      obtain ⟨hp', hsame⟩ := hold a ns hns
      exact ⟨ns, hp', hne, fun n hn => by rw [hsame n hn]; exact hback n hn⟩
  · intro n _ x hx
    have hx : h1.nodeAt n = some x := hx
    rw [hat n] at hx
    by_cases hn : n = h.nodes.length
    · subst hn
      rw [if_pos rfl] at hx
      injection hx with hx
      subst hx
      exact ⟨_, hslot, _, hnew, by simp⟩
    · rw [if_neg hn] at hx
      obtain ⟨a, ns, hsl', hns, hmem⟩ := nodeLists_home hi hx
      exact ⟨a, hsl', ns, (hold a ns hns).1, hmem⟩

/-- The shape of the node lists survives the loop of `uwsgi_add_subscribe_node` over the
nodes of a pool and the allocation that follows it. -/
theorem add_loop_nodeLists (usr : uwsgi_subscribe_req) (now : Int) (cur : Nat) (h : Registry)
    (sc : uwsgi_subscribe_slot) (hi : NodeLists h) (hsc : h.slotAt cur = some sc) :
    ∀ (rest pre : List Nat) (fuel : Nat) (p : Option Nat) (r : Option Nat × Registry),
      Seg h.nodeNext sc.nodes (pre ++ rest) none → Seg h.nodeNext p rest none →
      pre ++ rest ≠ [] →
      add_loop usr now cur fuel h p pre.getLast? = some r → NodeLists r.2 := by
  intro rest
  induction rest with
  | nil =>
    intro pre fuel p r hall hp hne hr
    have hpn : p = none := hp
    subst hpn
    have hr' : (do
        let h2 ← (match pre.getLast? with
          | some o => ({ h with nodes := h.nodes ++ [some
              { name := usr.address.take usr.address_len, len := usr.address_len,
                modifier1 := usr.modifier1, modifier2 := usr.modifier2, reference := 0,
                death_mark := false, last_check := now, slot := some cur,
                next := none }] } : Registry).modifyNode o
              (fun x => { x with next := some h.nodes.length })
          | none => some ({ h with nodes := h.nodes ++ [some
              { name := usr.address.take usr.address_len, len := usr.address_len,
                modifier1 := usr.modifier1, modifier2 := usr.modifier2, reference := 0,
                death_mark := false, last_check := now, slot := some cur,
                next := none }] } : Registry))
        some (some h.nodes.length, h2)) = some r := by
      cases fuel <;> simpa only [add_loop] using hr
    rcases List.eq_nil_or_concat' pre with rfl | ⟨pre1, o, rfl⟩
    · simp at hne
    · have hl : (pre1 ++ [o]).getLast? = some o := by simp
      rw [hl] at hr'
      simp only [Option.bind_eq_bind, Option.bind_eq_some] at hr'
      obtain ⟨h2, e2, hr'⟩ := hr'
      injection hr' with hr'
      subst hr'
      have hall' : Seg h.nodeNext sc.nodes (pre1 ++ [o]) none := by simpa using hall
      exact append_node_nodeLists _ hi hsc hall' rfl rfl e2
  | cons a rest ih =>
    intro pre fuel p r hall hp _ hr
    obtain ⟨rfl, q, hq, hrest⟩ := hp
    obtain ⟨nd, hnd, rfl⟩ := nodeNext_some hq
    cases fuel with
    | zero => simp [add_loop] at hr
    | succ fuel =>
      simp only [add_loop, Option.bind_eq_bind, hnd, Option.some_bind] at hr
      split at hr
      · simp only [Option.bind_eq_bind, Option.bind_eq_some] at hr
        obtain ⟨h1, e1, hr⟩ := hr
        injection hr with hr
        subst hr
        exact (sameLists_modifyNode e1 (fun _ => ⟨rfl, rfl⟩)).shape hi
      · have hall' : Seg h.nodeNext sc.nodes ((pre ++ [a]) ++ rest) none := by simpa using hall
        have hlast : (pre ++ [a]).getLast? = some a := by simp
        rw [← hlast] at hr
        exact ih (pre ++ [a]) fuel nd.next r hall' hrest (by simp) hr

/-- The shape of the node lists survives the creation of a pool. -/
theorem new_slot_nodeLists {rx : Pcre} {h : Registry} {usr : uwsgi_subscribe_req}
    {regexp : Bool} {now : Int} {r : Option Nat × Registry} (hi : NodeLists h)
    (hr : new_slot rx h usr regexp now = some r) : NodeLists r.2 := by
  simp only [new_slot] at hr
  by_cases hk : usr.keylen > key_room
  · rw [if_pos hk] at hr
    simp at hr
  rw [if_neg hk] at hr
  by_cases hc : regexp = true ∧ rx.uwsgi_regexp_build (usr.key.take usr.keylen) ≠ 0
  · rw [if_pos hc] at hr
    simp only [Option.bind_eq_bind, Option.bind_eq_some] at hr
    obtain ⟨hf, ef, hr⟩ := hr
    injection hr with hr
    subst hr
    have hsl : ∀ a, hf.slotAt a = h.slotAt a := by
      intro a
      rw [freeSlot_slotAt ef a]
      by_cases e : a = h.slots.length
      · rw [if_pos e]
        subst e
        symm
        unfold Registry.slotAt cell
        rw [List.getElem?_eq_none (le_refl _)]
      · rw [if_neg e]
        show cell (h.slots ++ [_]) a = h.slotAt a
        rw [slotAt_append, if_neg e]
    have hn : hf.nodes = h.nodes := by
      have := freeSlot_nodes ef
      exact this
    have hs : SameLists h hf :=
      ⟨by rw [hn], fun a => by rw [hsl a], fun n => by simp only [Registry.nodeAt, hn]⟩
    exact hs.shape hi
  · rw [if_neg hc] at hr
    simp only [Option.bind_eq_bind, Option.bind_eq_some] at hr
    obtain ⟨h2, e2, c, -, hr⟩ := hr
    have hlink : ∀ (h1 : Registry), NodeLists h1 →
        (if regexp = true then
          (longer_loop usr.keylen h1.slotFuel h1 h1.head).bind (fun old_slot =>
            match old_slot with
            | some o => link_before h1 h.slots.length o
            | none => link_last h1 h.slots.length)
        else link_last h1 h.slots.length) = some h2 → NodeLists h2 := by
      intro h1 i1 e
      have c2 : SameCore h1 h2 := by
        by_cases hreg : regexp = true
        · rw [if_pos hreg] at e
          simp only [Option.bind_eq_some] at e
          obtain ⟨old_slot, -, e⟩ := e
          cases old_slot with
          | some o => exact link_before_sameCore e
          | none => exact link_last_sameCore e
        · rw [if_neg hreg] at e
          exact link_last_sameCore e
      exact (SameLists.of_core c2).shape i1
    have i2 : NodeLists h2 := by
      refine hlink _ ?_ e2
      exact new_pool_nodeLists
        { key := usr.key.take usr.keylen, keylen := usr.keylen, hits := 0, rr := 0,
          nodes := some h.nodes.length, prev := none, next := none,
          pattern := if regexp = true then some (usr.key.take usr.keylen) else none }
        { name := usr.address.take usr.address_len, len := usr.address_len,
          modifier1 := usr.modifier1, modifier2 := usr.modifier2, reference := 0,
          death_mark := false, last_check := now, slot := some h.slots.length, next := none }
        hi rfl rfl rfl rfl rfl
    by_cases hh : h2.head = none ∨ c.prev = none
    · rw [if_pos hh] at hr
      injection hr with hr
      subst hr
      exact (SameLists.of_core (SameCore.of_head h2 _)).shape i2
    · rw [if_neg hh] at hr
      injection hr with hr
      subst hr
      exact i2

/-- The shape of the node lists survives `uwsgi_add_subscribe_node`. -/
theorem add_nodeLists {rx : Pcre} {h : Registry} {usr : uwsgi_subscribe_req} {regexp : Bool}
    {now : Int} {r : Option Nat × Registry} (hi : NodeLists h)
    (hr : uwsgi_add_subscribe_node rx h usr regexp now = some r) : NodeLists r.2 := by
  unfold uwsgi_add_subscribe_node at hr
  simp only [Option.bind_eq_bind, Option.bind_eq_some] at hr
  obtain ⟨r0, e0, hr⟩ := hr
  have i0 : NodeLists r0.2 := (SameLists.of_core (get_slot_sameCore e0)).shape hi
  split at hr
  · injection hr with hr
    subst hr
    exact i0
  · split at hr
    · simp only [Option.bind_eq_bind, Option.bind_eq_some] at hr
      obtain ⟨s, hs, hr⟩ := hr
      obtain ⟨ns, hns, hne, -⟩ := nodeLists_poolOK i0 hs
      obtain ⟨s', hs', hseg⟩ := seg_of_poolNodes hns
      rw [hs] at hs'
      injection hs' with hs'
      subst hs'
      have hl : ([] : List Nat).getLast? = none := rfl
      rw [← hl] at hr
      exact add_loop_nodeLists usr now _ r0.2 s i0 hs ns [] _ _ r (by simpa using hseg) hseg
        (by simpa using hne) hr
    · exact new_slot_nodeLists i0 hr

theorem nodeLists_empty : NodeLists Registry.empty := by decide

/-- The shape of the node lists holds in every memory that the four operations reach
from a memory in which it holds. -/
theorem run_preserves_nodeLists (rx : Pcre) (tolerance : Int) :
    ∀ (ops : List Op) (h : Registry) (r : List (Option Nat) × Registry), NodeLists h →
      run rx tolerance h ops = some r → NodeLists r.2 := by
  intro ops
  induction ops with
  | nil =>
    intro h r hi hr
    simp only [run] at hr
    injection hr with hr
    subst hr
    exact hi
  | cons op ops ih =>
    intro h r hi hr
    rw [run_cons] at hr
    simp only [Option.bind_eq_some] at hr
    obtain ⟨r1, e1, rs, ers, hr⟩ := hr
    injection hr with hr
    subst hr
    have i1 : NodeLists r1.2 := by
      cases op with
      | announce usr regexp now => exact add_nodeLists hi e1
      | select key keylen regexp now => exact select_nodeLists hi e1
      | release node =>
        simp only [Op.exec, Option.map_eq_some'] at e1
        obtain ⟨h1, e, rfl⟩ := e1
        exact (sameLists_modifyNode e (fun _ => ⟨rfl, rfl⟩)).shape hi
      | remove node =>
        simp only [Op.exec, Option.map_eq_some'] at e1
        obtain ⟨r0, e, rfl⟩ := e1
        exact remove_nodeLists hi e
    exact ih r1.2 rs i1 ers

/-- In every memory reached from the empty registry by announcements, selects, releases
and removals the node lists are in shape. -/
theorem run_nodeLists (rx : Pcre) (tolerance : Int) (ops : List Op)
    (r : List (Option Nat) × Registry)
    (hr : run rx tolerance Registry.empty ops = some r) : NodeLists r.2 :=
  run_preserves_nodeLists rx tolerance ops Registry.empty r nodeLists_empty hr

/-- Two pools announced at time 0 and a select of the first key at time 11 (tolerance
10) leave a memory whose head still points to the freed pool 0; its node lists are in
shape, but the next select starts its walk in the freed pool and has no defined result.
The theorems on selection below therefore speak of the calls that return. -/
theorem select_after_freed_head_undefined :
    ∃ r ∈ run sample_pcre 10 Registry.empty
        [.announce (mkreq [1] [1]) false 0, .announce (mkreq [2] [1]) false 0,
         .select [1] 1 false 11],
      NodeLists r.2 ∧
      uwsgi_get_subscribe_node sample_pcre 10 r.2 [2] 1 false 11 = none := by
  decide

/-! ## Selection in every reachable memory -/

/-- C3: in every memory whose node lists are in shape (which every memory reached from
the empty registry is), when a call of `uwsgi_get_subscribe_node` (any key, mode and
time) returns, every node that had a reference above zero before the call is still
allocated, still names the same pool in `slot`, has not lost a reference and is still in
the node list of that pool, whether or not it is stale or death-marked.  The same holds
of every node that is neither death-marked nor stale; hence a node that the call takes
out was unreferenced and dead (death-marked or stale) when the call began. -/
theorem referenced_nodes_survive_select (rx : Pcre) (tolerance : Int) (h : Registry)
    (key : List Nat) (keylen : Nat) (regexp : Bool) (current : Int)
    (r : Option Nat × Registry) (hi : NodeLists h)
    (hr : uwsgi_get_subscribe_node rx tolerance h key keylen regexp current = some r) :
    ∀ n nd, h.nodeAt n = some nd →
      (0 < nd.reference ∨ (nd.death_mark = false ∧ current - nd.last_check ≤ tolerance)) →
      ∃ nd1, r.2.nodeAt n = some nd1 ∧ nd1.slot = nd.slot ∧ nd.reference ≤ nd1.reference ∧
        ∃ a ∈ nd.slot, (∃ ns ∈ h.poolNodes a, n ∈ ns) ∧ ∃ ns1 ∈ r.2.poolNodes a, n ∈ ns1 := by
  intro n nd hnd hg
  obtain ⟨a, ns, hslot, hns, hmem⟩ := nodeLists_home hi hnd
  rcases select_inv hr with ⟨-, c0, -⟩ | ⟨cur, h0, h2, s0, hget, hs0, -, -⟩
  · refine ⟨nd, by rw [c0.node_eq]; exact hnd, rfl, le_refl _, a, hslot, ⟨ns, hns, hmem⟩, ns, ?_,
      hmem⟩
    show r.2.poolNodes a = some ns
    rw [(SameLists.of_core c0).pool_eq]
    exact hns
  · obtain ⟨sc0, hsc0, -⟩ := (get_slot_sameCore hget).core_symm.core_alloc hs0
    have hok : PoolOK h cur := nodeLists_poolOK hi hsc0
    obtain ⟨sc, nsc, g, s1, hsc, hnsc, hne, hnodes, lg, hinv, -, hfuel, hsim⟩ :=
      select_unlinked hok hget hr
    have hinv' : PoolInv g cur s1 ([] ++ nsc) := by simpa using hinv
    obtain ⟨r1, hr1, hframe, hkeep, -⟩ :=
      node_loop_keeps current tolerance cur nsc g [] g.nodeFuel s1.nodes 0 s1 hinv' hinv.2.1 hfuel
    obtain ⟨-, c1⟩ := hsim r1 hr1
    have hgn : g.nodeAt n = some nd := by
      simp only [Registry.nodeAt, hnodes]; exact hnd
    have hgp : g.poolNodes a = some ns := by rw [lg.pool_eq]; exact hns
    have hback : r.2.nodeAt n = r1.2.nodeAt n := (c1.node_eq n).symm
    have hpn : r.2.poolNodes a = r1.2.poolNodes a :=
      ((SameLists.of_core c1).pool_eq a).symm
    by_cases hac : a = cur
    · subst hac
      obtain ⟨nd1, h1, h2', h3, -, ns1, h5, h6⟩ := hkeep n nd hgn hg ⟨ns, hgp, hmem⟩
      exact ⟨nd1, by rw [hback]; exact h1, h2', h3, a, hslot, ⟨ns, hns, hmem⟩, ns1,
        by rw [hpn]; exact h5, h6⟩
    · obtain ⟨sa, hsa, -⟩ := seg_of_poolNodes hns
      obtain ⟨nsa, hnsa, -, hbacka⟩ := nodeLists_poolOK hi hsa
      have hnsa : h.poolNodes a = some nsa := hnsa
      rw [hns] at hnsa
      injection hnsa with hnsa
      subst hnsa
      have hbg : ∀ m ∈ ns, (g.nodeAt m).map (fun x => x.slot) = some (some a) := by
        intro m hm
        rw [lg.slot_eq]
        exact hbacka m hm
      obtain ⟨hp1, hn1⟩ := frame_pool hframe hac hgp hbg
      refine ⟨nd, by rw [hback, hn1 n hmem]; exact hgn, rfl, le_refl _, a, hslot,
        ⟨ns, hns, hmem⟩, ns, by rw [hpn]; exact hp1, hmem⟩

/-- The memory `held_stale` is reached from the empty registry. -/
theorem held_stale_reached :
    (run sample_pcre 10 Registry.empty held_stale_ops).map Prod.snd = some held_stale := by
  decide

/-- C3 at `held_stale`, which is not well formed, with every node stale at the time of the
select. -/
theorem referenced_nodes_survive_select_witness :
    NodeLists held_stale ∧ ¬ WellFormed held_stale ∧
    ∃ r, uwsgi_get_subscribe_node sample_pcre 10 held_stale [2] 1 false 11 = some r ∧
      ∀ n nd, held_stale.nodeAt n = some nd →
        (0 < nd.reference ∨ (nd.death_mark = false ∧ 11 - nd.last_check ≤ 10)) →
        ∃ nd1, r.2.nodeAt n = some nd1 ∧ nd1.slot = nd.slot ∧
          nd.reference ≤ nd1.reference ∧
          ∃ a ∈ nd.slot, (∃ ns ∈ held_stale.poolNodes a, n ∈ ns) ∧
            ∃ ns1 ∈ r.2.poolNodes a, n ∈ ns1 :=
  ⟨by decide, by decide, _, rfl,
    referenced_nodes_survive_select sample_pcre 10 held_stale [2] 1 false 11 _ (by decide) rfl⟩

/-- C18: after `late_stale_ops` the pool 0 holds the nodes 0 and 1; node 1 was last
announced at time 0 and is unreferenced, so at time 11 with tolerance 10 it is stale.  A
select of the key at time 11 returns node 0 and leaves node 1 allocated and in the node
list of the pool: the walk stopped at node 0 and never reached node 1. -/
theorem stale_node_survives_select :
    ∃ r ∈ run sample_pcre 10 Registry.empty late_stale_ops,
      r.2.poolNodes 0 = some [0, 1] ∧
      (r.2.nodeAt 1).map (fun n => (n.death_mark, n.last_check, n.reference)) =
        some (false, 0, 0) ∧
      ∃ r' ∈ uwsgi_get_subscribe_node sample_pcre 10 r.2 [107] 1 false 11,
        r'.1 = some 0 ∧ r'.2.poolNodes 0 = some [0, 1] ∧ (r'.2.nodeAt 1).isSome = true := by
  decide

/-- C18, as the code behaves: in every memory whose node lists are in shape (which every
memory reached from the empty registry is), let `cur` be the pool that
`uwsgi_get_subscribe_slot` returns for the key and `ns` its node list, and let the call of
`uwsgi_get_subscribe_node` return.  The call has walked a prefix `visited` of `ns` and
has not touched the nodes `later` behind it.  Every node of `visited` that was dead
(death-marked or stale) and unreferenced when the call began is freed and is in no node
list of the pool afterwards; the node list of the pool afterwards is the guarded nodes
of `visited` followed by `later`, and when that is empty the pool is freed and `NULL` is
returned.  Either the whole list was walked and the first node that remains is returned,
or the walk stopped at the first node `N` of `later`, which is returned: `N` is guarded
and has exactly `rr` guarded nodes before it, and the nodes after `N` are as they were,
dead and unreferenced ones included. -/
theorem select_evicts_visited_nodes (rx : Pcre) (tolerance : Int) (h : Registry)
    (key : List Nat) (keylen : Nat) (regexp : Bool) (current : Int) (cur : Nat)
    (h0 : Registry) (r : Option Nat × Registry) (hi : NodeLists h)
    (hget : uwsgi_get_subscribe_slot rx h key keylen regexp = some (some cur, h0))
    (hr : uwsgi_get_subscribe_node rx tolerance h key keylen regexp current = some r) :
    ∃ sc ns visited later,
      h.slotAt cur = some sc ∧ h.poolNodes cur = some ns ∧ ns = visited ++ later ∧
      (∀ n ∈ visited, ∀ nd, h.nodeAt n = some nd →
        (nd.death_mark = true ∨ current - nd.last_check > tolerance) → nd.reference = 0 →
        r.2.nodeAt n = none ∧ ∀ ns1 ∈ r.2.poolNodes cur, n ∉ ns1) ∧
      (visited.filter (h.guarded current tolerance) ++ later = [] →
        r.1 = none ∧ r.2.slotAt cur = none) ∧
      (visited.filter (h.guarded current tolerance) ++ later ≠ [] →
        r.2.poolNodes cur = some (visited.filter (h.guarded current tolerance) ++ later)) ∧
      ((later = [] ∧ r.1 = (visited.filter (h.guarded current tolerance)).head?) ∨
        ∃ N later1, later = N :: later1 ∧ r.1 = some N ∧
          h.guarded current tolerance N = true ∧
          (visited.filter (h.guarded current tolerance)).length = sc.rr ∧
          ∀ n ∈ later1, r.2.nodeAt n = h.nodeAt n) := by
  obtain ⟨sc0, hsc0, -⟩ : ∃ s, h.slotAt cur = some s ∧ True := by
    rcases select_inv hr with ⟨-, -, hno⟩ | ⟨cur', h0', h2, s0, hget', hs0, -, -⟩
    · exact absurd hget (hno cur h0)
    · rw [hget] at hget'
      have hcc : cur = cur' ∧ h0 = h0' := by
        injection hget' with hget'
        injection hget' with hc hh
        injection hc with hc
        exact ⟨hc, hh⟩
      obtain ⟨rfl, rfl⟩ := hcc
      obtain ⟨s, hs, -⟩ := (get_slot_sameCore hget).core_symm.core_alloc hs0
      exact ⟨s, hs, trivial⟩
  have hok : PoolOK h cur := nodeLists_poolOK hi hsc0
  obtain ⟨sc, ns, g, s1, hsc, hns, hne, hnodes, lg, hinv, hrr, hfuel, hsim⟩ :=
    select_unlinked hok hget hr
  have hinv' : PoolInv g cur s1 ([] ++ ns) := by simpa using hinv
  obtain ⟨r1, hr1, visited, later, hsplit, hfreed, hempty, hlist, hstop⟩ :=
    node_loop_sweep current tolerance cur ns g [] g.nodeFuel s1.nodes 0 s1 hinv' hinv.2.1 hfuel
      (by simpa using hne)
  obtain ⟨hres, c1⟩ := hsim r1 hr1
  have hgat : ∀ x, g.nodeAt x = h.nodeAt x := fun x => by simp only [Registry.nodeAt, hnodes]
  have hgg : g.guarded current tolerance = h.guarded current tolerance := by
    funext x
    simp only [Registry.guarded, hgat]
  rw [hgg] at hempty hlist hstop
  simp only [List.nil_append] at hempty hlist hstop
  have hrat : ∀ x, r.2.nodeAt x = r1.2.nodeAt x := fun x => (c1.node_eq x).symm
  have hrp : ∀ a, r.2.poolNodes a = r1.2.poolNodes a := fun a =>
    ((SameLists.of_core c1).pool_eq a).symm
  refine ⟨sc, ns, visited, later, hsc, hns, hsplit, ?_, ?_, ?_, ?_⟩
  · intro n hn nd hnd hdead href
    have hng : ¬ Guarded current tolerance nd := by
      rintro (hp | ⟨hd, hs⟩)
      · omega
      · rcases hdead with hd' | hs'
        · rw [hd] at hd'; simp at hd'
        · omega
    have hnone : r.2.nodeAt n = none := by
      rw [hrat]
      exact hfreed n hn nd (by rw [hgat]; exact hnd) hng
    refine ⟨hnone, fun ns1 hns1 hmem => ?_⟩
    obtain ⟨sx, -, hseg1⟩ := seg_of_poolNodes hns1
    obtain ⟨q, hq⟩ := Seg.alloc hseg1 n hmem
    obtain ⟨x, hx, -⟩ := nodeNext_some hq
    rw [hnone] at hx
    simp at hx
  · intro he
    obtain ⟨e1, e2⟩ := hempty he
    refine ⟨by rw [← hres]; exact e1, ?_⟩
    have hcs := c1.2.2 cur
    rw [e2] at hcs
    cases hx : r.2.slotAt cur with
    | none => rfl
    | some s => rw [hx] at hcs; simp at hcs
  · intro hne'
    obtain ⟨sc1, hi1⟩ := hlist hne'
    rw [hrp]
    exact poolNodes_of_seg hi1.1 hi1.2.1
  · rcases hstop with ⟨hnil, hhead⟩ | ⟨N, later1, hl1, hrN, hgN, hcount, hlater⟩
    · exact Or.inl ⟨hnil, by rw [← hres]; exact hhead⟩
    · refine Or.inr ⟨N, later1, hl1, by rw [← hres]; exact hrN, hgN, ?_, fun n hn => ?_⟩
      · rw [← hrr, ← hcount]; omega
      · rw [hrat, hlater n hn, hgat]

/-- The amended C18 at `held_stale`, which is not well formed, with every node stale at
the time of the select. -/
theorem select_evicts_visited_nodes_witness :
    NodeLists held_stale ∧ ¬ WellFormed held_stale ∧
    uwsgi_get_subscribe_slot sample_pcre held_stale [2] 1 false = some (some 1, held_stale) ∧
    ∃ r, uwsgi_get_subscribe_node sample_pcre 10 held_stale [2] 1 false 11 = some r ∧
      ∃ sc ns visited later,
        held_stale.slotAt 1 = some sc ∧ held_stale.poolNodes 1 = some ns ∧
        ns = visited ++ later ∧
        (∀ n ∈ visited, ∀ nd, held_stale.nodeAt n = some nd →
          (nd.death_mark = true ∨ 11 - nd.last_check > 10) → nd.reference = 0 →
          r.2.nodeAt n = none ∧ ∀ ns1 ∈ r.2.poolNodes 1, n ∉ ns1) ∧
        (visited.filter (held_stale.guarded 11 10) ++ later = [] →
          r.1 = none ∧ r.2.slotAt 1 = none) ∧
        (visited.filter (held_stale.guarded 11 10) ++ later ≠ [] →
          r.2.poolNodes 1 = some (visited.filter (held_stale.guarded 11 10) ++ later)) ∧
        ((later = [] ∧ r.1 = (visited.filter (held_stale.guarded 11 10)).head?) ∨
          ∃ N later1, later = N :: later1 ∧ r.1 = some N ∧
            held_stale.guarded 11 10 N = true ∧
            (visited.filter (held_stale.guarded 11 10)).length = sc.rr ∧
            ∀ n ∈ later1, r.2.nodeAt n = held_stale.nodeAt n) :=
  ⟨by decide, by decide, rfl, _, rfl,
    select_evicts_visited_nodes sample_pcre 10 held_stale [2] 1 false 11 1 held_stale _
      (by decide) rfl rfl⟩

end Subscription
